import Mathlib

/-!
# FriendLink networking core: codec, packets, property streams, locations

A shallow embedding of the shared networking code of FriendLink
(`src/FriendLink-Common`): the fixed-width integer codec and the IEEE-754
packer of `DataHandling.cpp`, packet framing and the framed receive routine
of `DataHandling.cpp` / `Connection.cpp` / `Buffers.cpp`, and the property
stream and `Location` value of `game_structures.cpp`.

Conventions of the embedding.

* A `char` is a natural number, its unsigned reading (0..255).  Unsigned
  machine integers are naturals reduced modulo `2 ^ w` where the source can
  overflow; `int32_t` values are integers in `[-2^31, 2^31)`.
* The code is WinSock code and runs on little-endian x86 hosts, so `htons`,
  `htonl` reverse the bytes of their argument.
* A C++ exception is `Fault.thrown what`; reading a `std::vector` outside
  its bounds (undefined behaviour in the source) is `Fault.outOfBounds`.
* Loops whose termination depends on the data take a fuel argument and end
  in `Fault.outOfFuel` when the fuel runs out.
-/

set_option linter.dupNamespace false

/-! ## Outcomes of fallible code -/

/-- How a call can end without returning a value: a thrown C++ exception (with
its `what()` text); an access outside the bounds of a `std::vector`; a
blocking `recv` on a connection that stays open and delivers nothing more;
or the fuel of the model running out (a call that is `outOfFuel` for every
fuel is a call that never returns). -/
inductive Fault where
  | thrown (what : String)
  | outOfBounds
  | blocked
  | outOfFuel
  deriving DecidableEq, Repr

deriving instance DecidableEq for Except

namespace Network

/-- A `char`, by its unsigned value. -/
abbrev Byte := Nat

/-! ## Integer codec (`DataHandling.cpp`) -/

/-- `EncodeInt<integer>`: `value[i] = (a >> (i * 8)) & 0xFF` for
`i < sizeof integer`; `size` is `sizeof integer`. -/
def EncodeInt (size : Nat) (a : Nat) : List Byte :=
  (List.range size).map fun i => (a >>> (i * 8)) &&& 0xFF

/-- `DecodeUInt<integer>`:
`value |= ((integer)((unsigned char)v[i]) << (i * 8))` for `i < sizeof integer`,
the result kept in `sizeof integer` bytes.  Every caller passes exactly
`sizeof integer` bytes; a missing byte reads as 0 here. -/
def DecodeUInt (size : Nat) (v : List Byte) : Nat :=
  (List.range size).foldl
    (fun value i => value ||| (((v.getD i 0 % 256) <<< (i * 8)) % 2 ^ (8 * size))) 0

/-- WinSock `htons` on a little-endian host: the two bytes of a 16-bit value
swapped. -/
def htons (a : Nat) : Nat :=
  ((a &&& 0xFF) <<< 8) ||| ((a >>> 8) &&& 0xFF)

/-- WinSock `ntohs`, the same byte swap. -/
def ntohs (a : Nat) : Nat := htons a

/-- WinSock `htonl` on a little-endian host: the four bytes of a 32-bit value
reversed. -/
def htonl (a : Nat) : Nat :=
  ((a &&& 0xFF) <<< 24) ||| (((a >>> 8) &&& 0xFF) <<< 16)
    ||| (((a >>> 16) &&& 0xFF) <<< 8) ||| ((a >>> 24) &&& 0xFF)

/-- WinSock `ntohl`, the same byte reversal. -/
def ntohl (a : Nat) : Nat := htonl a

/-- `Pack_uint8`: `EncodeInt<uint8_t>(a)[0]`. -/
def Pack_uint8 (a : Nat) : Byte := (EncodeInt 1 a).headD 0

/-- `Unpack_uint8`: `DecodeUInt<uint8_t>({ c })`. -/
def Unpack_uint8 (c : Byte) : Nat := DecodeUInt 1 [c]

/-- `Pack_uint16`: `EncodeInt<uint16_t>(htons(a))`. -/
def Pack_uint16 (a : Nat) : List Byte := EncodeInt 2 (htons a)

/-- `Unpack_uint16`: `ntohs(DecodeUInt<uint16_t>(v))`. -/
def Unpack_uint16 (v : List Byte) : Nat := ntohs (DecodeUInt 2 v)

/-- `Pack_uint32`: `EncodeInt<uint32_t>(htonl(a))`. -/
def Pack_uint32 (a : Nat) : List Byte := EncodeInt 4 (htonl a)

/-- `Unpack_uint32`: `ntohl(DecodeUInt<uint32_t>(v))`. -/
def Unpack_uint32 (v : List Byte) : Nat := ntohl (DecodeUInt 4 v)

/-- `Pack_int32(uint32_t a)`: `EncodeInt<int32_t>(htonl(a))`; the argument
has already been converted to `uint32_t`. -/
def Pack_int32 (a : Nat) : List Byte := EncodeInt 4 (htonl a)

/-- `Unpack_int32`: `ntohl(DecodeUInt<int32_t>(v))`, returned as `uint32_t`. -/
def Unpack_int32 (v : List Byte) : Nat := ntohl (DecodeUInt 4 v)

/-- Conversion `int32_t -> uint32_t` (two's complement). -/
def toUInt32 (i : Int) : Nat := (i % 2 ^ 32).toNat

/-- Conversion `uint32_t -> int32_t` (two's complement, as MSVC does it). -/
def toInt32 (u : Nat) : Int :=
  if u % 2 ^ 32 < 2 ^ 31 then ((u % 2 ^ 32 : Nat) : Int) else ((u % 2 ^ 32 : Nat) : Int) - 2 ^ 32

/-- The big-endian (most significant byte first) four-byte representation of
a 32-bit value, written out arithmetically. -/
def bigEndian32 (u : Nat) : List Byte :=
  [u / 2 ^ 24 % 256, u / 2 ^ 16 % 256, u / 2 ^ 8 % 256, u % 256]

end Network

/-! ## Single-precision floats

The `float` of the source is IEEE-754 binary32.  A value is kept as its three
bit fields, and the handful of operations that `Pack_float754` and
`Unpack_float754` perform on floats are given their IEEE meaning: the exact
result, rounded to nearest with ties to even (`F32.round`). -/

namespace Network

/-- A binary32 value by its bit fields: the sign bit, the 8-bit biased
exponent (`exp < 256`) and the 23-bit fraction (`man < 2 ^ 23`).  Exponent
field 0 is zero or a denormal, 255 is an infinity (fraction 0) or a NaN. -/
structure F32 where
  sign : Bool
  exp : Nat
  man : Nat
  deriving DecidableEq, Repr

namespace F32

/-- The bit fields are in range. -/
def Valid (x : F32) : Prop := x.exp < 256 ∧ x.man < 2 ^ 23

instance (x : F32) : Decidable x.Valid := by unfold Valid; infer_instance

/-- Not an infinity and not a NaN. -/
def isFinite (x : F32) : Bool := decide (x.exp < 255)

/-- An infinity. -/
def isInf (x : F32) : Bool := decide (255 ≤ x.exp) && decide (x.man = 0)

/-- A NaN. -/
def isNaN (x : F32) : Bool := decide (255 ≤ x.exp) && decide (x.man ≠ 0)

/-- A denormal: exponent field 0, fraction not 0. -/
def isDenormal (x : F32) : Bool := decide (x.exp = 0) && decide (x.man ≠ 0)

/-- The integer significand of a finite value: the fraction, with the implicit
leading one for a normal number. -/
def sig (x : F32) : Nat := if x.exp = 0 then x.man else 2 ^ 23 + x.man

/-- The exponent of the unit of the significand: a finite `x` has magnitude
`sig x * 2 ^ ex x`. -/
def ex (x : F32) : Int := if x.exp = 0 then -149 else (x.exp : Int) - 150

/-- `m / 2 ^ k` rounded to the nearest integer, ties to the even one. -/
def rne (m k : Nat) : Nat :=
  let d := m / 2 ^ k
  let r := m % 2 ^ k
  if 2 ^ k < 2 * r ∨ (2 * r = 2 ^ k ∧ d % 2 = 1) then d + 1 else d

/-- The binary32 value nearest to `(-1)^s * m * 2 ^ e` (ties to even), an
infinity when that overflows.  `q` is the exponent of the last place kept,
`M` the significand at that exponent. -/
def round (s : Bool) (m : Nat) (e : Int) : F32 :=
  if m = 0 then ⟨s, 0, 0⟩
  else
    let q : Int := max (e + (m.size : Int) - 24) (-149)
    let M : Nat := if q ≤ e then m * 2 ^ (e - q).toNat else rne m (q - e).toNat
    let q1 : Int := if M = 2 ^ 24 then q + 1 else q
    let M1 : Nat := if M = 2 ^ 24 then 2 ^ 23 else M
    if M1 < 2 ^ 23 then ⟨s, 0, M1⟩
    else if 104 < q1 then ⟨s, 255, 0⟩
    else ⟨s, (q1 + 150).toNat, M1 - 2 ^ 23⟩

/-- `x * 2 ^ k` as a float operation (`x *= 2.0f`, `x /= 2.0f`,
`x /= (1LL << 23)`, ...): exact up to the final rounding; infinities and NaNs
are kept. -/
def scale (x : F32) (k : Int) : F32 :=
  if 255 ≤ x.exp then x else round x.sign x.sig (x.ex + k)

/-- `x + c` as a float operation, for an integer constant `c` that is not 0
(`x - 1.0f`, `x + 1.0f`): the exact sum, rounded; an exact cancellation
gives `+0`. -/
def addInt (x : F32) (c : Int) : F32 :=
  if 255 ≤ x.exp then x
  else
    let e : Int := min x.ex 0
    let X : Int := ((x.sig * 2 ^ (x.ex - e).toNat : Nat) : Int)
    let S : Int := (if x.sign then -X else X) + c * ((2 ^ (0 - e).toNat : Nat) : Int)
    if S = 0 then ⟨false, 0, 0⟩ else round (decide (S < 0)) S.natAbs e

/-- The conversion `float(n)` of an integer. -/
def ofInt (n : Int) : F32 := round (decide (n < 0)) n.natAbs 0

/-- The conversion `(int32_t)x`: truncation toward zero; for a NaN, an
infinity or a value outside `int32_t` the x86 conversion instruction gives
`0x80000000` (the C++ standard leaves those cases undefined). -/
def toInt32 (x : F32) : Int :=
  if 255 ≤ x.exp then -2 ^ 31
  else
    let mag : Nat := if 0 ≤ x.ex then x.sig * 2 ^ x.ex.toNat else x.sig / 2 ^ (-x.ex).toNat
    let v : Int := if x.sign then -(mag : Int) else mag
    if v < -2 ^ 31 ∨ 2 ^ 31 ≤ v then -2 ^ 31 else v

/-- The value of `x` in units of `2 ^ -149` (every finite binary32 is a
whole number of them), the infinities placed beyond the finite range; used
to compare. -/
def ord (x : F32) : Int :=
  let mag : Nat := if 255 ≤ x.exp then 2 ^ 277 else x.sig * 2 ^ (x.ex + 149).toNat
  if x.sign then -(mag : Int) else mag

/-- The comparison `x < y` of floats (false when either is a NaN). -/
def lt (x y : F32) : Bool := !x.isNaN && !y.isNaN && decide (x.ord < y.ord)

/-- The comparison `x <= y` of floats. -/
def le (x y : F32) : Bool := !x.isNaN && !y.isNaN && decide (x.ord ≤ y.ord)

/-- The comparison `x == y` of floats: `-0.0 == 0.0`, and a NaN equals
nothing. -/
def eq (x y : F32) : Bool := !x.isNaN && !y.isNaN && decide (x.ord = y.ord)

/-- The negation `-x`. -/
def neg (x : F32) : F32 := { x with sign := !x.sign }

/-- The IEEE-754 bit pattern of a float: sign, exponent field, fraction. -/
def bits (x : F32) : Nat := (if x.sign then 1 else 0) * 2 ^ 31 + x.exp * 2 ^ 23 + x.man

/-- `0.0f`. -/
def zero : F32 := ⟨false, 0, 0⟩

/-- `1.0f`. -/
def one : F32 := ⟨false, 127, 0⟩

/-- `2.0f`. -/
def two : F32 := ⟨false, 128, 0⟩

/-- `-0.0f`. -/
def negZero : F32 := ⟨true, 0, 0⟩

/-- `+infinity`. -/
def inf : F32 := ⟨false, 255, 0⟩

end F32

/-! ## The float packer (`DataHandling.cpp`) -/

/-- The first loop of `Pack_float754`:
`while (dnorm >= 2.0f) { dnorm /= 2.0f; shift++; }`. -/
def Pack_float754.normDown : Nat → F32 → Int → Except Fault (F32 × Int)
  | 0, _, _ => .error .outOfFuel
  | fuel + 1, dnorm, shift =>
    if F32.le F32.two dnorm then Pack_float754.normDown fuel (dnorm.scale (-1)) (shift + 1)
    else .ok (dnorm, shift)

/-- The second loop of `Pack_float754`:
`while (dnorm < 1.0f) { dnorm *= 2.0f; shift--; }`. -/
def Pack_float754.normUp : Nat → F32 → Int → Except Fault (F32 × Int)
  | 0, _, _ => .error .outOfFuel
  | fuel + 1, dnorm, shift =>
    if F32.lt dnorm F32.one then Pack_float754.normUp fuel (dnorm.scale 1) (shift - 1)
    else .ok (dnorm, shift)

/-- `Pack_float754(float d)`.  The factor `(1LL << significandbits) + 0.5f`
is the float nearest to 8388608.5, which is `2 ^ 23`, so the product is
`dnorm.scale 23`; `sign`, `exp` and `significand` are `int32_t` and the
fields are combined on their two's-complement bits. -/
def Pack_float754 (fuel : Nat) (d : F32) : Except Fault (List Byte) :=
  let encoder : Nat := 0
  if F32.eq d F32.zero then .ok (Pack_uint32 encoder)
  else
    let sign : Int := if F32.lt d F32.zero then 1 else 0
    let dnorm : F32 := if F32.lt d F32.zero then d.neg else d
    match Pack_float754.normDown fuel dnorm 0 with
    | .error f => .error f
    | .ok (dnorm, shift) =>
      match Pack_float754.normUp fuel dnorm shift with
      | .error f => .error f
      | .ok (dnorm, shift) =>
        let dnorm := dnorm.addInt (-1)
        let significand : Int := (dnorm.scale 23).toInt32
        let exp : Int := shift + ((1 <<< (8 - 1)) - 1)
        let encoder : Nat :=
          ((toUInt32 sign <<< 31) % 2 ^ 32) ||| ((toUInt32 exp <<< 23) % 2 ^ 32)
            ||| toUInt32 significand
        .ok (Pack_uint32 encoder)

/-- `Unpack_float754(vector<char> vec)`; the two `while` loops on `shift` run
`shift` and `-shift` times. -/
def Unpack_float754 (vec : List Byte) : F32 :=
  let decoder := Unpack_uint32 vec
  if decoder = 0 then F32.zero
  else
    let result := F32.ofInt ((decoder &&& (2 ^ 23 - 1) : Nat) : Int)
    let result := result.scale (-23)
    let result := result.addInt 1
    let bias : Int := (1 <<< (8 - 1)) - 1
    let shift : Int := (((decoder >>> 23) &&& (2 ^ 8 - 1) : Nat) : Int) - bias
    let result := (fun r => F32.scale r 1)^[shift.toNat] result
    let result := (fun r => F32.scale r (-1))^[(-shift).toNat] result
    if (decoder >>> 31) &&& 1 ≠ 0 then result.neg else result

end Network

/-! ## Packets (`DataHandling.h`, `DataHandling.cpp`) -/

namespace Network.Packet

/-- `kSizeOfType`. -/
def kSizeOfType : Nat := 6

/-- `enum class Type` of `Network::Packet` (named `PacketType` here, `Type`
being reserved). -/
inductive PacketType where
  | kUndefined
  | kInitialMessage
  | kProperties
  | kStatus
  | kSocketDisconnect
  | kDataRequest
  deriving DecidableEq, Repr

/-- The enumerator's number, `uint8_t(type)`. -/
def PacketType.toUInt8 : PacketType → Nat
  | .kUndefined => 0
  | .kInitialMessage => 1
  | .kProperties => 2
  | .kStatus => 3
  | .kSocketDisconnect => 4
  | .kDataRequest => 5

/-- The cast `Type(x)` for `x < kSizeOfType`. -/
def PacketType.ofUInt8 : Nat → PacketType
  | 1 => .kInitialMessage
  | 2 => .kProperties
  | 3 => .kStatus
  | 4 => .kSocketDisconnect
  | 5 => .kDataRequest
  | _ => .kUndefined

/-- `Packet::UnpackType`: out-of-range bytes become `kUndefined`. -/
def UnpackType (packed_type : Byte) : PacketType :=
  let x := Unpack_uint8 packed_type
  if x ≥ kSizeOfType then .kUndefined else PacketType.ofUInt8 x

/-- `Packet::PackType`. -/
def PackType (type : PacketType) : Byte := Pack_uint8 type.toUInt8

/-- `kUniqueCode`. -/
def kUniqueCode : Nat := 25655

/-- `kHeaderSize = sizeof(uint32_t) + 2 * sizeof(char)`. -/
def kHeaderSize : Nat := 4 + 2 * 1

/-- `class Packet`: type, client slot, payload. -/
structure Packet where
  type : PacketType
  client : Nat
  data : List Byte
  deriving DecidableEq, Repr

/-- `Packet::DataSize`: `data().size()` returned as `uint32_t`. -/
def Packet.DataSize (p : Packet) : Nat := p.data.length % 2 ^ 32

/-- `Packet::PackedSize`. -/
def Packet.PackedSize (p : Packet) : Nat := (kHeaderSize + p.DataSize) % 2 ^ 32

/-- `Packet::Header`.  The source builds `header` from `Pack_uint16(kUniqueCode)`,
then `header.insert(header.begin(), data_size.begin(), data_size.end())`
puts the four size bytes *before* it, then the type and client bytes are
pushed at the back. -/
def Packet.Header (p : Packet) : List Byte :=
  let header := Pack_uint16 kUniqueCode
  let data_size := Pack_uint32 p.DataSize
  let header := data_size ++ header
  let header := header ++ [PackType p.type]
  header ++ [Pack_uint8 p.client]

/-- `Packet::Packed`: header, then payload. -/
def Packet.Packed (p : Packet) : List Byte :=
  p.Header ++ p.data

/-- The wire layout of the specification (section 6): `magic` (2 bytes,
big-endian) at offset 0, `data_size` (4 bytes, big-endian) at offset 2, the
type byte, the client byte, then the payload. -/
def wireLayout (p : Packet) : List Byte :=
  [0x64, 0x37] ++ bigEndian32 p.data.length ++ [p.type.toUInt8, p.client] ++ p.data

end Network.Packet


/-! ## Circular receive buffer (`Buffers.h`, `Buffers.cpp`) -/

namespace Data.Buffer

open Network (Byte)

/-- `class Circular`: `buffer_`, `start_ = 0`, `end_ = 1`.  The counters are
`size_t` values that the source never reduces; they are naturals here. -/
structure Circular where
  buffer_ : List Byte
  start_ : Nat
  end_ : Nat
  deriving DecidableEq, Repr

/-- `Circular(size_t size) : buffer_(size)`. -/
def Circular.create (size : Nat) : Circular :=
  { buffer_ := List.replicate size 0, start_ := 0, end_ := 1 }

/-- The loop of `Circular::Push`, entered with `idx = end_ + i`:
`bufInd = (end_ + i) % buffer_.size()`, throw when `bufInd == start_`,
otherwise `buffer_[bufInd] = carray[i]`. -/
def Circular.PushLoop (start_ : Nat) : Nat → List Byte → List Byte → Except Fault (List Byte)
  | _, [], buffer_ => .ok buffer_
  | idx, b :: carray, buffer_ =>
    let bufInd := idx % buffer_.length
    if bufInd = start_ then .error (.thrown "Circular Buffer is Full.")
    else Circular.PushLoop start_ (idx + 1) carray (buffer_.set bufInd b)

/-- `Circular::Push(carray, n)`, the `n` bytes given as a list; `end_ += n`
after the loop. -/
def Circular.Push (c : Circular) (carray : List Byte) : Except Fault Circular :=
  match Circular.PushLoop c.start_ c.end_ carray c.buffer_ with
  | .error f => .error f
  | .ok buffer_ => .ok { c with buffer_ := buffer_, end_ := c.end_ + carray.length }

/-- The loop of `Circular::Pop`, for `i` from `i` to `n - 1` (`k` iterations
left): `bufInd = (start_ + i + 1) % buffer_.size()`, throw when
`bufInd == end_`, otherwise `result[i] = buffer_[bufInd]`. -/
def Circular.PopLoop (c : Circular) : Nat → Nat → Except Fault (List Byte)
  | 0, _ => .ok []
  | k + 1, i =>
    let bufInd := (c.start_ + i + 1) % c.buffer_.length
    if bufInd = c.end_ then .error (.thrown "Circular Buffer is Empty.")
    else
      match Circular.PopLoop c k (i + 1) with
      | .error f => .error f
      | .ok result => .ok (c.buffer_.getD bufInd 0 :: result)

/-- `Circular::Pop(n)`; `start_ += n` after the loop. -/
def Circular.Pop (c : Circular) (n : Nat) : Except Fault (List Byte × Circular) :=
  match Circular.PopLoop c n 0 with
  | .error f => .error f
  | .ok result => .ok (result, { c with start_ := c.start_ + n })

/-- `Circular::Length`:
`start_ > end_ ? buffer_.size() - start_ + end_ - 1 : end_ - start_ - 1`,
in `size_t` arithmetic (32 bits wide in the Win32 build). -/
def Circular.Length (c : Circular) : Nat :=
  if c.start_ > c.end_ then (c.buffer_.length + 2 ^ 32 - c.start_ % 2 ^ 32 + c.end_ + 2 ^ 32 - 1) % 2 ^ 32
  else (c.end_ + 2 ^ 32 - c.start_ % 2 ^ 32 + 2 ^ 32 - 1) % 2 ^ 32

end Data.Buffer

/-! ## Sockets and framed receive (`Connection.h`, `Connection.cpp`) -/

namespace Network

open Data.Buffer

/-- `kBufferSize`. -/
def kBufferSize : Nat := 1024

/-- `kAntiCongestion`, in milliseconds. -/
def kAntiCongestion : Nat := 35

/-- What one call of WinSock `recv` returns: `len > 0` bytes, 0 (the peer
closed the connection), `SOCKET_ERROR` with `WSAECONNABORTED`, or
`SOCKET_ERROR` with another error code. -/
inductive RecvEvent where
  | data (bytes : List Byte)
  | closed
  | aborted
  | failed (code : Nat)
  deriving DecidableEq, Repr

/-- `class Socket`, as far as receiving goes: whether the handle is valid
(`IsValid()`), the staging buffer `recieved_data_` and, standing for the
network, the results the coming `recv` calls will deliver, in order.  When
they are used up and the connection is still open, `recv` blocks. -/
structure Socket where
  valid : Bool
  recieved_data_ : Circular
  network : List RecvEvent
  deriving DecidableEq, Repr

/-- A freshly connected socket: `recieved_data_ {kBufferSize * 2}`. -/
def Socket.connected (network : List RecvEvent) : Socket :=
  { valid := true, recieved_data_ := Circular.create (kBufferSize * 2), network := network }

/-- The `while` loop of `Network::Receive`: as long as
`recieved_data().Length() < n`, call `recv`; return `{}` on 0 bytes or
`WSAECONNABORTED`, throw `RecvException` on another error, otherwise push
what arrived.  The result is `(filled, buffer, network left)`, `filled`
false when the function returns the empty vector. -/
def ReceiveLoop (n : Nat) : List RecvEvent → Circular →
    Except Fault (Bool × Circular × List RecvEvent)
  | [], buf => if buf.Length < n then .error .blocked else .ok (true, buf, [])
  | ev :: rest, buf =>
    if buf.Length < n then
      match ev with
      | .data bytes =>
        if bytes.length = 0 then .ok (false, buf, ev :: rest)
        else
          match buf.Push bytes with
          | .error f => .error f
          | .ok buf1 => ReceiveLoop n rest buf1
      | .closed => .ok (false, buf, ev :: rest)
      | .aborted => .ok (false, buf, ev :: rest)
      | .failed _ => .error (.thrown "Unable to recv data")
    else .ok (true, buf, ev :: rest)

/-- `Network::Receive(Socket&, uint32_t n)`: fill the staging buffer up to `n`
bytes, then `Pop(n)`. -/
def Receive (socket : Socket) (n : Nat) : Except Fault (List Byte × Socket) :=
  match ReceiveLoop n socket.network socket.recieved_data_ with
  | .error f => .error f
  | .ok (false, buf, network) =>
    .ok ([], { socket with recieved_data_ := buf, network := network })
  | .ok (true, buf, network) =>
    match buf.Pop n with
    | .error f => .error f
    | .ok (result, buf1) =>
      .ok (result, { socket with recieved_data_ := buf1, network := network })

/-- The `for` loop of `ReceiveUntil`, entered with index `i`: while
`i < code.size() && blocking_socket.IsValid()`, receive one byte; return
false when nothing came, advance `i` on a match, otherwise `i = 0`. -/
def ReceiveUntilLoop (code : List Byte) : Nat → Socket → Nat → Except Fault (Bool × Socket)
  | 0, _, _ => .error .outOfFuel
  | fuel + 1, blocking_socket, i =>
    if i < code.length && blocking_socket.valid then
      match Receive blocking_socket 1 with
      | .error f => .error f
      | .ok (received, socket1) =>
        if received.isEmpty then .ok (false, socket1)
        else if received.headD 0 = code.getD i 0 then ReceiveUntilLoop code fuel socket1 (i + 1)
        else ReceiveUntilLoop code fuel socket1 0
    else .ok (true, blocking_socket)

/-- `Network::ReceiveUntil(Socket&, std::vector<char> code)`. -/
def ReceiveUntil (fuel : Nat) (blocking_socket : Socket) (code : List Byte) :
    Except Fault (Bool × Socket) :=
  ReceiveUntilLoop code fuel blocking_socket 0

end Network

namespace Network.Packet

/-- The packet `{Type::kSocketDisconnect, 0, {}}` that `Receive` returns
when a read brought nothing. -/
def disconnectPacket : Packet := { type := .kSocketDisconnect, client := 0, data := [] }

/-- `Packet::Receive(Socket&)`: scan for the two bytes of `kUniqueCode`, read
`kHeaderSize` bytes, take the client byte and the type byte off the back of
the header, read the size from the four bytes left, and read that many data
bytes. -/
def Receive (fuel : Nat) (socket : Socket) : Except Fault (Packet × Socket) :=
  match ReceiveUntil fuel socket (Pack_uint16 kUniqueCode) with
  | .error f => .error f
  | .ok (false, socket1) => .ok (disconnectPacket, socket1)
  | .ok (true, socket1) =>
    match Network.Receive socket1 kHeaderSize with
    | .error f => .error f
    | .ok (header, socket2) =>
      if header.isEmpty then .ok (disconnectPacket, socket2)
      else
        let client := Unpack_uint8 (header.getLastD 0)
        let header := header.dropLast
        let type := UnpackType (header.getLastD 0)
        let header := header.dropLast
        let data_size := Unpack_uint32 header
        match Network.Receive socket2 data_size with
        | .error f => .error f
        | .ok (data, socket3) =>
          if data.isEmpty then .ok (disconnectPacket, socket3)
          else .ok ({ type := type, client := client, data := data }, socket3)

end Network.Packet

/-! ## Properties and property streams (`game_structures.h`, `game_structures.cpp`) -/

namespace Game.Property

open Network

/-- `kTypeCount`. -/
def kTypeCount : Nat := 7

/-- `enum class Type` of `Game::Property` (named `PropertyType` here). -/
inductive PropertyType where
  | kId
  | ksCellName
  | kStatus
  | ksName
  | kLocation
  | ksWorldSpaceName
  | kLoadedState
  deriving DecidableEq, Repr

/-- The enumerator's number, `uint8_t(type)`. -/
def PropertyType.toUInt8 : PropertyType → Nat
  | .kId => 0
  | .ksCellName => 1
  | .kStatus => 2
  | .ksName => 3
  | .kLocation => 4
  | .ksWorldSpaceName => 5
  | .kLoadedState => 6

/-- The cast `Type(x)` for `x < kTypeCount`. -/
def PropertyType.ofUInt8 : Nat → PropertyType
  | 0 => .kId
  | 1 => .ksCellName
  | 2 => .kStatus
  | 3 => .ksName
  | 4 => .kLocation
  | 5 => .ksWorldSpaceName
  | _ => .kLoadedState

/-- `Property::PackType`. -/
def PackType (type : PropertyType) : Byte := Pack_uint8 type.toUInt8

/-- `Property::UnpackType`: throws when `kTypeCount <= x`. -/
def UnpackType (c : Byte) : Except Fault PropertyType :=
  let x := Unpack_uint8 c
  if kTypeCount ≤ x then .error (.thrown "Property type char out of range.")
  else .ok (PropertyType.ofUInt8 x)

/-- `struct Property`. -/
structure Property where
  type : PropertyType
  value : List Byte
  deriving DecidableEq, Repr

/-- `class Stream`: the packed bytes and the flag `test` (initially false). -/
structure Stream where
  properties_packed_ : List Byte
  test : Bool
  deriving DecidableEq, Repr

/-- `Stream()`. -/
def Stream.empty : Stream := { properties_packed_ := [], test := false }

/-- `Stream(std::vector<char> packed_properties)`. -/
def Stream.ofPacked (packed_properties : List Byte) : Stream :=
  { properties_packed_ := packed_properties, test := false }

/-- `Stream::Empty`. -/
def Stream.Empty (s : Stream) : Bool := s.properties_packed_.isEmpty

/-- `Stream::Packed`. -/
def Stream.Packed (s : Stream) : List Byte := s.properties_packed_

/-- `Stream::operator bool`: false once `test` is set; otherwise true, setting
`test` when the stream is empty.  Returns the answer and the stream after
the call. -/
def Stream.toBool (s : Stream) : Bool × Stream :=
  if s.test then (false, s)
  else if s.Empty then (true, { s with test := true })
  else (true, s)

/-- `Stream::operator<<(const Property&)`: the type byte, the value size as
`uint32`, the value. -/
def Stream.append (s : Stream) (property : Property) : Stream :=
  let packed := s.properties_packed_ ++ [PackType property.type]
  let size := Pack_uint32 (property.value.length % 2 ^ 32)
  let packed := packed ++ size
  { s with properties_packed_ := packed ++ property.value }

/-- `Stream::operator<<(const Stream&)`. -/
def Stream.appendStream (s : Stream) (stream : Stream) : Stream :=
  { s with properties_packed_ := s.properties_packed_ ++ stream.properties_packed_ }

/-- The vector `{first, first + n}` built from iterators into `v`, `first`
being `v.begin() + off`: defined when the range lies inside `v`. -/
def range (v : List Byte) (off n : Nat) : Except Fault (List Byte) :=
  if off + n ≤ v.length then .ok ((v.drop off).take n) else .error .outOfBounds

/-- `Stream::operator>>(Property&)`: nothing happens on an empty stream;
otherwise the type is unpacked from the first byte, the size from the next
four, the value from the `size` bytes after them, and the bytes up to there
are erased.  The source checks no length, so a range that leaves the vector
is an out-of-bounds read.  Returns the stream and the property after the
call. -/
def Stream.extract (s : Stream) (property : Property) : Except Fault (Stream × Property) :=
  if s.Empty then .ok (s, property)
  else
    match UnpackType (s.properties_packed_.headD 0) with
    | .error f => .error f
    | .ok type =>
      match range s.properties_packed_ 1 4 with
      | .error f => .error f
      | .ok sizeBytes =>
        let size := Unpack_uint32 sizeBytes
        match range s.properties_packed_ (1 + 4) size with
        | .error f => .error f
        | .ok value =>
          .ok ({ s with properties_packed_ := s.properties_packed_.drop (1 + 4 + size) },
               { type := type, value := value })

/-- The documented driver `for (Property p; stream >> p;) { body(p); }`:
the list of the properties the body is run with.  `p` is the loop variable,
handed from one iteration to the next; the fuel bounds the iterations. -/
def Stream.drain : Nat → Stream → Property → Except Fault (List Property)
  | 0, _, _ => .error .outOfFuel
  | fuel + 1, stream, p =>
    match stream.extract p with
    | .error f => .error f
    | .ok (stream1, p1) =>
      match stream1.toBool with
      | (false, _) => .ok []
      | (true, stream2) =>
        match Stream.drain fuel stream2 p1 with
        | .error f => .error f
        | .ok seen => .ok (p1 :: seen)

/-- A fresh stream with the given properties appended in order by
`operator<<`. -/
def Stream.ofList (properties : List Property) : Stream :=
  properties.foldl Stream.append Stream.empty

end Game.Property

/-! ## Locations (`game_structures.h`, `game_structures.cpp`) -/

namespace Game

open Network Game.Property

/-- `class Location`.  `position_` is the `std::vector<float>`; every
constructor leaves it with `kDimension` entries. -/
structure Location where
  has_world_space_ : Bool
  has_cell_ : Bool
  world_space_id_ : Nat
  cell_id_ : Nat
  time_elapsed_ : Int
  position_ : List F32
  deriving DecidableEq, Repr

namespace Location

/-- `kDimension`. -/
def kDimension : Nat := 3

/-- `kLocationTypeSize = sizeof(int32_t) + sizeof(char) + 2 * sizeof(uint32_t)
+ kDimension * kSizeOfPackedFloat`. -/
def kLocationTypeSize : Nat := 4 + 1 + 2 * 4 + kDimension * 4

/-- The fields hold values of their C++ types: 32-bit ids, an `int32_t`
time, `kDimension` floats. -/
def Valid (l : Location) : Prop :=
  l.world_space_id_ < 2 ^ 32 ∧ l.cell_id_ < 2 ^ 32
    ∧ -2 ^ 31 ≤ l.time_elapsed_ ∧ l.time_elapsed_ < 2 ^ 31
    ∧ l.position_.length = kDimension ∧ ∀ c ∈ l.position_, c.Valid

instance (l : Location) : Decidable l.Valid := by unfold Valid; infer_instance

/-- `Location::x`, `position_[0]`. -/
def x (l : Location) : F32 := l.position_.getD 0 F32.zero

/-- `Location::y`, `position_[1]`. -/
def y (l : Location) : F32 := l.position_.getD 1 F32.zero

/-- `Location::z`, `position_[2]`. -/
def z (l : Location) : F32 := l.position_.getD 2 F32.zero

/-- `Location::PackNotNulls`: bit 1 for `has_world_space_`, bit 0 for
`has_cell_`. -/
def PackNotNulls (l : Location) : Byte :=
  let c : Nat := 0x0
  let c := if l.has_world_space_ then c ||| 0x2 else c
  let c := if l.has_cell_ then c ||| 0x1 else c
  c

/-- `Location::UnpackNotNulls`: the pair `(has_world_space_, has_cell_)`. -/
def UnpackNotNulls (c : Byte) : Bool × Bool :=
  (decide (c &&& 0x2 = 0x2), decide (c &&& 0x1 = 0x1))

/-- The loop of `Location::ToProperty` over `position_`: each coordinate is
packed and appended. -/
def packPosition (fuel : Nat) : List F32 → Except Fault (List Byte)
  | [] => .ok []
  | coord :: rest =>
    match Pack_float754 fuel coord with
    | .error f => .error f
    | .ok coordinate =>
      match packPosition fuel rest with
      | .error f => .error f
      | .ok location => .ok (coordinate ++ location)

/-- `Location::ToProperty`. -/
def ToProperty (fuel : Nat) (l : Location) : Except Fault Property :=
  let location : List Byte := []
  let time_elapsed := Pack_int32 (toUInt32 l.time_elapsed_)
  let location := location ++ time_elapsed
  let location := location ++ [l.PackNotNulls]
  let world_space_id := Pack_uint32 l.world_space_id_
  let location := location ++ world_space_id
  let cell_id := Pack_uint32 l.cell_id_
  let location := location ++ cell_id
  match packPosition fuel l.position_ with
  | .error f => .error f
  | .ok position => .ok { type := .kLocation, value := location ++ position }

/-- The loop of `Location::Location(Property)` over the `kDimension`
coordinates, `k` of them left, the iterator at offset `off`. -/
def unpackPosition (value : List Byte) : Nat → Nat → Except Fault (List F32)
  | 0, _ => .ok []
  | k + 1, off =>
    match range value off 4 with
    | .error f => .error f
    | .ok coordinate =>
      match unpackPosition value k (off + 4) with
      | .error f => .error f
      | .ok rest => .ok (Unpack_float754 coordinate :: rest)

/-- `Location::Location(Property::Property location_property)`. -/
def ofProperty (location_property : Property) : Except Fault Location :=
  if location_property.type ≠ .kLocation
      ∨ location_property.value.length ≠ kLocationTypeSize then
    .error (.thrown "Location creation failed. Property is wrong.")
  else
    let value := location_property.value
    match range value 0 4 with
    | .error f => .error f
    | .ok time =>
      let time_elapsed_ := toInt32 (Unpack_int32 time)
      match range value 4 1 with
      | .error f => .error f
      | .ok flags =>
        let notNulls := UnpackNotNulls (flags.headD 0)
        match range value (4 + 1) 4 with
        | .error f => .error f
        | .ok ws =>
          let world_space_id_ := Unpack_uint32 ws
          match range value (4 + 1 + 4) 4 with
          | .error f => .error f
          | .ok cell =>
            let cell_id_ := Unpack_uint32 cell
            match unpackPosition value kDimension (4 + 1 + 4 + 4) with
            | .error f => .error f
            | .ok position_ =>
              .ok { has_world_space_ := notNulls.1, has_cell_ := notNulls.2,
                    world_space_id_ := world_space_id_, cell_id_ := cell_id_,
                    time_elapsed_ := time_elapsed_, position_ := position_ }

end Location

end Game

/-! ## The packet constructor from bytes and the initial message
(`DataHandling.h`, `DataHandling.cpp`, `ServerLink.cpp`) -/

namespace Network.Packet

open Game.Property (range)

/-- `Packet::Packet(vector<char> packed_packet)`.  An empty vector gives a
`kSocketDisconnect` packet (`client_` keeps its initialiser 0).  Otherwise
the first two bytes must unpack to `kUniqueCode`, the next `kHeaderSize`
bytes are the header, read from the back as in `Receive`, and the rest is
copied into the local vector `data`, which is not stored: `data_` stays
empty. -/
def Packet.ofPacked (packed_packet : List Byte) : Except Fault Packet :=
  if packed_packet.length = 0 then
    .ok { type := .kSocketDisconnect, client := 0, data := [] }
  else
    match range packed_packet 0 2 with
    | .error f => .error f
    | .ok code =>
      if kUniqueCode ≠ Unpack_uint16 code then
        .error (.thrown "Initializer code did not match.")
      else
        match range packed_packet 2 kHeaderSize with
        | .error f => .error f
        | .ok header =>
          let client_ := Unpack_uint8 (header.getLastD 0)
          let header := header.dropLast
          let type_ := UnpackType (header.getLastD 0)
          let header := header.dropLast
          let _data_size := Unpack_uint32 header
          let _data := packed_packet.drop (2 + kHeaderSize)
          .ok { type := type_, client := client_, data := [] }

end Network.Packet

namespace Network

/-- `class InitialMessage`: `max_clients_`, `client_slot_`. -/
structure InitialMessage where
  max_clients_ : Nat
  client_slot_ : Nat
  deriving DecidableEq, Repr

/-- `InitialMessage::ConnectionAccepted`: `client_slot_ <= max_clients_`. -/
def InitialMessage.ConnectionAccepted (m : InitialMessage) : Bool :=
  decide (m.client_slot_ ≤ m.max_clients_)

/-- The test of `ServerLink::ReceiveInitialMessage` for "Server is full.":
`server_slot_ >= init_message.max_clients()`. -/
def InitialMessage.serverIsFull (m : InitialMessage) : Bool :=
  decide (m.client_slot_ ≥ m.max_clients_)

/-! ## Sending and the UDP gate (`Connection.h`, `Connection.cpp`) -/

/-- `std::chrono::milliseconds(n)` as a duration in nanoseconds. -/
def milliseconds (n : Nat) : Int := (n : Int) * 1000000

/-- `class Socket`, as far as sending goes: whether `IsTcp()` holds (the
socket type is `SOCK_STREAM`), the stored `time_last_sent_` (a point of
`std::chrono::steady_clock`, counted in nanoseconds) and, standing for the
network, the buffers that have been written out with `send`, in order. -/
structure SendSocket where
  is_tcp : Bool
  time_last_sent_ : Int
  wire : List (List Byte)
  deriving DecidableEq, Repr

/-- `Socket::ReadyToSend`, the two readings of the clock given as `now` and
`now1`: the answer is `time_last_sent_ + milliseconds(kAntiCongestion) <= now`
and `time_last_sent_` becomes `now1`. -/
def SendSocket.ReadyToSend (s : SendSocket) (now now1 : Int) : Bool × SendSocket :=
  let result := decide (s.time_last_sent_ + milliseconds kAntiCongestion ≤ now)
  (result, { s with time_last_sent_ := now1 })

/-- The `while (len > 0)` loop of `Network::Send` when no `send` call fails:
every byte of `data` is written out; for an empty vector `send` is not
called. -/
def SendSocket.sendAll (s : SendSocket) (data : List Byte) : SendSocket :=
  if data.length > 0 then { s with wire := s.wire ++ [data] } else s

/-- `Network::Send(Socket&, std::vector<char>)`:
`if (socket.IsTcp() || socket.ReadyToSend())` the data is written out.  The
`||` does not evaluate `ReadyToSend` for a TCP socket. -/
def Send (socket : SendSocket) (data : List Byte) (now now1 : Int) : SendSocket :=
  if socket.is_tcp then socket.sendAll data
  else
    match socket.ReadyToSend now now1 with
    | (true, socket1) => socket1.sendAll data
    | (false, socket1) => socket1

end Network

/-! ## What a socket will deliver

The staging buffer seen as a queue of bytes, and the bytes a socket is going
to hand to `Receive`; used to state what `Receive` returns on a stream. -/

namespace Data.Buffer

open Network (Byte)

/-- The `k` bytes stored at the positions `pos, pos + 1, ...` of the ring
(taken modulo its size). -/
def Circular.readFrom (buffer_ : List Byte) : Nat → Nat → List Byte
  | _, 0 => []
  | pos, k + 1 => buffer_.getD (pos % buffer_.length) 0 :: Circular.readFrom buffer_ (pos + 1) k

/-- The bytes that were pushed and are not popped yet, oldest first: the
`end_ - start_ - 1` positions after `start_`. -/
def Circular.unread (c : Circular) : List Byte :=
  Circular.readFrom c.buffer_ (c.start_ + 1) (c.end_ - c.start_ - 1)

/-- The counters of a buffer in use: `start_` is behind `end_`, fewer bytes
than the ring has places are unread, and `end_` has not reached the range of
`size_t`. -/
def Circular.Consistent (c : Circular) : Prop :=
  c.start_ < c.end_ ∧ c.end_ - c.start_ ≤ c.buffer_.length ∧ c.end_ < 2 ^ 32

end Data.Buffer

namespace Network

open Data.Buffer

/-- The socket is going to deliver the bytes `stream` next: its buffer has
`kBufferSize * 2` places and consistent counters, which stay below `2 ^ 32`
(the range of `size_t`) while `stream` is read, and `stream` is the
beginning of the unread bytes of the buffer followed by what the coming
`recv` calls return, each of them between 1 and `kBufferSize` bytes, before
anything else happens on the connection. -/
def Socket.Delivers (s : Socket) (stream : List Byte) : Prop :=
  s.recieved_data_.Consistent ∧ s.recieved_data_.buffer_.length = kBufferSize * 2
    ∧ s.recieved_data_.start_ + stream.length + 4096 ≤ 2 ^ 32
    ∧ ∃ (chunks : List (List Byte)) (rest : List RecvEvent),
        s.network = chunks.map RecvEvent.data ++ rest
          ∧ (∀ c ∈ chunks, 0 < c.length ∧ c.length ≤ kBufferSize)
          ∧ stream <+: s.recieved_data_.unread ++ chunks.flatten

end Network

/-! ## The fixed queue between two threads (`Sharing.h`, `Sharing.cpp`) -/

namespace Data.Sharing

open Network (Byte)

/-- `class Node`, with the member initialisers of the class: not the start,
ready to be written, not the end, no value. -/
structure Node where
  is_start_ : Bool := false
  write_ready_ : Bool := true
  is_end_ : Bool := false
  value_ : List Byte := []
  deriving DecidableEq, Repr, Inhabited

/-- `Node::Write`. -/
def Node.Write (node : Node) (v : List Byte) : Node :=
  { node with value_ := v, write_ready_ := false }

/-- `Node::Read(bool& did_read)`: the vector returned, `did_read`, and the
node afterwards. -/
def Node.Read (node : Node) : List Byte × Bool × Node :=
  if node.is_end_ && node.write_ready_ then ([], false, node)
  else (node.value_, true, { node with write_ready_ := true })

/-- `Node::MarkStart`. -/
def Node.MarkStart (node : Node) (b : Bool) : Node := { node with is_start_ := b }

/-- `Node::MarkEnd`. -/
def Node.MarkEnd (node : Node) (b : Bool) : Node := { node with is_end_ := b }

/-- `kDefaultBufferSize`. -/
def kDefaultBufferSize : Nat := 5

/-- `class FixedQueue`. -/
structure FixedQueue where
  did_read_ : Bool
  read_index_ : Nat
  write_index_ : Nat
  data : List Node
  deriving DecidableEq, Repr

/-- The node `data[i]`; the indices the queue uses stay below `data.size()`
(`FixedQueue.WF`). -/
def FixedQueue.node (q : FixedQueue) (i : Nat) : Node := q.data.getD i default

/-- A call `data[i].f(...)` that modifies the node in place. -/
def FixedQueue.onNode (q : FixedQueue) (i : Nat) (f : Node → Node) : FixedQueue :=
  { q with data := q.data.set i (f (q.node i)) }

/-- `FixedQueue::FixedQueue(size_t buffer_size)`: `buffer_size` fresh nodes,
`data[0]` marked as end and as start.  With `buffer_size` 0 the constructor
indexes an empty vector. -/
def FixedQueue.create (buffer_size : Nat) : Except Fault FixedQueue :=
  if buffer_size = 0 then .error .outOfBounds
  else
    let q : FixedQueue :=
      { did_read_ := false, read_index_ := 0, write_index_ := 0,
        data := List.replicate buffer_size {} }
    .ok ((q.onNode 0 (Node.MarkEnd · true)).onNode 0 (Node.MarkStart · true))

/-- `FixedQueue::FixedQueue()`: `kDefaultBufferSize` fresh nodes, `data[0]`
marked as end and as start. -/
def FixedQueue.createDefault : FixedQueue :=
  let q : FixedQueue :=
    { did_read_ := false, read_index_ := 0, write_index_ := 0,
      data := List.replicate kDefaultBufferSize {} }
  (q.onNode 0 (Node.MarkEnd · true)).onNode 0 (Node.MarkStart · true)

/-- `FixedQueue::NextFrom`. -/
def FixedQueue.NextFrom (q : FixedQueue) (index : Nat) : Nat :=
  if index + 1 ≥ q.data.length then 0 else index + 1

/-- `FixedQueue::MoveStart`: the index returned and the queue afterwards. -/
def FixedQueue.MoveStart (q : FixedQueue) (old_start : Nat) : Nat × FixedQueue :=
  if (q.node old_start).is_end_ then (old_start, q)
  else
    let new_start := q.NextFrom old_start
    let q := q.onNode new_start (Node.MarkStart · true)
    let q := q.onNode old_start (Node.MarkStart · false)
    (new_start, q)

/-- `FixedQueue::MoveEnd`: the index returned and the queue afterwards. -/
def FixedQueue.MoveEnd (q : FixedQueue) (old_end : Nat) : Nat × FixedQueue :=
  let new_end := q.NextFrom old_end
  if (q.node new_end).is_start_ || (q.node old_end).write_ready_ then (old_end, q)
  else
    let q := q.onNode new_end (Node.MarkEnd · true)
    let q := q.onNode old_end (Node.MarkEnd · false)
    (new_end, q)

/-- `FixedQueue::Push(vector<char>)`. -/
def FixedQueue.Push (q : FixedQueue) (vec : List Byte) : FixedQueue :=
  let (write_index_, q) := q.MoveEnd q.write_index_
  let q := { q with write_index_ := write_index_ }
  q.onNode q.write_index_ (Node.Write · vec)

/-- `FixedQueue::Pop()`: the vector returned and the queue afterwards;
`operator bool` of the queue is `did_read_`. -/
def FixedQueue.Pop (q : FixedQueue) : List Byte × FixedQueue :=
  let (v, did_read, node) := (q.node q.read_index_).Read
  let q := { q with data := q.data.set q.read_index_ node, did_read_ := did_read }
  let (read_index_, q) := q.MoveStart q.read_index_
  (v, { q with read_index_ := read_index_ })

/-- One call on the queue: the producer pushes a vector or the consumer
pops. -/
inductive Op where
  | push (vec : List Byte)
  | pop
  deriving DecidableEq, Repr

/-- An interleaving of the calls of the two threads, each call one atomic
step: the vector and `did_read_` of every `Pop`, in order, and the queue at
the end. -/
def FixedQueue.run : FixedQueue → List Op → List (List Byte × Bool) × FixedQueue
  | q, [] => ([], q)
  | q, .push vec :: ops => (q.Push vec).run ops
  | q, .pop :: ops =>
    let (v, q1) := q.Pop
    let (rs, q2) := q1.run ops
    ((v, q1.did_read_) :: rs, q2)

/-- The vectors pushed by an interleaving, in order. -/
def pushed : List Op → List (List Byte)
  | [] => []
  | .push vec :: ops => vec :: pushed ops
  | .pop :: ops => pushed ops

/-- The vectors of the pops that report `did_read_` true, in order. -/
def popped (rs : List (List Byte × Bool)) : List (List Byte) :=
  (rs.filter (·.2)).map (·.1)

/-- The number of nodes from index `r` up to, not including, index `w`, going
round a ring of `n` nodes. -/
def ringSpan (n r w : Nat) : Nat := if r ≤ w then w - r else w + n - r

/-- The index of the `k`-th node after index `r`, going round a ring of `n`
nodes. -/
def ringAhead (n r k : Nat) : Nat := if r + k < n then r + k else r + k - n

/-- The vectors held by a ring of `n` nodes read from `r` and written up to
`w`, oldest first: those of the nodes from `r` up to `w`, the last one only
when it was written and not read yet. -/
def ringContents (n r w : Nat) (node : Nat → Node) : List (List Byte) :=
  (List.range (ringSpan n r w)).map (fun k => (node (ringAhead n r k)).value_)
    ++ (if (node w).write_ready_ then [] else [(node w).value_])

/-- The vectors the queue holds, oldest first. -/
def FixedQueue.contents (q : FixedQueue) : List (List Byte) :=
  ringContents q.data.length q.read_index_ q.write_index_ q.node

/-- The indices and marks of a queue in use: both indices inside the ring,
the start mark on `read_index_` only and the end mark on `write_index_`
only. -/
def FixedQueue.WF (q : FixedQueue) : Prop :=
  q.read_index_ < q.data.length ∧ q.write_index_ < q.data.length
    ∧ (∀ i, i < q.data.length → ((q.node i).is_start_ = true ↔ i = q.read_index_))
    ∧ (∀ i, i < q.data.length → ((q.node i).is_end_ = true ↔ i = q.write_index_))

end Data.Sharing

/-! ## The sessions of the server (`Clients.h`, `Clients.cpp`) -/

namespace Network

open Data.Sharing

/-- `class Client` of the server, as far as queueing goes: the flag
`connected`, whether `socket_tcp_` and `socket_udp_` are set and valid, the
slot of the session, and its two arrays of queues, one queue per source
slot. -/
structure Client where
  connected : Bool
  socket_tcp_valid : Bool
  socket_udp_valid : Bool
  my_server_slot_ : Nat
  reliable_data_ : List FixedQueue
  data_ : List FixedQueue
  deriving DecidableEq, Repr

/-- `Client::IsActive`. -/
def Client.IsActive (c : Client) : Bool :=
  c.connected && c.socket_tcp_valid && c.socket_udp_valid

/-- The call `reliable_data_[packet.client()]->Push(packet.Packed())`, for an
index inside the array. -/
def Client.pushReliable (c : Client) (packet : Packet.Packet) : Client :=
  let queue := (c.reliable_data_.getD packet.client ⟨false, 0, 0, []⟩).Push packet.Packed
  { c with reliable_data_ := c.reliable_data_.set packet.client queue }

/-- `Client::SendReliable`: `reliable_data_[packet.client()]` is indexed
without a check of the index. -/
def Client.SendReliable (c : Client) (packet : Packet.Packet) : Except Fault Client :=
  if c.IsActive && c.my_server_slot_ != packet.client then
    if packet.client < c.reliable_data_.length then .ok (c.pushReliable packet)
    else .error .outOfBounds
  else .ok c

/-- The loop of `Clients::SendReliableToAll` from index `i` on, over the
slots from `i` on: `if (i != packet.client() && clients[i])
clients[i]->SendReliable(packet)`. -/
def SendReliableToAllLoop (packet : Packet.Packet) :
    Nat → List (Option Client) → Except Fault (List (Option Client))
  | _, [] => .ok []
  | i, slot :: rest =>
    match (if i != packet.client then slot else none) with
    | some c =>
      match c.SendReliable packet with
      | .error f => .error f
      | .ok c1 =>
        match SendReliableToAllLoop packet (i + 1) rest with
        | .error f => .error f
        | .ok rest1 => .ok (some c1 :: rest1)
    | none =>
      match SendReliableToAllLoop packet (i + 1) rest with
      | .error f => .error f
      | .ok rest1 => .ok (slot :: rest1)

/-- `Clients::SendReliableToAll` on the slot table `clients`, an empty slot
being `none`; the line for the console display is left out. -/
def SendReliableToAll (clients : List (Option Client)) (packet : Packet.Packet) :
    Except Fault (List (Option Client)) :=
  SendReliableToAllLoop packet 0 clients

end Network

/-! ## Areas (`game_structures.cpp`) -/

namespace Game

/-- `InSameCell`. -/
def InSameCell (a b : Location) : Bool :=
  (a.has_cell_ == b.has_cell_) && (!a.has_cell_ || a.cell_id_ == b.cell_id_)

/-- `InSameWorldSpace`. -/
def InSameWorldSpace (a b : Location) : Bool :=
  (a.has_world_space_ == b.has_world_space_)
    && (!a.has_world_space_ || a.world_space_id_ == b.world_space_id_)

/-- `InSameArea`. -/
def InSameArea (a b : Location) : Bool :=
  InSameCell a b
    || (a.has_world_space_ && b.has_world_space_ && a.world_space_id_ == b.world_space_id_)

end Game

/-! ## Connecting to a peer address (`Connection.cpp`) -/

namespace Network

/-- `SOCKET_ERROR` of WinSock. -/
def SOCKET_ERROR : Int := -1

/-- The socket that `ConnectTo` hands back, by whether the `connect` call made
on it succeeded. -/
structure PeerSocket where
  is_connected : Bool
  deriving DecidableEq, Repr

/-- `ConnectTo(const sockaddr_in&, int ai_socktype, int ai_protocol)`, given
whether `socket()` produced a valid handle and what `connect()` returned (0 on
success, `SOCKET_ERROR` on failure): the `Socket` constructor throws
`SocketException` on an invalid handle, and the function throws
`ConnectException` under `if (error != SOCKET_ERROR)`. -/
def ConnectTo (socket_created : Bool) (error : Int) : Except Fault PeerSocket :=
  if !socket_created then .error (.thrown "Socket Failed to Create")
  else if error ≠ SOCKET_ERROR then .error (.thrown "Unable to Connect")
  else .ok { is_connected := decide (error ≠ SOCKET_ERROR) }

/-- `Connect(const addrinfo&, Socket&)`, used by the other `ConnectTo`
overloads, given what `connect()` returned. -/
def Connect (error : Int) : Bool := decide (error ≠ SOCKET_ERROR)

end Network

/-! ## Sequences of calls on the circular buffer -/

namespace Data.Buffer

open Network (Byte)

/-- One call on a `Circular`: `Push(carray, n)` or `Pop(n)`. -/
inductive Call where
  | push (carray : List Byte)
  | pop (n : Nat)
  deriving DecidableEq, Repr

/-- A sequence of calls on a buffer: the concatenation of what the `Pop`
calls return, and the buffer at the end; the first call that throws ends the
run. -/
def Circular.run : Circular → List Call → Except Fault (List Byte × Circular)
  | c, [] => .ok ([], c)
  | c, .push carray :: calls =>
    match c.Push carray with
    | .error f => .error f
    | .ok c1 => Circular.run c1 calls
  | c, .pop n :: calls =>
    match c.Pop n with
    | .error f => .error f
    | .ok (result, c1) =>
      match Circular.run c1 calls with
      | .error f => .error f
      | .ok (results, c2) => .ok (result ++ results, c2)

/-- Every `Pop(n)` of the sequence is made with `n <= Length()`. -/
def Circular.popsWithinLength : Circular → List Call → Bool
  | _, [] => true
  | c, .push carray :: calls =>
    match c.Push carray with
    | .error _ => true
    | .ok c1 => Circular.popsWithinLength c1 calls
  | c, .pop n :: calls =>
    decide (n ≤ c.Length) &&
      match c.Pop n with
      | .error _ => true
      | .ok (_, c1) => Circular.popsWithinLength c1 calls

/-- The bytes pushed by a sequence of calls, in order. -/
def pushedBytes : List Call → List Byte
  | [] => []
  | .push carray :: calls => carray ++ pushedBytes calls
  | .pop _ :: calls => pushedBytes calls

end Data.Buffer

/-! ## Relaying on the server (`Clients.cpp`, `DataHandling.cpp`) -/

namespace Network.Packet

/-- `enum class Status`. -/
inductive Status where
  | kNew
  | kActive
  | kDisconnected
  deriving DecidableEq, Repr

/-- The value of the enumerator, `uint8_t(status)`. -/
def Status.toUInt8 : Status → Nat
  | .kNew => 0
  | .kActive => 1
  | .kDisconnected => 2

/-- `PackStatus`. -/
def PackStatus (client_index : Nat) (status : Status) : Packet :=
  { type := .kStatus, client := client_index, data := [Pack_uint8 status.toUInt8] }

/-- `RequestData`; the data is the one character `'0'`. -/
def RequestData (client_index : Nat) : Packet :=
  { type := .kDataRequest, client := client_index, data := [0x30] }

end Network.Packet

namespace Network

open Data.Sharing

/-- `InitialMessage::Packed`. -/
def InitialMessage.Packed (m : InitialMessage) : Packet.Packet :=
  { type := .kInitialMessage, client := m.max_clients_,
    data := [Pack_uint8 m.max_clients_, Pack_uint8 m.client_slot_] }

/-- The call `data_[packet.client()]->Push(packet.Packed())`, for an index
inside the array. -/
def Client.pushUnreliable (c : Client) (packet : Packet.Packet) : Client :=
  let queue := (c.data_.getD packet.client ⟨false, 0, 0, []⟩).Push packet.Packed
  { c with data_ := c.data_.set packet.client queue }

/-- `Client::QueueToSend`: `data_[packet.client()]` is indexed without a check
of the index. -/
def Client.QueueToSend (c : Client) (packet : Packet.Packet) : Except Fault Client :=
  if c.IsActive && c.my_server_slot_ != packet.client then
    if packet.client < c.data_.length then .ok (c.pushUnreliable packet)
    else .error .outOfBounds
  else .ok c

/-- The loop of `Clients::SendToAll`:
`if (clients[i] && clients[i]->IsActive()) clients[i]->QueueToSend(packet)`. -/
def SendToAllLoop (packet : Packet.Packet) :
    List (Option Client) → Except Fault (List (Option Client))
  | [] => .ok []
  | slot :: rest =>
    match (match slot with
        | some c => if c.IsActive then (c.QueueToSend packet).map some else .ok slot
        | none => .ok slot) with
    | .error f => .error f
    | .ok slot1 =>
      match SendToAllLoop packet rest with
      | .error f => .error f
      | .ok rest1 => .ok (slot1 :: rest1)

/-- `Clients::SendToAll`: the slot `clients[packet.client()]` of the source is
looked up without a check of the index. -/
def SendToAll (clients : List (Option Client)) (packet : Packet.Packet) :
    Except Fault (List (Option Client)) :=
  if packet.client < clients.length then
    match clients.getD packet.client none with
    | some c => if c.IsActive then SendToAllLoop packet clients else .ok clients
    | none => .ok clients
  else .error .outOfBounds

/-- `Client::Disconnect` of the session in slot `slot` of the table:
`connected = false`, then the broadcast of its `kDisconnected` status. -/
def Disconnect (clients : List (Option Client)) (slot : Nat) :
    Except Fault (List (Option Client)) :=
  match clients.getD slot none with
  | none => .ok clients
  | some c =>
    SendReliableToAll (clients.set slot (some { c with connected := false }))
      (Packet.PackStatus (c.my_server_slot_ % 256) .kDisconnected)

/-- One pass of the loop of `Client::ReceiveLoop` for the session in slot
`slot`, reading from its TCP socket: a `kDataRequest` or `kProperties` packet
is handed to `SendReliableToAll` as it came, a `kSocketDisconnect` packet or
a `NetworkException` (here `RecvException`) disconnects the session. -/
def ReceiveLoopPass (fuel : Nat) (clients : List (Option Client)) (slot : Nat)
    (socket_tcp : Socket) : Except Fault (List (Option Client) × Socket) :=
  match Packet.Receive fuel socket_tcp with
  | .error f =>
    if f = .thrown "Unable to recv data" then
      (Disconnect clients slot).map (fun t => (t, socket_tcp))
    else .error f
  | .ok (packet, socket1) =>
    match packet.type with
    | .kDataRequest => (SendReliableToAll clients packet).map (fun t => (t, socket1))
    | .kProperties => (SendReliableToAll clients packet).map (fun t => (t, socket1))
    | .kSocketDisconnect => (Disconnect clients slot).map (fun t => (t, socket1))
    | _ => .ok (clients, socket1)

/-- One pass of the loop of `Listen::Udp`: a `kProperties` packet is handed to
`SendToAll` as it came. -/
def UdpPass (fuel : Nat) (clients : List (Option Client)) (listener_udp : Socket) :
    Except Fault (List (Option Client) × Socket) :=
  match Packet.Receive fuel listener_udp with
  | .error f => .error f
  | .ok (packet, socket1) =>
    match packet.type with
    | .kProperties => (SendToAll clients packet).map (fun t => (t, socket1))
    | _ => .ok (clients, socket1)

end Network

/-! ## Joining the server (`Clients.cpp`) -/

namespace Network

open Data.Sharing

/-- The session the constructor `Client(clients, size, my_server_slot, ...)`
builds, given two valid sockets: connected, with `size` fresh queues in each
array. -/
def Client.create (size my_server_slot : Nat) : Client :=
  { connected := true, socket_tcp_valid := true, socket_udp_valid := true,
    my_server_slot_ := my_server_slot,
    reliable_data_ := List.replicate size FixedQueue.createDefault,
    data_ := List.replicate size FixedQueue.createDefault }

/-- The loop of `Clients::SendInitialClientDataTo` from index `i` on: the
packets it sends down the socket, a `kNew` status for every active slot. -/
def SendInitialClientDataToLoop : Nat → List (Option Client) → List Packet.Packet
  | _, [] => []
  | i, slot :: rest =>
    (match slot with
      | some c => if c.IsActive then [Packet.PackStatus (i % 256) .kNew] else []
      | none => [])
      ++ SendInitialClientDataToLoop (i + 1) rest

/-- `Clients::SendInitialClientDataTo`. -/
def SendInitialClientDataTo (clients : List (Option Client)) : List Packet.Packet :=
  SendInitialClientDataToLoop 0 clients

/-- The loop of `Clients::Push` from index `i` on: the first index whose slot
is empty or holds a session that is not active. -/
def Push.firstFree : Nat → List (Option Client) → Option Nat
  | _, [] => none
  | i, slot :: rest =>
    match slot with
    | none => some i
    | some c => if !c.IsActive then some i else Push.firstFree (i + 1) rest

/-- `Clients::Push`.  For the first slot `i` that is empty or not active,
`clients[i].reset(new Client(*this, clients.size(), i, ...))`: the constructor
sends the initial message, broadcasts the `kNew` status of the slot, sends the
statuses of the active slots and broadcasts the data request, all before the
table is changed; `reset` then puts the session in the slot and destroys the
one it replaces, whose destructor calls `Disconnect`.  `sends_succeed` says
whether the sends on the new TCP socket go through (`SendException`
otherwise).  The result is the return value, the table, and the packets sent
on the new TCP socket. -/
def Push (clients : List (Option Client)) (sends_succeed : Bool) :
    Except Fault (Bool × List (Option Client) × List Packet.Packet) :=
  match Push.firstFree 0 clients with
  | none => .ok (false, clients, [])
  | some i =>
    if !sends_succeed then .error (.thrown "Unable to send data")
    else
      match SendReliableToAll clients (Packet.PackStatus (i % 256) .kNew) with
      | .error f => .error f
      | .ok clients1 =>
        let sent := InitialMessage.Packed ⟨clients.length % 256, i % 256⟩
          :: SendInitialClientDataTo clients1
        match SendReliableToAll clients1 (Packet.RequestData (i % 256)) with
        | .error f => .error f
        | .ok clients2 =>
          let clients3 := clients2.set i (some (Client.create clients.length i))
          match clients2.getD i none with
          | none => .ok (true, clients3, sent)
          | some old =>
            match SendReliableToAll clients3
                (Packet.PackStatus (old.my_server_slot_ % 256) .kDisconnected) with
            | .error f => .error f
            | .ok clients4 => .ok (true, clients4, sent)

/-- The sessions of the table are in their slots and have one queue per slot
in each array, as `Clients::Push` builds them. -/
def SlotsWF (clients : List (Option Client)) : Prop :=
  ∀ i c, clients.getD i none = some c →
    c.my_server_slot_ = i ∧ c.reliable_data_.length = clients.length
      ∧ c.data_.length = clients.length

/-- The broadcasts that reach the peers when a session joins in slot `i`: its
`kNew` status and its data request, and after them the `kDisconnected` status
of the session it replaces, if there is one. -/
def joinBroadcasts (i : Nat) (replaces : Bool) : List Packet.Packet :=
  [Packet.PackStatus i .kNew, Packet.RequestData i]
    ++ (if replaces then [Packet.PackStatus i .kDisconnected] else [])

end Network

/-! ## The command line of the server (`Server.cpp`) -/

namespace Server

/-- `kDefaultMaxClients`. -/
def kDefaultMaxClients : Nat := 6

/-- `struct Arguments`, with its member initialisers. -/
structure Arguments where
  server_name : String := "FriendLink Server"
  max_clients : Nat := kDefaultMaxClients
  client_receiver : String := "29015"
  server_receiver : String := "29016"
  deriving DecidableEq, Repr

/-- What the program writes to `cerr`. -/
inductive Message where
  | usage (name : String)
  | maxPlayersOutOfRange
  deriving DecidableEq, Repr

/-- `iss >> args.max_clients` on a stream holding `token`, for the 32-bit
`size_t` of the Win32 build: white space is skipped, a sign and the decimal
digits behind it are converted as by `strtoull`, a value that does not fit
is stored as the largest `size_t`, and 0 is stored when there is no digit. -/
def extractSize (token : String) : Nat :=
  let cs : List Nat :=
    (token.toList.map Char.toNat).dropWhile (fun c => c = 32 ∨ (9 ≤ c ∧ c ≤ 13))
  let negative := decide (cs.headD 0 = 45)
  let cs := if cs.headD 0 = 45 ∨ cs.headD 0 = 43 then cs.tail else cs
  let ds := cs.takeWhile (fun c => 48 ≤ c ∧ c ≤ 57)
  if ds = [] then 0
  else
    let v : Nat := ds.foldl (fun a c => 10 * a + (c - 48)) 0
    let v : Nat :=
      if 2 ^ 64 ≤ v then 2 ^ 64 - 1 else if negative then (2 ^ 64 - v) % 2 ^ 64 else v
    if 2 ^ 32 ≤ v then 2 ^ 32 - 1 else v

/-- `SetArguments`, on the arguments from `argv[i]` on (`name` is `argv[0]`):
the value returned, the arguments as set, and what was written to `cerr`.
An option that takes a value and stands last reads `argv[argc]`, the null
pointer. -/
def SetArguments (name : String) :
    Arguments → List String → Except Fault (Nat × Arguments × List Message)
  | args, [] => .ok (0, args, [])
  | args, arg :: rest =>
    if arg = "-h" ∨ arg = "--help" ∨ arg = "/?" then .ok (1, args, [.usage name])
    else if arg = "-n" ∨ arg = "--name" then
      match rest with
      | [] => .error .outOfBounds
      | value :: rest1 => SetArguments name { args with server_name := value } rest1
    else if arg = "-mp" ∨ arg = "--max_players" then
      match rest with
      | [] => .error .outOfBounds
      | value :: rest1 =>
        if extractSize value > 255 then
          .ok (1, { args with max_clients := extractSize value }, [.maxPlayersOutOfRange])
        else SetArguments name { args with max_clients := extractSize value } rest1
    else if arg = "-p1" ∨ arg = "--port1" then
      match rest with
      | [] => .error .outOfBounds
      | value :: rest1 => SetArguments name { args with client_receiver := value } rest1
    else if arg = "-p2" ∨ arg = "--port2" then
      match rest with
      | [] => .error .outOfBounds
      | value :: rest1 => SetArguments name { args with server_receiver := value } rest1
    else SetArguments name args rest

/-- How a run of the server ends: the value `main` returns, whether `Loop`,
which starts the listener, was entered, and what was written to `cerr` by
`SetArguments`. -/
structure Run where
  exit_code : Int
  loop_entered : Bool
  cerr : List Message
  deriving DecidableEq, Repr

/-- `main`, given `argv` and how `Loop(args)` ends (normally, or with an
exception, all of which `main` catches): `if (error == 1) return 0;
if (error == 2) return 1;`. -/
def main (argv : List String) (Loop : Arguments → Except Fault Unit) : Except Fault Run :=
  match SetArguments (argv.headD "") {} argv.tail with
  | .error f => .error f
  | .ok (error, args, cerr) =>
    if error = 1 then .ok { exit_code := 0, loop_entered := false, cerr := cerr }
    else if error = 2 then .ok { exit_code := 1, loop_entered := false, cerr := cerr }
    else
      match Loop args with
      | .ok _ => .ok { exit_code := 0, loop_entered := true, cerr := cerr }
      | .error _ => .ok { exit_code := 1, loop_entered := true, cerr := cerr }

end Server

/-! ## Float arithmetic between locations

The sums, products, quotients and square roots the source takes of `float`
values, each with its IEEE meaning: the exact result rounded to binary32,
nearest with ties to even. -/

namespace Network.F32

/-- The NaN an invalid operation gives. -/
def nan : F32 := ⟨false, 255, 2 ^ 22⟩

/-- `+0.0` or `-0.0`. -/
def isZero (x : F32) : Bool := decide (x.exp = 0) && decide (x.man = 0)

/-- The sum `x + y` of floats. -/
def add (x y : F32) : F32 :=
  if x.isNaN || y.isNaN then nan
  else if 255 ≤ x.exp then (if 255 ≤ y.exp ∧ x.sign ≠ y.sign then nan else x)
  else if 255 ≤ y.exp then y
  else
    let e : Int := min x.ex y.ex
    let X : Int := ((x.sig * 2 ^ (x.ex - e).toNat : Nat) : Int)
    let Y : Int := ((y.sig * 2 ^ (y.ex - e).toNat : Nat) : Int)
    let S : Int := (if x.sign then -X else X) + (if y.sign then -Y else Y)
    if S = 0 then ⟨x.sign && y.sign, 0, 0⟩ else round (decide (S < 0)) S.natAbs e

/-- The difference `x - y` of floats. -/
def sub (x y : F32) : F32 := add x (neg y)

/-- The product `x * y` of floats. -/
def mul (x y : F32) : F32 :=
  if x.isNaN || y.isNaN then nan
  else if 255 ≤ x.exp ∨ 255 ≤ y.exp then
    (if x.isZero || y.isZero then nan else ⟨x.sign != y.sign, 255, 0⟩)
  else round (x.sign != y.sign) (x.sig * y.sig) (x.ex + y.ex)

/-- The quotient `x / y` of floats.  The quotient of the significands is
taken with 64 more bits and a sticky bit for the remainder, which rounds as
the exact quotient does. -/
def div (x y : F32) : F32 :=
  if x.isNaN || y.isNaN then nan
  else if 255 ≤ x.exp then (if 255 ≤ y.exp then nan else ⟨x.sign != y.sign, 255, 0⟩)
  else if 255 ≤ y.exp then ⟨x.sign != y.sign, 0, 0⟩
  else if y.isZero then (if x.isZero then nan else ⟨x.sign != y.sign, 255, 0⟩)
  else
    let N : Nat := x.sig * 2 ^ 64
    let m : Nat := 2 * (N / y.sig) + (if N % y.sig = 0 then 0 else 1)
    round (x.sign != y.sign) m (x.ex - y.ex - 65)

/-- The digits of the integer square root of `N` from bit `k` down, `r` being
the digits found so far. -/
def isqrtAux (N : Nat) : Nat → Nat → Nat
  | 0, r => r
  | k + 1, r => if (r + 2 ^ k) * (r + 2 ^ k) ≤ N then isqrtAux N k (r + 2 ^ k) else isqrtAux N k r

/-- The integer square root: the largest `r` with `r * r ≤ N`. -/
def isqrt (N : Nat) : Nat := isqrtAux N (N.size / 2 + 1) 0

/-- The square root `sqrt(x)` of a float.  The root of the significand is
taken with 64 or 65 more bits, whichever makes the exponent even, and a
sticky bit. -/
def sqrt (x : F32) : F32 :=
  if x.isNaN then nan
  else if x.isZero then x
  else if x.sign then nan
  else if 255 ≤ x.exp then x
  else
    let k : Nat := if x.ex % 2 = 0 then 64 else 65
    let N : Nat := x.sig * 2 ^ k
    let r : Nat := isqrt N
    let m : Nat := 2 * r + (if r * r = N then 0 else 1)
    round false m ((x.ex - k) / 2 - 1)

end Network.F32

namespace Game

open Network

/-- `Location::is_empty`. -/
def Location.is_empty (l : Location) : Bool := !l.has_cell_

/-- `TimeSubtract`: the difference of the elapsed times as an `int`, or
`kAntiCongestion` when either location is empty. -/
def TimeSubtract (lhs rhs : Location) : Int :=
  if !lhs.is_empty && !rhs.is_empty then
    Network.toInt32 (toUInt32 (lhs.time_elapsed_ - rhs.time_elapsed_))
  else kAntiCongestion

/-- `DistanceBetween`: 0 when either location is empty, otherwise the root of
the sum of the squared coordinate differences, in `float` arithmetic. -/
def DistanceBetween (a b : Location) : F32 :=
  if a.is_empty || b.is_empty then F32.zero
  else
    F32.sqrt
      (F32.add
        (F32.add (F32.mul (F32.sub a.x b.x) (F32.sub a.x b.x))
          (F32.mul (F32.sub a.y b.y) (F32.sub a.y b.y)))
        (F32.mul (F32.sub a.z b.z) (F32.sub a.z b.z)))

end Game

/-! ## The translator of the client (`SkyPlayer.h`, `SkyPlayer.cpp`) -/

namespace Game.Player

open Network Data.Sharing

/-- `kMovementThreshold`, `5.0f`. -/
def kMovementThreshold : F32 := F32.ofInt 5

/-- What the translator asks of the game engine about the cell of a
location: `CellIsAttached`, and whether the cell exists and is an interior
(`cell && ScriptDragon::Cell::IsInterior(cell)`). -/
structure Engine where
  CellIsAttached : Location → Bool
  IsInterior : Location → Bool

/-- `class Translator`, as far as moving goes: the current location, the queue
of futures, the flag `translating_complete`, the argument of the last
`SetEndTime`, and, for the calls into the game, the arguments of the
`TranslateTo` calls (location and speed) and of the `ChangeCellTo` calls made
so far. -/
structure Translator where
  current_ : Location
  future_ : FixedQueue
  translating_complete : Bool
  end_ms : Int
  translated : List (Location × F32)
  changed_cell : List Location
  deriving DecidableEq, Repr

/-- The translator after construction: `current_{false, false, {0, 0, 0}}`,
whose elapsed time is `now`; `future_{}`; `SetEndTime(kStartDelay)`. -/
def Translator.create (now : Int) : Translator :=
  { current_ := ⟨false, false, 0, 0, now, [F32.zero, F32.zero, F32.zero]⟩,
    future_ := FixedQueue.createDefault, translating_complete := true, end_ms := 100,
    translated := [], changed_cell := [] }

/-- `Translator::To`. -/
def Translator.To (fuel : Nat) (t : Translator) (new_location : Location) :
    Except Fault Translator :=
  match new_location.ToProperty fuel with
  | .error f => .error f
  | .ok location_packed => .ok { t with future_ := t.future_.Push location_packed.value }

/-- `Translator::Translate`; `Wait()`, which only lets time pass, is left
out.  The speed is `distance * 1050 / time`, the two integers converted to
`float`. -/
def Translator.Translate (t : Translator) (future : Location) : Translator :=
  let time := TimeSubtract future t.current_
  let distance := DistanceBetween future t.current_
  let t1 : Translator :=
    if F32.lt kMovementThreshold distance then
      { t with
        translated := t.translated
          ++ [(future, F32.div (F32.mul distance (F32.ofInt 1050)) (F32.ofInt time))],
        translating_complete := false }
    else t
  { t1 with current_ := future, end_ms := time }

/-- `Translator::ChangeLoadedArea`, without the waiting. -/
def Translator.ChangeLoadedArea (t : Translator) (future : Location) : Translator :=
  { t with current_ := future, end_ms := TimeSubtract future t.current_,
           changed_cell := t.changed_cell ++ [future] }

/-- `Translator::IsNewCell`. -/
def Translator.IsNewCell (engine : Engine) (t : Translator) (future : Location) : Bool :=
  let is_new_cell := !InSameCell future t.current_
    && (engine.IsInterior future || engine.IsInterior t.current_)
  let is_new_world := !InSameWorldSpace future t.current_
  is_new_world || is_new_cell

/-- `Translator::FutureToCurrent`. -/
def Translator.FutureToCurrent (engine : Engine) (t : Translator) (future : Location) :
    Translator :=
  if !t.IsNewCell engine future && engine.CellIsAttached future then t.Translate future
  else t.ChangeLoadedArea future

/-- One pass of the loop of `Translator::UpdateLoop` while not stopped: pop a
future, and if one was read decode it and hand it on when
`TimeSubtract(future, current_) > 1`. -/
def Translator.UpdateLoopPass (engine : Engine) (t : Translator) : Except Fault Translator :=
  let (location_packed, future_) := t.future_.Pop
  let t1 : Translator := { t with future_ := future_ }
  if future_.did_read_ then
    match Location.ofProperty ⟨.kLocation, location_packed⟩ with
    | .error f => .error f
    | .ok future =>
      if TimeSubtract future t1.current_ > 1 then .ok (t1.FutureToCurrent engine future)
      else .ok t1
  else .ok t1

end Game.Player

/-! # Theorems -/

namespace Network

theorem lor_eq_add_of_dvd (a b k : Nat) (ha : 2 ^ k ∣ a) (hb : b < 2 ^ k) : a ||| b = a + b := by
  obtain ⟨c, rfl⟩ := ha
  exact (Nat.mul_add_lt_is_or hb c).symm

theorem lor_eq_add_of_dvd_right (a b k : Nat) (ha : a < 2 ^ k) (hb : 2 ^ k ∣ b) :
    a ||| b = a + b := by
  rw [Nat.or_comm, lor_eq_add_of_dvd b a k hb ha, Nat.add_comm]

theorem lor_bytes4 (b0 b1 b2 b3 : Nat) (h1 : b1 < 256) (h2 : b2 < 256) (h3 : b3 < 256) :
    (b0 <<< 24) ||| (b1 <<< 16) ||| (b2 <<< 8) ||| b3
      = b0 * 2 ^ 24 + b1 * 2 ^ 16 + b2 * 2 ^ 8 + b3 := by
  simp only [Nat.shiftLeft_eq]
  have e1 : b0 * 2 ^ 24 ||| b1 * 2 ^ 16 = b0 * 2 ^ 24 + b1 * 2 ^ 16 :=
    lor_eq_add_of_dvd _ _ 24 (Dvd.intro_left _ rfl) (by omega)
  have e2 : b0 * 2 ^ 24 + b1 * 2 ^ 16 ||| b2 * 2 ^ 8 = b0 * 2 ^ 24 + b1 * 2 ^ 16 + b2 * 2 ^ 8 :=
    lor_eq_add_of_dvd _ _ 16 (by omega) (by omega)
  have e3 : b0 * 2 ^ 24 + b1 * 2 ^ 16 + b2 * 2 ^ 8 ||| b3
      = b0 * 2 ^ 24 + b1 * 2 ^ 16 + b2 * 2 ^ 8 + b3 :=
    lor_eq_add_of_dvd _ _ 8 (by omega) (by omega)
  rw [e1, e2, e3]

theorem and_255 (x : Nat) : x &&& 0xFF = x % 256 := Nat.and_pow_two_sub_one_eq_mod x 8

theorem htonl_eq (a : Nat) :
    htonl a = (a % 256) * 2 ^ 24 + (a / 2 ^ 8 % 256) * 2 ^ 16 + (a / 2 ^ 16 % 256) * 2 ^ 8
      + a / 2 ^ 24 % 256 := by
  unfold htonl
  simp only [and_255, Nat.shiftRight_eq_div_pow]
  exact lor_bytes4 _ _ _ _ (Nat.mod_lt _ (by norm_num)) (Nat.mod_lt _ (by norm_num))
    (Nat.mod_lt _ (by norm_num))

theorem bytes_of_sum (b0 b1 b2 b3 : Nat) (h0 : b0 < 256) (h1 : b1 < 256) (h2 : b2 < 256)
    (h3 : b3 < 256) :
    (b0 * 2 ^ 24 + b1 * 2 ^ 16 + b2 * 2 ^ 8 + b3) / 2 ^ 24 % 256 = b0
      ∧ (b0 * 2 ^ 24 + b1 * 2 ^ 16 + b2 * 2 ^ 8 + b3) / 2 ^ 16 % 256 = b1
      ∧ (b0 * 2 ^ 24 + b1 * 2 ^ 16 + b2 * 2 ^ 8 + b3) / 2 ^ 8 % 256 = b2
      ∧ (b0 * 2 ^ 24 + b1 * 2 ^ 16 + b2 * 2 ^ 8 + b3) % 256 = b3 := by
  refine ⟨?_, ?_, ?_, ?_⟩ <;> omega

theorem sum_of_bytes (u : Nat) :
    (u / 2 ^ 24 % 256) * 2 ^ 24 + (u / 2 ^ 16 % 256) * 2 ^ 16 + (u / 2 ^ 8 % 256) * 2 ^ 8 + u % 256
      = u % 2 ^ 32 := by
  omega

theorem EncodeInt_four (a : Nat) :
    EncodeInt 4 a = [a % 256, a / 2 ^ 8 % 256, a / 2 ^ 16 % 256, a / 2 ^ 24 % 256] := by
  have h : EncodeInt 4 a
      = [(a >>> (0 * 8)) &&& 0xFF, (a >>> (1 * 8)) &&& 0xFF, (a >>> (2 * 8)) &&& 0xFF,
          (a >>> (3 * 8)) &&& 0xFF] := rfl
  rw [h]
  simp only [and_255, Nat.shiftRight_eq_div_pow]
  norm_num

theorem DecodeUInt_four (b0 b1 b2 b3 : Nat) :
    DecodeUInt 4 [b0, b1, b2, b3]
      = b0 % 256 + (b1 % 256) * 2 ^ 8 + (b2 % 256) * 2 ^ 16 + (b3 % 256) * 2 ^ 24 := by
  have h : DecodeUInt 4 [b0, b1, b2, b3]
      = (((0 ||| ((b0 % 256) <<< (0 * 8)) % 2 ^ (8 * 4))
            ||| ((b1 % 256) <<< (1 * 8)) % 2 ^ (8 * 4))
            ||| ((b2 % 256) <<< (2 * 8)) % 2 ^ (8 * 4))
            ||| ((b3 % 256) <<< (3 * 8)) % 2 ^ (8 * 4) := rfl
  rw [h]
  simp only [Nat.shiftLeft_eq, Nat.zero_or]
  have h0 : b0 % 256 < 256 := Nat.mod_lt _ (by norm_num)
  have h1 : b1 % 256 < 256 := Nat.mod_lt _ (by norm_num)
  have h2 : b2 % 256 < 256 := Nat.mod_lt _ (by norm_num)
  have h3 : b3 % 256 < 256 := Nat.mod_lt _ (by norm_num)
  have m0 : b0 % 256 * 2 ^ (0 * 8) % 2 ^ (8 * 4) = b0 % 256 := by omega
  have m1 : b1 % 256 * 2 ^ (1 * 8) % 2 ^ (8 * 4) = b1 % 256 * 2 ^ 8 := by omega
  have m2 : b2 % 256 * 2 ^ (2 * 8) % 2 ^ (8 * 4) = b2 % 256 * 2 ^ 16 := by omega
  have m3 : b3 % 256 * 2 ^ (3 * 8) % 2 ^ (8 * 4) = b3 % 256 * 2 ^ 24 := by omega
  rw [m0, m1, m2, m3]
  have e1 : b0 % 256 ||| b1 % 256 * 2 ^ 8 = b0 % 256 + b1 % 256 * 2 ^ 8 :=
    lor_eq_add_of_dvd_right _ _ 8 (by omega) (Dvd.intro_left _ rfl)
  have e2 : b0 % 256 + b1 % 256 * 2 ^ 8 ||| b2 % 256 * 2 ^ 16
      = b0 % 256 + b1 % 256 * 2 ^ 8 + b2 % 256 * 2 ^ 16 :=
    lor_eq_add_of_dvd_right _ _ 16 (by omega) (Dvd.intro_left _ rfl)
  have e3 : b0 % 256 + b1 % 256 * 2 ^ 8 + b2 % 256 * 2 ^ 16 ||| b3 % 256 * 2 ^ 24
      = b0 % 256 + b1 % 256 * 2 ^ 8 + b2 % 256 * 2 ^ 16 + b3 % 256 * 2 ^ 24 :=
    lor_eq_add_of_dvd_right _ _ 24 (by omega) (Dvd.intro_left _ rfl)
  rw [e1, e2, e3]

theorem Pack_uint32_eq (u : Nat) : Pack_uint32 u = bigEndian32 u := by
  simp only [Pack_uint32, EncodeInt_four, htonl_eq, bigEndian32]
  have h0 : u % 256 < 256 := Nat.mod_lt _ (by norm_num)
  have h1 : u / 2 ^ 8 % 256 < 256 := Nat.mod_lt _ (by norm_num)
  have h2 : u / 2 ^ 16 % 256 < 256 := Nat.mod_lt _ (by norm_num)
  have h3 : u / 2 ^ 24 % 256 < 256 := Nat.mod_lt _ (by norm_num)
  obtain ⟨e0, e1, e2, e3⟩ := bytes_of_sum _ _ _ _ h0 h1 h2 h3
  rw [e0, e1, e2, e3]

theorem Unpack_uint32_four (c0 c1 c2 c3 : Nat) :
    Unpack_uint32 [c0, c1, c2, c3]
      = (c0 % 256) * 2 ^ 24 + (c1 % 256) * 2 ^ 16 + (c2 % 256) * 2 ^ 8 + c3 % 256 := by
  simp only [Unpack_uint32, ntohl, DecodeUInt_four, htonl_eq]
  have h0 : c0 % 256 < 256 := Nat.mod_lt _ (by norm_num)
  have h1 : c1 % 256 < 256 := Nat.mod_lt _ (by norm_num)
  have h2 : c2 % 256 < 256 := Nat.mod_lt _ (by norm_num)
  have h3 : c3 % 256 < 256 := Nat.mod_lt _ (by norm_num)
  obtain ⟨e0, e1, e2, e3⟩ := bytes_of_sum _ _ _ _ h3 h2 h1 h0
  have hs : c0 % 256 + c1 % 256 * 2 ^ 8 + c2 % 256 * 2 ^ 16 + c3 % 256 * 2 ^ 24
      = c3 % 256 * 2 ^ 24 + c2 % 256 * 2 ^ 16 + c1 % 256 * 2 ^ 8 + c0 % 256 := by ring
  rw [hs, e0, e1, e2, e3]

theorem Unpack_uint32_bigEndian32 (u : Nat) : Unpack_uint32 (bigEndian32 u) = u % 2 ^ 32 := by
  rw [bigEndian32, Unpack_uint32_four]
  simp only [Nat.mod_mod]
  exact sum_of_bytes u

/-- C5: for every 32-bit unsigned `u`, `Pack_uint32(u)` is the four-byte
big-endian representation of `u`, most significant byte first, and
`Unpack_uint32(Pack_uint32(u)) == u`. -/
theorem Pack_uint32_bigEndian_roundtrip (u : Nat) (hu : u < 2 ^ 32) :
    Pack_uint32 u = [u / 2 ^ 24 % 256, u / 2 ^ 16 % 256, u / 2 ^ 8 % 256, u % 256]
      ∧ Unpack_uint32 (Pack_uint32 u) = u := by
  refine ⟨?_, ?_⟩
  · rw [Pack_uint32_eq, bigEndian32]
  · rw [Pack_uint32_eq, Unpack_uint32_bigEndian32, Nat.mod_eq_of_lt hu]

/-- C5 at `u = 0x12345678`. -/
theorem Pack_uint32_bigEndian_roundtrip_witness :
    (305419896 : Nat) < 2 ^ 32 ∧
      (Pack_uint32 305419896 = [305419896 / 2 ^ 24 % 256, 305419896 / 2 ^ 16 % 256,
          305419896 / 2 ^ 8 % 256, 305419896 % 256]
        ∧ Unpack_uint32 (Pack_uint32 305419896) = 305419896) :=
  ⟨by norm_num, Pack_uint32_bigEndian_roundtrip 305419896 (by norm_num)⟩

end Network

/-! ## Floats: rounding lemmas and the packer -/

namespace Network.F32

theorem size_bounds (m : Nat) (hm : m ≠ 0) : 1 ≤ m.size ∧ 2 ^ (m.size - 1) ≤ m ∧ m < 2 ^ m.size := by
  have h1 : 0 < m.size := Nat.lt_size.mpr (by simpa using Nat.pos_of_ne_zero hm)
  refine ⟨h1, ?_, Nat.lt_size_self m⟩
  exact Nat.lt_size.mp (by omega)

theorem size_mul_two_pow (m j : Nat) (hm : m ≠ 0) : (m * 2 ^ j).size = m.size + j := by
  rw [← Nat.shiftLeft_eq]
  exact Nat.size_shiftLeft hm j

theorem rne_exact (d k : Nat) : rne (d * 2 ^ k) k = d := by
  have hp : 0 < 2 ^ k := Nat.two_pow_pos _
  simp only [rne, Nat.mul_div_cancel _ hp, Nat.mul_mod_left]
  rw [if_neg]
  rintro (h | ⟨h, -⟩) <;> omega

theorem rne_shift (m k j : Nat) : rne (m * 2 ^ j) (k + j) = rne m k := by
  have hj : 0 < 2 ^ j := Nat.two_pow_pos _
  have hk : 0 < 2 ^ k := Nat.two_pow_pos _
  have hd : m * 2 ^ j / 2 ^ (k + j) = m / 2 ^ k := by
    rw [pow_add, Nat.mul_div_mul_right _ _ hj]
  have hr : m * 2 ^ j % 2 ^ (k + j) = (m % 2 ^ k) * 2 ^ j := by
    rw [pow_add, Nat.mul_mod_mul_right]
  simp only [rne, hd, hr]
  have e1 : (2 ^ (k + j) < 2 * (m % 2 ^ k * 2 ^ j)) ↔ (2 ^ k < 2 * (m % 2 ^ k)) := by
    rw [pow_add, ← Nat.mul_assoc]
    exact Nat.mul_lt_mul_right hj
  have e2 : (2 * (m % 2 ^ k * 2 ^ j) = 2 ^ (k + j)) ↔ (2 * (m % 2 ^ k) = 2 ^ k) := by
    rw [pow_add, ← Nat.mul_assoc]
    exact Nat.mul_left_inj (by omega)
  simp only [e1, e2]

end Network.F32

namespace Network.F32

theorem round_zero (s : Bool) (e : Int) : round s 0 e = ⟨s, 0, 0⟩ := by
  simp [round]

theorem roundM_shift (m : Nat) (e q : Int) (j : Nat) :
    (if q ≤ e - j then m * 2 ^ j * 2 ^ (e - j - q).toNat else rne (m * 2 ^ j) (q - (e - j)).toNat)
      = (if q ≤ e then m * 2 ^ (e - q).toNat else rne m (q - e).toNat) := by
  by_cases h1 : q ≤ e - j
  · have h2 : q ≤ e := by omega
    rw [if_pos h1, if_pos h2]
    have hb : (e - q).toNat = j + (e - j - q).toNat := by omega
    rw [hb, pow_add, Nat.mul_assoc]
  · rw [if_neg h1]
    by_cases h2 : q ≤ e
    · rw [if_pos h2]
      have hj : j = (e - q).toNat + (q - (e - j)).toNat := by omega
      have : m * 2 ^ j = (m * 2 ^ (e - q).toNat) * 2 ^ (q - (e - j)).toNat := by
        conv_lhs => rw [hj]
        rw [pow_add, Nat.mul_assoc]
      rw [this, rne_exact]
    · rw [if_neg h2]
      have hk : (q - (e - j)).toNat = (q - e).toNat + j := by omega
      rw [hk, rne_shift]

theorem round_shift (s : Bool) (m : Nat) (e : Int) (j : Nat) :
    round s (m * 2 ^ j) (e - j) = round s m e := by
  by_cases hm : m = 0
  · subst hm
    simp [round]
  have hm' : m * 2 ^ j ≠ 0 := Nat.mul_ne_zero hm (by positivity)
  have hq : max (e - j + ((m * 2 ^ j).size : Int) - 24) (-149)
      = max (e + (m.size : Int) - 24) (-149) := by
    rw [size_mul_two_pow _ _ hm]
    push_cast
    congr 1
    ring
  simp only [round, if_neg hm, if_neg hm', hq, roundM_shift]

/-- Shape of a rounding that loses nothing. -/
theorem round_exact (s : Bool) (m : Nat) (e : Int) (hm : m < 2 ^ 24) (he : -149 ≤ e)
    (hs : e + (m.size : Int) ≤ 128) :
    ∃ j : Nat, (round s m e).sig = m * 2 ^ j ∧ (round s m e).ex = e - j
      ∧ (round s m e).exp < 255 ∧ (round s m e).sign = s ∧ (round s m e).man < 2 ^ 23 := by
  by_cases h0 : m = 0
  · subst h0
    refine ⟨(e + 149).toNat, ?_⟩
    simp only [round_zero, sig, ex, if_true, Nat.zero_mul]
    refine ⟨trivial, ?_, by norm_num, trivial, by norm_num⟩
    omega
  obtain ⟨hL1, hlo, hhi⟩ := size_bounds m h0
  have hL24 : m.size ≤ 24 := Nat.size_le.mpr hm
  generalize hq : max (e + (m.size : Int) - 24) (-149) = q
  have hqe : q ≤ e := by omega
  have hq1 : e + (m.size : Int) - 24 ≤ q := by omega
  have hq2 : -149 ≤ q := by omega
  have hq3 : q = e + (m.size : Int) - 24 ∨ q = -149 := by omega
  have hq4 : q ≤ 104 := by omega
  obtain ⟨j, hj⟩ : ∃ j : Nat, (j : Int) = e - q := ⟨(e - q).toNat, by omega⟩
  have hjt : (e - q).toNat = j := by omega
  have hjL : m.size + j ≤ 24 := by omega
  have hM : m * 2 ^ j < 2 ^ 24 := by
    calc m * 2 ^ j < 2 ^ m.size * 2 ^ j := Nat.mul_lt_mul_of_pos_right hhi (Nat.two_pow_pos _)
      _ = 2 ^ (m.size + j) := (pow_add _ _ _).symm
      _ ≤ 2 ^ 24 := Nat.pow_le_pow_right (by norm_num) hjL
  have hne : m * 2 ^ j ≠ 2 ^ 24 := by omega
  refine ⟨j, ?_⟩
  simp only [round, if_neg h0, hq, if_pos hqe, hjt, if_neg hne]
  by_cases hsub : m * 2 ^ j < 2 ^ 23
  · have hq5 : q = -149 := by
      rcases hq3 with h | h
      · exfalso
        have hj2 : m.size - 1 + j = 23 := by omega
        have : 2 ^ 23 ≤ m * 2 ^ j := by
          calc 2 ^ 23 = 2 ^ (m.size - 1 + j) := by rw [hj2]
            _ = 2 ^ (m.size - 1) * 2 ^ j := pow_add _ _ _
            _ ≤ m * 2 ^ j := Nat.mul_le_mul_right _ hlo
        omega
      · exact h
    simp only [if_pos hsub, sig, ex, if_true]
    refine ⟨trivial, by omega, by norm_num, trivial, hsub⟩
  · have hq6 : ¬ (104 < q) := by omega
    have hexp : (q + 150).toNat ≠ 0 := by omega
    simp only [if_neg hsub, if_neg hq6, sig, ex, if_neg hexp]
    refine ⟨by omega, by omega, by omega, trivial, by omega⟩

/-- A finite float is the rounding of its own significand and exponent. -/
theorem round_self (x : F32) (hv : x.Valid) (hf : x.exp < 255) :
    round x.sign x.sig x.ex = x := by
  obtain ⟨s, E, man⟩ := x
  obtain ⟨-, hman⟩ := hv
  simp only at hf hman
  by_cases hE : E = 0
  · subst hE
    simp only [sig, ex, if_true]
    by_cases h0 : man = 0
    · subst h0
      exact round_zero _ _
    obtain ⟨hL1, hlo, hhi⟩ := size_bounds man h0
    have hL : man.size ≤ 23 := Nat.size_le.mpr hman
    have hq : max (-149 + (man.size : Int) - 24) (-149) = -149 := by omega
    simp only [round, if_neg h0, hq]
    have hne : ¬ man = 16777216 := by omega
    have hman' : man < 8388608 := by omega
    simp [hne, hman']
  · simp only [sig, ex, if_neg hE]
    have h0 : 2 ^ 23 + man ≠ 0 := by positivity
    have hL : (2 ^ 23 + man).size = 24 := by
      apply le_antisymm
      · exact Nat.size_le.mpr (by omega)
      · exact Nat.lt_size.mpr (by omega)
    have hq : max ((E : Int) - 150 + ((2 ^ 23 + man).size : Int) - 24) (-149) = (E : Int) - 150 := by
      rw [hL]
      omega
    simp only [round, if_neg h0, hq]
    have hne : ¬ 8388608 + man = 16777216 := by omega
    have h2 : ¬ (104 < (E : Int) - 150) := by omega
    simp [hne, h2]

theorem scale_round (s : Bool) (m : Nat) (e k : Int) (hm : m < 2 ^ 24) (he : -149 ≤ e)
    (hs : e + (m.size : Int) ≤ 128) :
    scale (round s m e) k = round s m (e + k) := by
  obtain ⟨j, h1, h2, h3, h4, -⟩ := round_exact s m e hm he hs
  have h3' : ¬ (255 ≤ (round s m e).exp) := by omega
  rw [scale, if_neg h3', h1, h2, h4]
  have : e - (j : Int) + k = (e + k) - j := by ring
  rw [this, round_shift]

theorem ord_round (s : Bool) (m : Nat) (e : Int) (hm : m < 2 ^ 24) (he : -149 ≤ e)
    (hs : e + (m.size : Int) ≤ 128) :
    (round s m e).ord = (if s then -((m * 2 ^ (e + 149).toNat : Nat) : Int)
        else ((m * 2 ^ (e + 149).toNat : Nat) : Int))
      ∧ (round s m e).isNaN = false := by
  obtain ⟨j, h1, h2, h3, h4, -⟩ := round_exact s m e hm he hs
  have h3' : ¬ (255 ≤ (round s m e).exp) := by omega
  have hpow : m * 2 ^ j * 2 ^ (e - j + 149).toNat = m * 2 ^ (e + 149).toNat := by
    have hex : -149 ≤ (round s m e).ex := by
      unfold ex
      split <;> omega
    have : (e + 149).toNat = j + (e - j + 149).toNat := by omega
    rw [this, pow_add, Nat.mul_assoc]
  refine ⟨?_, ?_⟩
  · simp only [ord, if_neg h3', h1, h2, h4, hpow]
  · simp [isNaN, h3']

end Network.F32

namespace Network.F32

theorem ord_two : ord two = ((2 ^ 150 : Nat) : Int) := by decide
theorem ord_one : ord one = ((2 ^ 149 : Nat) : Int) := by decide

theorem two_pow_le_mul_iff (m n t : Nat) (hm : m ≠ 0) :
    2 ^ t ≤ m * 2 ^ n ↔ t + 1 ≤ m.size + n := by
  obtain ⟨hL1, hlo, hhi⟩ := size_bounds m hm
  constructor
  · intro h
    by_contra hc
    have : m * 2 ^ n < 2 ^ t := by
      calc m * 2 ^ n < 2 ^ m.size * 2 ^ n := Nat.mul_lt_mul_of_pos_right hhi (Nat.two_pow_pos _)
        _ = 2 ^ (m.size + n) := (pow_add _ _ _).symm
        _ ≤ 2 ^ t := Nat.pow_le_pow_right (by norm_num) (by omega)
    omega
  · intro h
    calc 2 ^ t ≤ 2 ^ (m.size - 1 + n) := Nat.pow_le_pow_right (by norm_num) (by omega)
      _ = 2 ^ (m.size - 1) * 2 ^ n := pow_add _ _ _
      _ ≤ m * 2 ^ n := Nat.mul_le_mul_right _ hlo

theorem le_two_round_iff (m : Nat) (e : Int) (hm0 : m ≠ 0) (hm : m < 2 ^ 24) (he : -149 ≤ e)
    (hs : e + (m.size : Int) ≤ 128) :
    le two (round false m e) = true ↔ 2 ≤ e + (m.size : Int) := by
  obtain ⟨ho, hn⟩ := ord_round false m e hm he hs
  have h2 : two.isNaN = false := by decide
  simp only [le, h2, hn, ho, ord_two, Bool.not_false, Bool.true_and, decide_eq_true_eq,
    Bool.false_eq_true, if_false, Int.ofNat_le]
  rw [two_pow_le_mul_iff _ _ _ hm0]
  omega

theorem lt_round_one_iff (m : Nat) (e : Int) (hm0 : m ≠ 0) (hm : m < 2 ^ 24) (he : -149 ≤ e)
    (hs : e + (m.size : Int) ≤ 128) :
    lt (round false m e) one = true ↔ e + (m.size : Int) ≤ 0 := by
  obtain ⟨ho, hn⟩ := ord_round false m e hm he hs
  have h2 : one.isNaN = false := by decide
  simp only [lt, h2, hn, ho, ord_one, Bool.not_false, Bool.true_and, decide_eq_true_eq,
    Bool.false_eq_true, if_false, Int.ofNat_lt]
  rw [← not_le, two_pow_le_mul_iff _ _ _ hm0]
  omega

end Network.F32

namespace Network

open F32

theorem normDown_steps (m : Nat) (hm0 : m ≠ 0) (hm : m < 2 ^ 24) :
    ∀ (n : Nat) (e shift : Int) (fuel : Nat), e + (m.size : Int) = 1 + n → -149 ≤ e →
      e + (m.size : Int) ≤ 128 → n < fuel →
      Pack_float754.normDown fuel (round false m e) shift
        = .ok (round false m (e - n), shift + n) := by
  intro n
  induction n with
  | zero =>
    intro e shift fuel h1 he hs hf
    obtain ⟨fuel, rfl⟩ : ∃ f, fuel = f + 1 := ⟨fuel - 1, by omega⟩
    have hc : ¬ (le two (round false m e) = true) := by
      rw [le_two_round_iff m e hm0 hm he hs]
      omega
    simp [Pack_float754.normDown, hc]
  | succ n ih =>
    intro e shift fuel h1 he hs hf
    obtain ⟨fuel, rfl⟩ : ∃ f, fuel = f + 1 := ⟨fuel - 1, by omega⟩
    have hL24 : m.size ≤ 24 := Nat.size_le.mpr hm
    have hc : le two (round false m e) = true := by
      rw [le_two_round_iff m e hm0 hm he hs]
      omega
    rw [Pack_float754.normDown, if_pos hc, scale_round false m e (-1) hm he hs]
    rw [ih (e + -1) (shift + 1) fuel (by push_cast at h1 ⊢; omega) (by omega) (by omega) (by omega)]
    congr 2
    · congr 1
      push_cast
      ring
    · push_cast
      ring

theorem normDown_noop (m : Nat) (e shift : Int) (fuel : Nat) (hm0 : m ≠ 0) (hm : m < 2 ^ 24)
    (he : -149 ≤ e) (hs : e + (m.size : Int) ≤ 1) (hf : 0 < fuel) :
    Pack_float754.normDown fuel (round false m e) shift = .ok (round false m e, shift) := by
  obtain ⟨fuel, rfl⟩ : ∃ f, fuel = f + 1 := ⟨fuel - 1, by omega⟩
  have hc : ¬ (le two (round false m e) = true) := by
    rw [le_two_round_iff m e hm0 hm he (by omega)]
    omega
  simp [Pack_float754.normDown, hc]

theorem normUp_steps (m : Nat) (hm0 : m ≠ 0) (hm : m < 2 ^ 24) :
    ∀ (n : Nat) (e shift : Int) (fuel : Nat), e + (m.size : Int) + n = 1 → -149 ≤ e → n < fuel →
      Pack_float754.normUp fuel (round false m e) shift
        = .ok (round false m (e + n), shift - n) := by
  intro n
  induction n with
  | zero =>
    intro e shift fuel h1 he hf
    obtain ⟨fuel, rfl⟩ : ∃ f, fuel = f + 1 := ⟨fuel - 1, by omega⟩
    have hc : ¬ (lt (round false m e) one = true) := by
      rw [lt_round_one_iff m e hm0 hm he (by omega)]
      omega
    simp [Pack_float754.normUp, hc]
  | succ n ih =>
    intro e shift fuel h1 he hf
    obtain ⟨fuel, rfl⟩ : ∃ f, fuel = f + 1 := ⟨fuel - 1, by omega⟩
    have hc : lt (round false m e) one = true := by
      rw [lt_round_one_iff m e hm0 hm he (by omega)]
      omega
    rw [Pack_float754.normUp, if_pos hc, scale_round false m e 1 hm he (by omega)]
    rw [ih (e + 1) (shift - 1) fuel (by push_cast at h1 ⊢; omega) (by omega) (by omega)]
    congr 2
    · congr 1
      push_cast
      ring
    · push_cast
      ring

/-- Both normalisation loops, run on a positive finite value `m * 2 ^ e`:
they end with the value in `[1, 2)` and the number of halvings in `shift`. -/
theorem normalise_round (m : Nat) (e : Int) (fuel : Nat) (hm0 : m ≠ 0) (hm : m < 2 ^ 24)
    (he : -149 ≤ e) (hs : e + (m.size : Int) ≤ 128) (hf : 150 ≤ fuel) :
    ∃ d1 s1, Pack_float754.normDown fuel (round false m e) 0 = .ok (d1, s1)
      ∧ Pack_float754.normUp fuel d1 s1
          = .ok (round false m (1 - (m.size : Int)), e + (m.size : Int) - 1) := by
  obtain ⟨hL1, -, -⟩ := size_bounds m hm0
  have hL24 : m.size ≤ 24 := Nat.size_le.mpr hm
  by_cases hc : 1 ≤ e + (m.size : Int)
  · obtain ⟨n, hn⟩ : ∃ n : Nat, (n : Int) = e + (m.size : Int) - 1 :=
      ⟨(e + (m.size : Int) - 1).toNat, by omega⟩
    refine ⟨_, _, normDown_steps m hm0 hm n e 0 fuel (by omega) he hs (by omega), ?_⟩
    have h := normUp_steps m hm0 hm 0 (e - n) (0 + n) fuel (by push_cast; omega) (by omega)
      (by omega)
    rw [h]
    congr 2
    · congr 1
      push_cast
      omega
    · push_cast
      omega
  · obtain ⟨n, hn⟩ : ∃ n : Nat, (n : Int) = 1 - (e + (m.size : Int)) :=
      ⟨(1 - (e + (m.size : Int))).toNat, by omega⟩
    refine ⟨_, _, normDown_noop m e 0 fuel hm0 hm he (by omega) (by omega), ?_⟩
    rw [normUp_steps m hm0 hm n e 0 fuel (by omega) he (by omega)]
    congr 2
    · congr 1
      omega
    · omega

end Network

namespace Network

open F32

theorem F32.sig_bounds (x : F32) (hv : x.Valid) (hf : x.exp < 255) :
    x.sig < 2 ^ 24 ∧ -149 ≤ x.ex ∧ x.ex + (x.sig.size : Int) ≤ 128 := by
  obtain ⟨s, E, man⟩ := x
  obtain ⟨-, hman⟩ := hv
  simp only at hf hman
  by_cases hE : E = 0
  · subst hE
    simp only [sig, ex, if_true]
    have hL : man.size ≤ 23 := Nat.size_le.mpr hman
    refine ⟨by omega, le_refl _, by omega⟩
  · simp only [sig, ex, if_neg hE]
    have hL : (2 ^ 23 + man).size ≤ 24 := Nat.size_le.mpr (by omega)
    refine ⟨by omega, by omega, by omega⟩

theorem F32.scale_normal (s : Bool) (E man : Nat) (k : Int) (hE1 : 1 ≤ E) (hE2 : E ≤ 254)
    (hman : man < 2 ^ 23) (hk1 : 1 ≤ (E : Int) + k) (hk2 : (E : Int) + k ≤ 254) :
    scale ⟨s, E, man⟩ k = ⟨s, ((E : Int) + k).toNat, man⟩ := by
  have hv : (⟨s, E, man⟩ : F32).Valid := ⟨by simp only; omega, hman⟩
  have hv' : (⟨s, ((E : Int) + k).toNat, man⟩ : F32).Valid := ⟨by simp only; omega, hman⟩
  have hb := F32.sig_bounds ⟨s, E, man⟩ hv (by simp only; omega)
  have h1 := round_self ⟨s, E, man⟩ hv (by simp only; omega)
  have h2 := round_self ⟨s, ((E : Int) + k).toNat, man⟩ hv' (by simp only; omega)
  have hE0 : ¬ E = 0 := by omega
  have hE0' : ¬ ((E : Int) + k).toNat = 0 := by omega
  simp only [sig, ex, if_neg hE0, if_neg hE0'] at h1 h2 hb
  rw [← h1, scale_round _ _ _ _ hb.1 hb.2.1 hb.2.2, ← h2]
  congr 1
  omega

theorem F32.iterate_scale_up (s : Bool) (man : Nat) (hman : man < 2 ^ 23) :
    ∀ (n E : Nat), 1 ≤ E → E + n ≤ 254 →
      (fun r => F32.scale r 1)^[n] ⟨s, E, man⟩ = ⟨s, E + n, man⟩ := by
  intro n
  induction n with
  | zero => intro E _ _; rfl
  | succ n ih =>
    intro E h1 h2
    rw [Function.iterate_succ_apply, F32.scale_normal s E man 1 h1 (by omega) hman (by omega)
      (by omega)]
    have : ((E : Int) + 1).toNat = E + 1 := by omega
    rw [this, ih (E + 1) (by omega) (by omega)]
    congr 1
    omega

theorem F32.iterate_scale_down (s : Bool) (man : Nat) (hman : man < 2 ^ 23) :
    ∀ (n E : Nat), E ≤ 254 → n + 1 ≤ E →
      (fun r => F32.scale r (-1))^[n] ⟨s, E, man⟩ = ⟨s, E - n, man⟩ := by
  intro n
  induction n with
  | zero => intro E _ _; rfl
  | succ n ih =>
    intro E h1 h2
    rw [Function.iterate_succ_apply, F32.scale_normal s E man (-1) (by omega) h1 hman (by omega)
      (by omega)]
    have : ((E : Int) + -1).toNat = E - 1 := by omega
    rw [this, ih (E - 1) (by omega) (by omega)]
    congr 1
    omega

theorem F32.toInt32_round_nat (n : Nat) (hn : n < 2 ^ 24) :
    toInt32 (round false n 0) = n := by
  have hL : n.size ≤ 24 := Nat.size_le.mpr hn
  obtain ⟨j, h1, h2, h3, h4, -⟩ := round_exact false n 0 hn (by norm_num) (by omega)
  have h3' : ¬ (255 ≤ (round false n 0).exp) := by omega
  have hmag : (if 0 ≤ (0 : Int) - j then n * 2 ^ j * 2 ^ ((0 : Int) - j).toNat
      else n * 2 ^ j / 2 ^ (-((0 : Int) - j)).toNat) = n := by
    by_cases hj : j = 0
    · subst hj
      simp
    · have : ¬ (0 ≤ (0 : Int) - j) := by omega
      rw [if_neg this]
      have : (-((0 : Int) - j)).toNat = j := by omega
      rw [this, Nat.mul_div_cancel _ (Nat.two_pow_pos _)]
  simp only [toInt32, if_neg h3', h1, h2, h4, hmag, Bool.false_eq_true, if_false]
  rw [if_neg]
  rintro (h | h) <;> omega

theorem F32.addInt_neg_one (man : Nat) :
    addInt ⟨false, 127, man⟩ (-1) = round false man (-23) := by
  have h1 : ¬ (255 ≤ 127) := by norm_num
  have h2 : ¬ (127 = 0) := by norm_num
  simp only [addInt, sig, ex, if_neg h1, if_neg h2, Bool.false_eq_true, if_false]
  norm_num
  by_cases h0 : man = 0
  · subst h0
    simp [round_zero]
  · have h3 : ¬ ((man : Int) < 0) := by omega
    simp [h0, h3]

end Network

namespace Network

open F32

theorem F32.ord_finite (d : F32) (hf : d.exp < 255) :
    d.ord = if d.sign then -((d.sig * 2 ^ (d.ex + 149).toNat : Nat) : Int)
      else ((d.sig * 2 ^ (d.ex + 149).toNat : Nat) : Int) := by
  have h255 : ¬ (255 ≤ d.exp) := by omega
  simp only [ord, if_neg h255]

theorem F32.isNaN_finite (d : F32) (hf : d.exp < 255) : d.isNaN = false := by
  simp only [isNaN, Bool.and_eq_false_imp, decide_eq_true_eq]
  intro h
  omega

theorem F32.eq_zero_iff (d : F32) (hf : d.exp < 255) :
    F32.eq d F32.zero = true ↔ d.sig = 0 := by
  have hz0 : zero.isNaN = false := by decide
  have ho0 : zero.ord = 0 := by decide
  simp only [F32.eq, F32.isNaN_finite d hf, hz0, ho0, Bool.not_false, Bool.true_and,
    decide_eq_true_eq]
  rw [F32.ord_finite d hf]
  have hp : 0 < 2 ^ (d.ex + 149).toNat := Nat.two_pow_pos _
  constructor
  · intro h
    by_contra hc
    have hpos : 0 < d.sig * 2 ^ (d.ex + 149).toNat := Nat.mul_pos (Nat.pos_of_ne_zero hc) hp
    split at h <;> omega
  · intro h
    simp [h]

theorem F32.nonzero_of_eq_zero_false (d : F32) (hf : d.exp < 255)
    (hz : ¬ (F32.eq d F32.zero = true)) :
    d.sig ≠ 0 ∧ F32.lt d F32.zero = d.sign := by
  have hz0 : zero.isNaN = false := by decide
  have ho0 : zero.ord = 0 := by decide
  have hsig : d.sig ≠ 0 := fun h => hz ((F32.eq_zero_iff d hf).mpr h)
  refine ⟨hsig, ?_⟩
  have hpos : 0 < d.sig * 2 ^ (d.ex + 149).toNat :=
    Nat.mul_pos (Nat.pos_of_ne_zero hsig) (Nat.two_pow_pos _)
  simp only [F32.lt, F32.isNaN_finite d hf, hz0, ho0, Bool.not_false, Bool.true_and]
  rw [F32.ord_finite d hf]
  cases hs : d.sign
  · simp only [Bool.false_eq_true, if_false, decide_eq_false_iff_not, not_lt]
    exact Int.natCast_nonneg _
  · simp only [if_true, decide_eq_true_eq]
    omega

theorem F32.abs_eq_round (d : F32) (hv : d.Valid) (hf : d.exp < 255)
    (hz : ¬ (F32.eq d F32.zero = true)) :
    (if F32.lt d F32.zero = true then d.neg else d) = round false d.sig d.ex := by
  obtain ⟨-, hlt⟩ := F32.nonzero_of_eq_zero_false d hf hz
  have h := round_self ⟨false, d.exp, d.man⟩ ⟨hv.1, hv.2⟩ hf
  simp only [sig, ex] at h ⊢
  rw [h, hlt]
  obtain ⟨s, E, man⟩ := d
  cases s <;> simp [neg]

/-- `Pack_float754` returns on every finite float. -/
theorem Pack_float754_finite (d : F32) (fuel : Nat) (hv : d.Valid) (hf : d.exp < 255)
    (hfuel : 150 ≤ fuel) :
    ∃ encoder, Pack_float754 fuel d = .ok (Pack_uint32 encoder) := by
  by_cases hz : F32.eq d F32.zero = true
  · exact ⟨0, by simp only [Pack_float754, if_pos hz]⟩
  · obtain ⟨hsig, -⟩ := F32.nonzero_of_eq_zero_false d hf hz
    obtain ⟨hb1, hb2, hb3⟩ := F32.sig_bounds d hv hf
    obtain ⟨d1, s1, h1, h2⟩ := normalise_round d.sig d.ex fuel hsig hb1 hb2 hb3 hfuel
    simp only [Pack_float754, if_neg hz, F32.abs_eq_round d hv hf hz, h1, h2]
    exact ⟨_, rfl⟩

theorem encoder_bits (sgn E man : Nat) (hs : sgn ≤ 1) (hE : E < 256) (hman : man < 2 ^ 23) :
    ((toUInt32 (sgn : Int) <<< 31) % 2 ^ 32) ||| ((toUInt32 (E : Int) <<< 23) % 2 ^ 32)
      ||| toUInt32 (man : Int) = sgn * 2 ^ 31 + E * 2 ^ 23 + man := by
  have t1 : toUInt32 (sgn : Int) = sgn := by unfold toUInt32; omega
  have t2 : toUInt32 (E : Int) = E := by unfold toUInt32; omega
  have t3 : toUInt32 (man : Int) = man := by unfold toUInt32; omega
  rw [t1, t2, t3, Nat.shiftLeft_eq, Nat.shiftLeft_eq]
  have m1 : sgn * 2 ^ 31 % 2 ^ 32 = sgn * 2 ^ 31 := by omega
  have m2 : E * 2 ^ 23 % 2 ^ 32 = E * 2 ^ 23 := by omega
  rw [m1, m2]
  have e1 : sgn * 2 ^ 31 ||| E * 2 ^ 23 = sgn * 2 ^ 31 + E * 2 ^ 23 :=
    lor_eq_add_of_dvd _ _ 31 (Dvd.intro_left _ rfl) (by omega)
  have e2 : sgn * 2 ^ 31 + E * 2 ^ 23 ||| man = sgn * 2 ^ 31 + E * 2 ^ 23 + man :=
    lor_eq_add_of_dvd _ _ 23 (by omega) hman
  rw [e1, e2]

/-- On a normal float `Pack_float754` produces the big-endian bytes of its
IEEE-754 bit pattern. -/
theorem Pack_float754_normal (s : Bool) (E man fuel : Nat) (hE1 : 1 ≤ E) (hE2 : E ≤ 254)
    (hman : man < 2 ^ 23) (hfuel : 150 ≤ fuel) :
    Pack_float754 fuel ⟨s, E, man⟩ = .ok (Pack_uint32 (F32.bits ⟨s, E, man⟩)) := by
  have hv : (⟨s, E, man⟩ : F32).Valid := ⟨by simp only; omega, hman⟩
  have hf : (⟨s, E, man⟩ : F32).exp < 255 := by simp only; omega
  have hE0 : ¬ E = 0 := by omega
  have hz : ¬ (F32.eq ⟨s, E, man⟩ F32.zero = true) := by
    rw [F32.eq_zero_iff _ hf]
    simp only [sig, if_neg hE0]
    omega
  obtain ⟨hsig, hlt⟩ := F32.nonzero_of_eq_zero_false _ hf hz
  obtain ⟨hb1, hb2, hb3⟩ := F32.sig_bounds _ hv hf
  obtain ⟨d1, s1, h1, h2⟩ := normalise_round _ _ fuel hsig hb1 hb2 hb3 hfuel
  have hL : (2 ^ 23 + man).size = 24 := by
    apply le_antisymm
    · exact Nat.size_le.mpr (by omega)
    · exact Nat.lt_size.mpr (by omega)
  have hd : round false (sig ⟨s, E, man⟩) (1 - ((sig ⟨s, E, man⟩).size : Int))
      = ⟨false, 127, man⟩ := by
    have h := round_self ⟨false, 127, man⟩ ⟨by norm_num, hman⟩ (by norm_num)
    simp only [sig, ex, if_neg hE0] at h ⊢
    rw [hL]
    norm_num at h ⊢
    exact h
  rw [hd] at h2
  have hfrac : (F32.scale (F32.addInt ⟨false, 127, man⟩ (-1)) 23).toInt32 = (man : Int) := by
    have hLm : man.size ≤ 23 := Nat.size_le.mpr hman
    rw [F32.addInt_neg_one, scale_round false man (-23) 23 (by omega) (by norm_num) (by omega)]
    exact F32.toInt32_round_nat man (by omega)
  have habs : (if s = true then F32.neg ⟨s, E, man⟩ else (⟨s, E, man⟩ : F32))
      = round false (sig ⟨s, E, man⟩) (ex ⟨s, E, man⟩) := by
    have h := F32.abs_eq_round _ hv hf hz
    rw [hlt] at h
    exact h
  have h128 : (1 <<< (8 - 1) : Nat) = 128 := by decide
  have hexp : ex ⟨s, E, man⟩ + ((sig ⟨s, E, man⟩).size : Int) - (1 : Int)
      + (((1 <<< (8 - 1) : Nat) : Int) - (1 : Int)) = (E : Int) := by
    simp only [sig, ex, if_neg hE0, hL, h128]
    push_cast
    omega
  have hsgn : (if s = true then (1 : Int) else 0) = (((if s then 1 else 0 : Nat)) : Int) := by
    cases s <;> rfl
  simp only [Pack_float754, if_neg hz, hlt, habs, h1, h2, hfrac]
  rw [hexp, hsgn, encoder_bits _ E man (by cases s <;> simp) (by omega) hman]
  rfl

end Network

namespace Network

open F32

theorem F32.addInt_one_frac (man : Nat) (hman : man < 2 ^ 23) :
    addInt (round false man (-23)) 1 = ⟨false, 127, man⟩ := by
  have hLm : man.size ≤ 23 := Nat.size_le.mpr hman
  obtain ⟨j, h1, h2, h3, h4, -⟩ := round_exact false man (-23) (by omega) (by norm_num) (by omega)
  have h3' : ¬ (255 ≤ (round false man (-23)).exp) := by omega
  have hmin : min ((-23 : Int) - j) 0 = (-23 : Int) - j := by omega
  have hk1 : ((-23 : Int) - j - ((-23 : Int) - j)).toNat = 0 := by omega
  have hk2 : ((0 : Int) - ((-23 : Int) - j)).toNat = 23 + j := by omega
  simp only [addInt, if_neg h3', h1, h2, h4, hmin, hk1, hk2, Bool.false_eq_true, if_false,
    pow_zero, Nat.mul_one, one_mul]
  have hS : ((man * 2 ^ j : Nat) : Int) + ((2 ^ (23 + j) : Nat) : Int)
      = (((2 ^ 23 + man) * 2 ^ j : Nat) : Int) := by
    push_cast
    ring
  rw [hS]
  have hpos : 0 < (2 ^ 23 + man) * 2 ^ j := Nat.mul_pos (by positivity) (Nat.two_pow_pos _)
  have hne : ¬ ((((2 ^ 23 + man) * 2 ^ j : Nat) : Int) = 0) := by omega
  have hnn : ¬ ((((2 ^ 23 + man) * 2 ^ j : Nat) : Int) < 0) := by omega
  rw [if_neg hne, Int.natAbs_ofNat, decide_eq_false hnn, round_shift]
  have h := round_self ⟨false, 127, man⟩ ⟨by norm_num, hman⟩ (by norm_num)
  simp only [sig, ex] at h
  norm_num at h ⊢
  exact h

theorem F32.bits_fields (s : Bool) (E man : Nat) (hE : E < 256) (hman : man < 2 ^ 23) :
    F32.bits ⟨s, E, man⟩ < 2 ^ 32 ∧ F32.bits ⟨s, E, man⟩ % 2 ^ 23 = man
      ∧ F32.bits ⟨s, E, man⟩ / 2 ^ 23 % 2 ^ 8 = E
      ∧ F32.bits ⟨s, E, man⟩ / 2 ^ 31 % 2 = (if s then 1 else 0) := by
  simp only [F32.bits]
  cases s <;> simp only [Bool.false_eq_true, if_false, if_true] <;>
    refine ⟨?_, ?_, ?_, ?_⟩ <;> omega

/-- On the bytes of the bit pattern of a normal float, `Unpack_float754`
gives that float. -/
theorem Unpack_float754_normal (s : Bool) (E man : Nat) (hE1 : 1 ≤ E) (hE2 : E ≤ 254)
    (hman : man < 2 ^ 23) :
    Unpack_float754 (Pack_uint32 (F32.bits ⟨s, E, man⟩)) = ⟨s, E, man⟩ := by
  obtain ⟨hb, hb1, hb2, hb3⟩ := F32.bits_fields s E man (by omega) hman
  have hdec : Unpack_uint32 (Pack_uint32 (F32.bits ⟨s, E, man⟩)) = F32.bits ⟨s, E, man⟩ := by
    rw [Pack_uint32_eq, Unpack_uint32_bigEndian32, Nat.mod_eq_of_lt hb]
  have hne : ¬ (F32.bits ⟨s, E, man⟩ = 0) := by
    intro h
    rw [h] at hb2
    omega
  have hLm : man.size ≤ 23 := Nat.size_le.mpr hman
  have hofInt : F32.ofInt ((man : Nat) : Int) = round false man 0 := by
    have : ¬ ((man : Int) < 0) := by omega
    simp only [F32.ofInt, decide_eq_false this, Int.natAbs_ofNat]
  have h128 : (1 <<< (8 - 1) : Nat) = 128 := by decide
  simp only [Unpack_float754, hdec, if_neg hne, Nat.and_pow_two_sub_one_eq_mod,
    Nat.shiftRight_eq_div_pow, Nat.and_one_is_mod, hb1, hb2, hb3, hofInt, h128]
  rw [scale_round false man 0 (-23) (by omega) (by norm_num) (by omega)]
  have h0 : (0 : Int) + -23 = -23 := by norm_num
  rw [h0, F32.addInt_one_frac man hman]
  have hres : (fun r => F32.scale r (-1))^[(-((E : Int) - (((128 : Nat) : Int) - 1))).toNat]
      ((fun r => F32.scale r 1)^[((E : Int) - (((128 : Nat) : Int) - 1)).toNat]
        ⟨false, 127, man⟩) = ⟨false, E, man⟩ := by
    by_cases hc : 127 ≤ E
    · have e1 : ((E : Int) - (((128 : Nat) : Int) - 1)).toNat = E - 127 := by omega
      have e2 : (-((E : Int) - (((128 : Nat) : Int) - 1))).toNat = 0 := by omega
      have e3 : 127 + (E - 127) = E := by omega
      rw [e1, e2, F32.iterate_scale_up false man hman (E - 127) 127 (by norm_num) (by omega), e3]
      rfl
    · have e1 : ((E : Int) - (((128 : Nat) : Int) - 1)).toNat = 0 := by omega
      have e2 : (-((E : Int) - (((128 : Nat) : Int) - 1))).toNat = 127 - E := by omega
      rw [e1, e2]
      simp only [Function.iterate_zero, id_eq]
      have e3 : 127 - (127 - E) = E := by omega
      rw [F32.iterate_scale_down false man hman (127 - E) 127 (by norm_num) (by omega), e3]
  rw [hres]
  cases s <;> simp [F32.neg]

theorem Unpack_float754_zero : Unpack_float754 (Pack_uint32 0) = F32.zero := by
  decide

end Network


namespace Network

open F32

theorem Pack_float754_exact (c : F32) (fuel : Nat) (hv : c.Valid)
    (hc : c = F32.zero ∨ (1 ≤ c.exp ∧ c.exp ≤ 254)) (hfuel : 150 ≤ fuel) :
    Pack_float754 fuel c = .ok (bigEndian32 c.bits)
      ∧ Unpack_float754 (bigEndian32 c.bits) = c := by
  rcases hc with rfl | ⟨h1, h2⟩
  · refine ⟨?_, ?_⟩
    · have hz : F32.eq F32.zero F32.zero = true := by decide
      simp only [Pack_float754, if_pos hz, Pack_uint32_eq]
      rfl
    · decide
  · obtain ⟨s, E, man⟩ := c
    simp only at h1 h2
    rw [← Pack_uint32_eq]
    exact ⟨Pack_float754_normal s E man fuel h1 h2 hv.2 hfuel,
      Unpack_float754_normal s E man h1 h2 hv.2⟩

theorem F32.eq_self (c : F32) (hf : c.exp < 255) : F32.eq c c = true := by
  simp [F32.eq, F32.isNaN_finite c hf]

/-- C6: for every finite, non-denormal single-precision float `f`,
`Pack_float754(f)` returns (150 units of fuel are enough for both
normalisation loops) and `Unpack_float754` of the result `== f`. -/
theorem Pack_float754_roundtrip (f : F32) (fuel : Nat) (hv : f.Valid)
    (hfin : f.isFinite = true) (hnd : f.isDenormal = false) (hfuel : 150 ≤ fuel) :
    ∃ bytes, Pack_float754 fuel f = .ok bytes ∧ F32.eq (Unpack_float754 bytes) f = true := by
  have hf : f.exp < 255 := by simpa [F32.isFinite] using hfin
  by_cases hE : f.exp = 0
  · have hman : f.man = 0 := by
      simp only [F32.isDenormal, hE, decide_True, Bool.true_and, decide_eq_false_iff_not,
        not_not] at hnd
      exact hnd
    have hz : F32.eq f F32.zero = true := by
      rw [F32.eq_zero_iff f hf]
      simp [F32.sig, hE, hman]
    refine ⟨Pack_uint32 0, by simp only [Pack_float754, if_pos hz], ?_⟩
    rw [Unpack_float754_zero]
    obtain ⟨s, E, man⟩ := f
    simp only at hE hman
    subst hE hman
    cases s <;> decide
  · obtain ⟨h1, h2⟩ := Pack_float754_exact f fuel hv (Or.inr ⟨by omega, by omega⟩) hfuel
    exact ⟨_, h1, by rw [h2]; exact F32.eq_self f hf⟩

/-- C6 at the float 3.14 (bit pattern `0x4048F5C3`). -/
theorem Pack_float754_roundtrip_witness :
    (⟨false, 128, 4781507⟩ : F32).Valid ∧ (⟨false, 128, 4781507⟩ : F32).isFinite = true
      ∧ (⟨false, 128, 4781507⟩ : F32).isDenormal = false ∧ 150 ≤ 150
      ∧ ∃ bytes, Pack_float754 150 ⟨false, 128, 4781507⟩ = .ok bytes
          ∧ F32.eq (Unpack_float754 bytes) ⟨false, 128, 4781507⟩ = true :=
  ⟨by decide, by decide, by decide, by decide,
    Pack_float754_roundtrip ⟨false, 128, 4781507⟩ 150 (by decide) (by decide) (by decide)
      (by decide)⟩

set_option exponentiation.threshold 300 in
theorem normDown_inf : ∀ (fuel : Nat) (shift : Int),
    Pack_float754.normDown fuel F32.inf shift = .error .outOfFuel := by
  intro fuel
  induction fuel with
  | zero => intro shift; rfl
  | succ n ih =>
    intro shift
    have h1 : F32.le F32.two F32.inf = true := by decide
    have h2 : F32.scale F32.inf (-1) = F32.inf := by decide
    rw [Pack_float754.normDown, if_pos h1, h2, ih]

set_option exponentiation.threshold 300 in
/-- `Pack_float754` never returns on `+infinity`: the first loop halves it
for ever. -/
theorem Pack_float754_inf (fuel : Nat) : Pack_float754 fuel F32.inf = .error .outOfFuel := by
  have hz : ¬ (F32.eq F32.inf F32.zero = true) := by decide
  have hl : ¬ (F32.lt F32.inf F32.zero = true) := by decide
  simp only [Pack_float754, if_neg hz, if_neg hl, normDown_inf]

end Network


/-! ## Packets -/

namespace Network.Packet

theorem Packed_eq (p : Packet) :
    p.Packed = bigEndian32 p.DataSize ++ [0x64, 0x37, p.type.toUInt8, p.client % 256] ++ p.data := by
  have h16 : Pack_uint16 kUniqueCode = [0x64, 0x37] := by decide
  have ht : PackType p.type = p.type.toUInt8 := by cases p.type <;> decide
  have hc : Pack_uint8 p.client = p.client % 256 := by
    have h : Pack_uint8 p.client = (p.client >>> (0 * 8)) &&& 0xFF := rfl
    rw [h, and_255]
    simp
  simp only [Packet.Packed, Packet.Header, h16, ht, hc, Pack_uint32_eq]
  simp

/-- C1 (failing input): for the packet `{kProperties, client 0, payload "A"}`
the nine bytes of `Packed()` start with the four bytes of the payload length
and carry the magic `0x64 0x37` at offset 4, whereas the layout of the claim
has the magic at offset 0 and the length at offset 2. -/
theorem Packed_puts_size_before_magic :
    Packet.Packed ⟨.kProperties, 0, [65]⟩ = [0, 0, 0, 1, 0x64, 0x37, 2, 0, 65]
      ∧ wireLayout ⟨.kProperties, 0, [65]⟩ = [0x64, 0x37, 0, 0, 0, 1, 2, 0, 65]
      ∧ Packet.Packed ⟨.kProperties, 0, [65]⟩ ≠ wireLayout ⟨.kProperties, 0, [65]⟩ := by
  decide

/-- C2 (failing input): the receiver does not get back the packet
`{kProperties, client 0, payload = the property stream Name="Amber"}` from
the bytes of its `Packed()`.  `Receive` finds the magic at offset 4, takes
the type byte, the client byte and the first four payload bytes for the
header, and so waits for 0x02000300 data bytes: it returns the
`SocketDisconnect` packet when the peer then closes and blocks when the
connection stays open.  From the layout of the specification the same
routine does return the packet. -/
theorem Receive_of_Packed_loses_packet :
    (Receive 32 (Socket.connected
        [.data (Packet.Packed ⟨.kProperties, 0, [3, 0, 0, 0, 5, 65, 109, 98, 101, 114]⟩),
          .closed])).map Prod.fst = .ok disconnectPacket
      ∧ (Receive 32 (Socket.connected
          [.data (Packet.Packed ⟨.kProperties, 0, [3, 0, 0, 0, 5, 65, 109, 98, 101, 114]⟩)])).map
            Prod.fst = .error .blocked
      ∧ (Receive 32 (Socket.connected
          [.data (wireLayout ⟨.kProperties, 0, [3, 0, 0, 0, 5, 65, 109, 98, 101, 114]⟩)])).map
            Prod.fst = .ok ⟨.kProperties, 0, [3, 0, 0, 0, 5, 65, 109, 98, 101, 114]⟩ := by
  refine ⟨?_, ?_, ?_⟩ <;> decide!

end Network.Packet

namespace Game.Property

open Network

theorem Unpack_uint8_eq (c : Nat) : Unpack_uint8 c = c % 256 := by
  have h : Unpack_uint8 c = 0 ||| ((c % 256) <<< (0 * 8)) % 2 ^ (8 * 1) := rfl
  rw [h, Nat.shiftLeft_eq, Nat.zero_or]
  omega

theorem Pack_uint8_eq (a : Nat) : Pack_uint8 a = a % 256 := by
  have h : Pack_uint8 a = (a >>> (0 * 8)) &&& 0xFF := rfl
  rw [h, and_255]
  simp

theorem UnpackType_eq (c : Nat) :
    UnpackType c = if 7 ≤ c % 256 then .error (.thrown "Property type char out of range.")
      else .ok (PropertyType.ofUInt8 (c % 256)) := by
  simp only [UnpackType, Unpack_uint8_eq, kTypeCount]

theorem toUInt8_ofUInt8 (x : Nat) (h : x < 7) : (PropertyType.ofUInt8 x).toUInt8 = x := by
  interval_cases x <;> rfl

/-- C8: `Property::UnpackType(c)` throws exactly when the byte `c`, read as
an unsigned 8-bit value, is at least 7, and otherwise returns the tag with
that number; unpacking inverts packing on each of the seven tags; and
`operator>>` on a stream whose next tag byte is at least 7 ends in that
exception, so no property is produced. -/
theorem UnpackType_rejects_unknown_tags (c : Byte) :
    ((∃ what, UnpackType c = .error (.thrown what)) ↔ 7 ≤ c % 256)
      ∧ (c % 256 < 7 → ∃ t, UnpackType c = .ok t ∧ t.toUInt8 = c % 256)
      ∧ (∀ t : PropertyType, UnpackType (PackType t) = .ok t)
      ∧ (7 ≤ c % 256 → ∀ (rest : List Byte) (test : Bool) (p : Property),
          Stream.extract { properties_packed_ := c :: rest, test := test } p
            = .error (.thrown "Property type char out of range.")) := by
  refine ⟨?_, ?_, ?_, ?_⟩
  · rw [UnpackType_eq]
    constructor
    · rintro ⟨what, h⟩
      by_contra hc
      rw [if_neg hc] at h
      cases h
    · intro hc
      exact ⟨_, if_pos hc⟩
  · intro hc
    refine ⟨PropertyType.ofUInt8 (c % 256), ?_, toUInt8_ofUInt8 _ hc⟩
    rw [UnpackType_eq, if_neg (Nat.not_le.mpr hc)]
  · intro t
    cases t <;> decide
  · intro hc rest test p
    simp only [Stream.extract, Stream.Empty, List.isEmpty_cons, Bool.false_eq_true, if_false,
      List.headD_cons, UnpackType_eq, if_pos hc]

/-- C8 at the tag bytes 200 (rejected) and 3 (`ksName`). -/
theorem UnpackType_rejects_unknown_tags_witness :
    (7 ≤ 200 % 256 ∧ ∀ (rest : List Byte) (test : Bool) (p : Property),
        Stream.extract { properties_packed_ := 200 :: rest, test := test } p
          = .error (.thrown "Property type char out of range."))
      ∧ (3 % 256 < 7 ∧ ∃ t, UnpackType 3 = .ok t ∧ t.toUInt8 = 3 % 256) :=
  ⟨⟨by decide, (UnpackType_rejects_unknown_tags 200).2.2.2 (by decide)⟩,
    ⟨by decide, (UnpackType_rejects_unknown_tags 3).2.1 (by decide)⟩⟩

/-- C9 (failing input): on a stream that holds a truncated record,
`operator>>` raises no parse error; it reads outside the buffer.  With one
byte (a tag and no length) the four length bytes are read past the end, and
with the record `Name, length 5, "A"` the five value bytes are. -/
theorem extract_truncated_reads_out_of_bounds (p : Property) :
    Stream.extract (Stream.ofPacked [3]) p = .error .outOfBounds
      ∧ Stream.extract (Stream.ofPacked [3, 0, 0, 0, 5, 65]) p = .error .outOfBounds := by
  constructor <;> rfl

theorem ofList_bytes (ps : List Property) (s : Stream) :
    (ps.foldl Stream.append s).properties_packed_
        = s.properties_packed_ ++ (Stream.ofList ps).properties_packed_
      ∧ (ps.foldl Stream.append s).test = s.test := by
  induction ps generalizing s with
  | nil => simp [Stream.ofList, Stream.empty]
  | cons p ps ih =>
    have h1 := ih (s.append p)
    have h2 := ih (Stream.empty.append p)
    simp only [Stream.ofList, List.foldl_cons] at h1 h2 ⊢
    rw [h1.1, h1.2, h2.1]
    simp [Stream.append, Stream.empty]

theorem bigEndian32_mod (n : Nat) : bigEndian32 (n % 2 ^ 32) = bigEndian32 n := by
  have h1 : n % 2 ^ 32 / 2 ^ 24 % 256 = n / 2 ^ 24 % 256 := by omega
  have h2 : n % 2 ^ 32 / 2 ^ 16 % 256 = n / 2 ^ 16 % 256 := by omega
  have h3 : n % 2 ^ 32 / 2 ^ 8 % 256 = n / 2 ^ 8 % 256 := by omega
  have h4 : n % 2 ^ 32 % 256 = n % 256 := by omega
  simp only [bigEndian32, h1, h2, h3, h4]

theorem ofList_cons (p : Property) (ps : List Property) :
    Stream.ofList (p :: ps)
      = ⟨PackType p.type :: (bigEndian32 p.value.length ++ (p.value
          ++ (Stream.ofList ps).properties_packed_)), false⟩ := by
  have h := ofList_bytes ps (Stream.empty.append p)
  have e : Stream.ofList (p :: ps) = ps.foldl Stream.append (Stream.empty.append p) := rfl
  rw [e]
  cases hs : ps.foldl Stream.append (Stream.empty.append p) with
  | mk bytes test =>
    rw [hs] at h
    simp only at h
    rw [h.1, h.2]
    simp only [Stream.append, Stream.empty, Pack_uint32_eq, bigEndian32_mod, List.nil_append,
      List.singleton_append, List.cons_append, List.append_assoc]

theorem extract_cons (p : Property) (R : List Byte) (test : Bool) (q : Property)
    (hp : p.value.length < 2 ^ 32) :
    Stream.extract ⟨PackType p.type :: (bigEndian32 p.value.length ++ (p.value ++ R)), test⟩ q
      = .ok (⟨R, test⟩, p) := by
  have ht : UnpackType (PackType p.type) = .ok p.type := by
    cases p.type <;> decide
  have hu := Unpack_uint32_bigEndian32 p.value.length
  rw [Nat.mod_eq_of_lt hp] at hu
  simp only [bigEndian32] at hu
  have hr1 : range (PackType p.type :: (bigEndian32 p.value.length ++ (p.value ++ R))) 1 4
      = .ok (bigEndian32 p.value.length) := by
    simp [range, bigEndian32]
  have hr2 : range (PackType p.type :: (bigEndian32 p.value.length ++ (p.value ++ R))) (1 + 4)
      p.value.length = .ok p.value := by
    simp [range, bigEndian32]
    omega
  have hd : (PackType p.type :: (bigEndian32 p.value.length ++ (p.value ++ R))).drop
      (1 + 4 + p.value.length) = R := by
    simp [bigEndian32, Nat.add_comm]
  simp only [Stream.extract, Stream.Empty, List.isEmpty_cons, Bool.false_eq_true, if_false,
    List.headD_cons, ht, hr1]
  simp only [bigEndian32, hu] at hr2 hd ⊢
  rw [hr2, hd]

/-- On a stream built from a non-empty list of properties the documented
driver runs its body with exactly those properties, in order. -/
theorem drain_ofList_cons (ps : List Property) :
    ∀ (p q : Property) (fuel : Nat), (∀ r ∈ p :: ps, r.value.length < 2 ^ 32) →
      ps.length + 2 ≤ fuel → Stream.drain fuel (Stream.ofList (p :: ps)) q = .ok (p :: ps) := by
  induction ps with
  | nil =>
    intro p q fuel hsz hfuel
    obtain ⟨fuel, rfl⟩ : ∃ f, fuel = f + 2 := ⟨fuel - 2, by simp at hfuel; omega⟩
    have e : (Stream.ofList []).properties_packed_ = [] := rfl
    rw [ofList_cons, Stream.drain, extract_cons p _ false q (hsz p (by simp)), e]
    simp [Stream.toBool, Stream.Empty, Stream.drain, Stream.extract]
  | cons p1 ps ih =>
    intro p q fuel hsz hfuel
    obtain ⟨fuel, rfl⟩ : ∃ f, fuel = f + 1 := ⟨fuel - 1, by simp at hfuel; omega⟩
    rw [ofList_cons, Stream.drain, extract_cons p _ false q (hsz p (by simp))]
    have hne : (Stream.ofList (p1 :: ps)).properties_packed_.isEmpty = false := by
      rw [ofList_cons]
      rfl
    have hb : Stream.toBool ⟨(Stream.ofList (p1 :: ps)).properties_packed_, false⟩
        = (true, Stream.ofList (p1 :: ps)) := by
      simp only [Stream.toBool, Stream.Empty, hne, Bool.false_eq_true, if_false]
      rw [ofList_cons]
    simp only [hb]
    rw [ih p1 p fuel (fun r hr => hsz r (List.mem_cons_of_mem _ hr))
      (by simp at hfuel ⊢; omega)]

/-- C3 (failing input): on the empty stream the documented driver runs its
body once, with the loop variable `p` as it was default-constructed (nothing
was extracted into it), and only then stops; appending what the body saw to
a fresh stream gives five bytes, not the empty stream. -/
theorem drain_empty_stream_runs_body_once (p : Property) :
    (Stream.ofList []).Packed = []
      ∧ Stream.drain 2 (Stream.ofList []) p = .ok [p]
      ∧ (Stream.ofList [p]).Packed.length = 5 + p.value.length
      ∧ (Stream.ofList [p]).Packed ≠ (Stream.ofList []).Packed := by
  have h5 : (Stream.ofList [p]).Packed.length = 5 + p.value.length := by
    simp [Stream.ofList, Stream.append, Stream.Packed, Stream.empty, Pack_uint32_eq, bigEndian32]
    omega
  refine ⟨rfl, rfl, h5, ?_⟩
  intro h
  have := congrArg List.length h
  rw [h5] at this
  simp [Stream.ofList, Stream.Packed, Stream.empty] at this

end Game.Property

/-! ## Locations -/

namespace Game.Location

open Network Game.Property

theorem Pack_int32_eq (a : Nat) : Pack_int32 a = bigEndian32 a := Pack_uint32_eq a

theorem Unpack_int32_bigEndian32 (u : Nat) : Unpack_int32 (bigEndian32 u) = u % 2 ^ 32 :=
  Unpack_uint32_bigEndian32 u

theorem toInt32_toUInt32 (t : Int) (h1 : -2 ^ 31 ≤ t) (h2 : t < 2 ^ 31) :
    Network.toInt32 (toUInt32 t % 2 ^ 32) = t := by
  unfold Network.toInt32 toUInt32
  split <;> omega

theorem PackNotNulls_eq (l : Location) :
    l.PackNotNulls = (if l.has_world_space_ then 2 else 0) + (if l.has_cell_ then 1 else 0) := by
  have h : ∀ ws cell : Bool, PackNotNulls ⟨ws, cell, 0, 0, 0, []⟩
      = (if ws then 2 else 0) + (if cell then 1 else 0) := by decide
  exact h l.has_world_space_ l.has_cell_

theorem UnpackNotNulls_flags (ws cell : Bool) :
    UnpackNotNulls ((if ws then 2 else 0) + (if cell then 1 else 0)) = (ws, cell) := by
  cases ws <;> cases cell <;> decide

theorem ofProperty_explicit (b0 b1 b2 b3 b4 b5 b6 b7 b8 b9 b10 b11 b12 b13 b14 b15 b16 b17 b18
    b19 b20 b21 b22 b23 b24 : Byte) :
    ofProperty ⟨.kLocation, [b0, b1, b2, b3, b4, b5, b6, b7, b8, b9, b10, b11, b12, b13, b14,
      b15, b16, b17, b18, b19, b20, b21, b22, b23, b24]⟩
      = .ok { has_world_space_ := (UnpackNotNulls b4).1, has_cell_ := (UnpackNotNulls b4).2,
              world_space_id_ := Unpack_uint32 [b5, b6, b7, b8],
              cell_id_ := Unpack_uint32 [b9, b10, b11, b12],
              time_elapsed_ := Network.toInt32 (Unpack_int32 [b0, b1, b2, b3]),
              position_ := [Unpack_float754 [b13, b14, b15, b16],
                Unpack_float754 [b17, b18, b19, b20], Unpack_float754 [b21, b22, b23, b24]] } :=
  rfl

/-- What `ToProperty` returns once the three coordinates are packed. -/
theorem ToProperty_of_packed (l : Location) (fuel : Nat) (x y z : F32) (px py pz : List Byte)
    (hp : l.position_ = [x, y, z]) (hx : Pack_float754 fuel x = .ok px)
    (hy : Pack_float754 fuel y = .ok py) (hz : Pack_float754 fuel z = .ok pz) :
    ToProperty fuel l = .ok ⟨.kLocation,
      bigEndian32 (toUInt32 l.time_elapsed_)
        ++ [(if l.has_world_space_ then 2 else 0) + (if l.has_cell_ then 1 else 0)]
        ++ bigEndian32 l.world_space_id_ ++ bigEndian32 l.cell_id_ ++ px ++ py ++ pz⟩ := by
  simp only [ToProperty, hp, packPosition, hx, hy, hz, Pack_int32_eq, Pack_uint32_eq,
    PackNotNulls_eq, List.nil_append, List.append_nil, List.append_assoc]

end Game.Location

namespace Game.Location

open Network Game.Property

theorem position_eq (l : Location) (h : l.position_.length = kDimension) :
    l.position_ = [l.x, l.y, l.z] := by
  obtain ⟨_, _, _, _, _, pos⟩ := l
  simp only [kDimension] at h
  match pos, h with
  | [a, b, c], _ => rfl

/-- C4 (amended): for every location whose three coordinates are each `+0.0`
or a normal float, decoding the property made by `ToProperty()` with
`Location(Property)` gives back the location, equal in every field bit for
bit. -/
theorem Location_roundtrip (l : Location) (fuel : Nat) (hv : l.Valid)
    (hc : ∀ c ∈ l.position_, c = F32.zero ∨ (1 ≤ c.exp ∧ c.exp ≤ 254)) (hfuel : 150 ≤ fuel) :
    ∃ p, ToProperty fuel l = .ok p ∧ ofProperty p = .ok l := by
  obtain ⟨hws, hcell, ht1, ht2, hlen, hval⟩ := hv
  have hp := position_eq l hlen
  have hx := Pack_float754_exact l.x fuel (hval _ (by rw [hp]; simp)) (hc _ (by rw [hp]; simp)) hfuel
  have hy := Pack_float754_exact l.y fuel (hval _ (by rw [hp]; simp)) (hc _ (by rw [hp]; simp)) hfuel
  have hz := Pack_float754_exact l.z fuel (hval _ (by rw [hp]; simp)) (hc _ (by rw [hp]; simp)) hfuel
  refine ⟨_, ToProperty_of_packed l fuel _ _ _ _ _ _ hp hx.1 hy.1 hz.1, ?_⟩
  have e1 := Unpack_int32_bigEndian32 (toUInt32 l.time_elapsed_)
  have e2 := Unpack_uint32_bigEndian32 l.world_space_id_
  have e3 := Unpack_uint32_bigEndian32 l.cell_id_
  have e4 := hx.2
  have e5 := hy.2
  have e6 := hz.2
  simp only [bigEndian32] at e1 e2 e3 e4 e5 e6
  simp only [bigEndian32, List.cons_append, List.nil_append, ofProperty_explicit, e1, e2, e3, e4,
    e5, e6, UnpackNotNulls_flags, toInt32_toUInt32 _ ht1 ht2, Nat.mod_eq_of_lt hws,
    Nat.mod_eq_of_lt hcell, ← hp]

/-- C4 (amended) at a location in world space 1, cell 2, at `(1.0, 2.0, -3.0)`. -/
theorem Location_roundtrip_witness :
    (⟨true, true, 1, 2, -5, [⟨false, 127, 0⟩, ⟨false, 128, 0⟩, ⟨true, 128, 4194304⟩]⟩ :
        Location).Valid
      ∧ (∀ c ∈ (⟨true, true, 1, 2, -5, [⟨false, 127, 0⟩, ⟨false, 128, 0⟩,
            ⟨true, 128, 4194304⟩]⟩ : Location).position_,
          c = F32.zero ∨ (1 ≤ c.exp ∧ c.exp ≤ 254))
      ∧ 150 ≤ 150
      ∧ ∃ p, ToProperty 150 ⟨true, true, 1, 2, -5, [⟨false, 127, 0⟩, ⟨false, 128, 0⟩,
            ⟨true, 128, 4194304⟩]⟩ = .ok p
          ∧ ofProperty p = .ok ⟨true, true, 1, 2, -5, [⟨false, 127, 0⟩, ⟨false, 128, 0⟩,
            ⟨true, 128, 4194304⟩]⟩ :=
  ⟨by decide, by decide, by decide,
    Location_roundtrip _ 150 (by decide) (by decide) (by decide)⟩

/-- C4 (counterexample): the location with coordinates `(-0.0, 0.0, 0.0)`
comes back with `x = +0.0`, which differs from `-0.0` in the sign bit. -/
theorem Location_negative_zero_not_restored :
    (⟨false, false, 0, 0, 0, [F32.negZero, F32.zero, F32.zero]⟩ : Location).Valid
      ∧ ToProperty 150 ⟨false, false, 0, 0, 0, [F32.negZero, F32.zero, F32.zero]⟩
          = .ok ⟨.kLocation, List.replicate 25 0⟩
      ∧ ofProperty ⟨.kLocation, List.replicate 25 0⟩
          = .ok ⟨false, false, 0, 0, 0, [F32.zero, F32.zero, F32.zero]⟩
      ∧ (⟨false, false, 0, 0, 0, [F32.zero, F32.zero, F32.zero]⟩ : Location)
          ≠ ⟨false, false, 0, 0, 0, [F32.negZero, F32.zero, F32.zero]⟩ := by
  refine ⟨by decide, by decide, by decide, by decide⟩

end Game.Location

namespace Game.Location

open Network Game.Property

theorem bigEndian32_length (u : Nat) : (bigEndian32 u).length = 4 := rfl

/-- C7 (amended): for every location whose coordinates are finite,
`ToProperty()` returns a property with tag `kLocation` whose value has
exactly 25 bytes: `elapsed_ms` big-endian, the flags byte (2 for
`has_world_space` plus 1 for `has_cell`), `world_space_id` and `cell_id`
big-endian, then the four packed bytes of each of `x`, `y`, `z`. -/
theorem ToProperty_layout (l : Location) (fuel : Nat) (hv : l.Valid)
    (hfin : ∀ c ∈ l.position_, c.isFinite = true) (hfuel : 150 ≤ fuel) :
    ∃ px py pz, Pack_float754 fuel l.x = .ok px ∧ Pack_float754 fuel l.y = .ok py
      ∧ Pack_float754 fuel l.z = .ok pz
      ∧ px.length = 4 ∧ py.length = 4 ∧ pz.length = 4
      ∧ ToProperty fuel l = .ok ⟨.kLocation,
          bigEndian32 (toUInt32 l.time_elapsed_)
            ++ [(if l.has_world_space_ then 2 else 0) + (if l.has_cell_ then 1 else 0)]
            ++ bigEndian32 l.world_space_id_ ++ bigEndian32 l.cell_id_ ++ px ++ py ++ pz⟩
      ∧ (bigEndian32 (toUInt32 l.time_elapsed_)
            ++ [(if l.has_world_space_ then 2 else 0) + (if l.has_cell_ then 1 else 0)]
            ++ bigEndian32 l.world_space_id_ ++ bigEndian32 l.cell_id_ ++ px ++ py
            ++ pz).length = 25 := by
  obtain ⟨-, -, -, -, hlen, hval⟩ := hv
  have hp := position_eq l hlen
  have hf : ∀ c ∈ l.position_, c.exp < 255 := fun c hc => by
    simpa [F32.isFinite] using hfin c hc
  obtain ⟨ex, hx⟩ := Pack_float754_finite l.x fuel (hval _ (by rw [hp]; simp))
    (hf _ (by rw [hp]; simp)) hfuel
  obtain ⟨ey, hy⟩ := Pack_float754_finite l.y fuel (hval _ (by rw [hp]; simp))
    (hf _ (by rw [hp]; simp)) hfuel
  obtain ⟨ez, hz⟩ := Pack_float754_finite l.z fuel (hval _ (by rw [hp]; simp))
    (hf _ (by rw [hp]; simp)) hfuel
  refine ⟨_, _, _, hx, hy, hz, ?_, ?_, ?_, ToProperty_of_packed l fuel _ _ _ _ _ _ hp hx hy hz,
    ?_⟩
  · rw [Pack_uint32_eq]; rfl
  · rw [Pack_uint32_eq]; rfl
  · rw [Pack_uint32_eq]; rfl
  · simp only [Pack_uint32_eq, List.length_append, bigEndian32_length, List.length_singleton]

/-- C7 (amended) at a location whose coordinates are 1.0, the smallest negative denormal and 0.0. -/
theorem ToProperty_layout_witness :
    (⟨true, false, 7, 9, 1000, [⟨false, 127, 0⟩, ⟨true, 0, 1⟩, ⟨false, 0, 0⟩]⟩ : Location).Valid
      ∧ (∀ c ∈ (⟨true, false, 7, 9, 1000, [⟨false, 127, 0⟩, ⟨true, 0, 1⟩,
            ⟨false, 0, 0⟩]⟩ : Location).position_, c.isFinite = true)
      ∧ 150 ≤ 150
      ∧ ∃ px py pz, Pack_float754 150 ⟨false, 127, 0⟩ = .ok px
          ∧ Pack_float754 150 ⟨true, 0, 1⟩ = .ok py ∧ Pack_float754 150 ⟨false, 0, 0⟩ = .ok pz
          ∧ px.length = 4 ∧ py.length = 4 ∧ pz.length = 4
          ∧ ToProperty 150 ⟨true, false, 7, 9, 1000, [⟨false, 127, 0⟩, ⟨true, 0, 1⟩,
              ⟨false, 0, 0⟩]⟩
            = .ok ⟨.kLocation, [0, 0, 3, 232] ++ [2] ++ [0, 0, 0, 7] ++ [0, 0, 0, 9]
                ++ px ++ py ++ pz⟩
          ∧ ([0, 0, 3, 232] ++ [2] ++ [0, 0, 0, 7] ++ [0, 0, 0, 9] ++ px ++ py ++ pz).length
              = 25 :=
  ⟨by decide, by decide, by decide,
    ToProperty_layout ⟨true, false, 7, 9, 1000, [⟨false, 127, 0⟩, ⟨true, 0, 1⟩, ⟨false, 0, 0⟩]⟩
      150 (by decide) (by decide) (by decide)⟩

set_option exponentiation.threshold 300 in
/-- C7 (counterexample): for the location with coordinates
`(+infinity, 0.0, 0.0)` `ToProperty()` returns no property at all, whatever
the fuel: packing `x` never leaves the first loop of `Pack_float754`. -/
theorem ToProperty_infinite_coordinate_never_returns :
    (⟨false, false, 0, 0, 0, [F32.inf, F32.zero, F32.zero]⟩ : Location).Valid
      ∧ ¬ ∃ fuel p, ToProperty fuel ⟨false, false, 0, 0, 0, [F32.inf, F32.zero, F32.zero]⟩
          = .ok p := by
  refine ⟨by decide, ?_⟩
  rintro ⟨fuel, p, h⟩
  simp only [ToProperty, packPosition, Pack_float754_inf] at h
  cases h

/-- C10: `Location(Property)` throws for every property whose tag is not
`kLocation` and for every property whose value is not exactly 25 bytes long;
on every property it accepts it returns a location, and on no input does it
read outside the value. -/
theorem ofProperty_validates_shape (p : Property) :
    (p.type ≠ .kLocation ∨ p.value.length ≠ 25 →
        ofProperty p = .error (.thrown "Location creation failed. Property is wrong."))
      ∧ (p.type = .kLocation ∧ p.value.length = 25 → ∃ l, ofProperty p = .ok l)
      ∧ ofProperty p ≠ .error .outOfBounds := by
  have hthrow : p.type ≠ .kLocation ∨ p.value.length ≠ 25 →
      ofProperty p = .error (.thrown "Location creation failed. Property is wrong.") := by
    intro h
    have h' : p.type ≠ .kLocation ∨ p.value.length ≠ kLocationTypeSize := h
    simp only [ofProperty, if_pos h']
  have hok : p.type = .kLocation ∧ p.value.length = 25 → ∃ l, ofProperty p = .ok l := by
    rintro ⟨ht, hl⟩
    have h' : ¬ (p.type ≠ .kLocation ∨ p.value.length ≠ kLocationTypeSize) := by
      rintro (h | h)
      · exact h ht
      · exact h hl
    have r : ∀ off n, off + n ≤ 25 → range p.value off n = .ok ((p.value.drop off).take n) := by
      intro off n h
      simp only [range, hl, if_pos h]
    simp only [ofProperty, if_neg h', kDimension, unpackPosition, r 0 4 (by norm_num),
      r 4 1 (by norm_num), r (4 + 1) 4 (by norm_num), r (4 + 1 + 4) 4 (by norm_num),
      r (4 + 1 + 4 + 4) 4 (by norm_num), r (4 + 1 + 4 + 4 + 4) 4 (by norm_num),
      r (4 + 1 + 4 + 4 + 4 + 4) 4 (by norm_num)]
    exact ⟨_, rfl⟩
  refine ⟨hthrow, hok, ?_⟩
  by_cases h : p.type ≠ .kLocation ∨ p.value.length ≠ 25
  · rw [hthrow h]
    intro hc
    cases hc
  · have h2 : p.type = .kLocation ∧ p.value.length = 25 := by
      constructor
      · by_contra hc
        exact h (Or.inl hc)
      · by_contra hc
        exact h (Or.inr hc)
    obtain ⟨l, hl⟩ := hok h2
    rw [hl]
    intro hc
    cases hc

/-- C10 at a property with the wrong tag, one with 24 bytes and one with 25 bytes. -/
theorem ofProperty_validates_shape_witness :
    ((PropertyType.ksName ≠ .kLocation ∨ ([] : List Byte).length ≠ 25)
        ∧ ofProperty ⟨.ksName, []⟩
            = .error (.thrown "Location creation failed. Property is wrong."))
      ∧ ((PropertyType.kLocation ≠ .kLocation ∨ (List.replicate 24 0 : List Byte).length ≠ 25)
        ∧ ofProperty ⟨.kLocation, List.replicate 24 0⟩
            = .error (.thrown "Location creation failed. Property is wrong."))
      ∧ ((PropertyType.kLocation = .kLocation ∧ (List.replicate 25 7 : List Byte).length = 25)
        ∧ ∃ l, ofProperty ⟨.kLocation, List.replicate 25 7⟩ = .ok l) :=
  ⟨⟨by decide, (ofProperty_validates_shape ⟨.ksName, []⟩).1 (by decide)⟩,
    ⟨by decide, (ofProperty_validates_shape ⟨.kLocation, List.replicate 24 0⟩).1 (by decide)⟩,
    ⟨by decide, (ofProperty_validates_shape ⟨.kLocation, List.replicate 25 7⟩).2.1 (by decide)⟩⟩

end Game.Location

/-! ## The location flags, the packet constructor, the initial message, the UDP gate -/

namespace Game.Location

open Network Game.Property

theorem UnpackNotNulls_testBit (c : Byte) :
    UnpackNotNulls c = (c.testBit 1, c.testBit 0) := by
  have h1 := Nat.and_two_pow c 1
  have h0 := Nat.and_two_pow c 0
  simp only [pow_one, pow_zero, Nat.mul_one] at h1 h0
  simp only [UnpackNotNulls, h1, h0]
  cases c.testBit 1 <;> cases c.testBit 0 <;> rfl

/-- C11 (amended): `Location(Property)` does not look at the reserved bits of
the flags byte: it accepts every 25-byte `kLocation` payload, and the
location it returns has `has_world_space` equal to bit 1 and `has_cell`
equal to bit 0 of the byte at offset 4, whatever bits 2 to 7 hold. -/
theorem ofProperty_ignores_reserved_bits (p : Property) (ht : p.type = .kLocation)
    (hl : p.value.length = 25) :
    ∃ l, ofProperty p = .ok l ∧ l.has_world_space_ = (p.value.getD 4 0).testBit 1
      ∧ l.has_cell_ = (p.value.getD 4 0).testBit 0 := by
  have h' : ¬ (p.type ≠ .kLocation ∨ p.value.length ≠ kLocationTypeSize) := by
    rintro (h | h)
    · exact h ht
    · exact h hl
  have r : ∀ off n, off + n ≤ 25 → range p.value off n = .ok ((p.value.drop off).take n) := by
    intro off n h
    simp only [range, hl, if_pos h]
  have hflag : ((p.value.drop 4).take 1).headD 0 = p.value.getD 4 0 := by
    obtain ⟨_, v⟩ := p
    simp only at hl
    match v, hl with
    | [_, _, _, _, b4, _, _, _, _, _, _, _, _, _, _, _, _, _, _, _, _, _, _, _, _], _ => rfl
  simp only [ofProperty, if_neg h', kDimension, unpackPosition, r 0 4 (by norm_num),
    r 4 1 (by norm_num), r (4 + 1) 4 (by norm_num), r (4 + 1 + 4) 4 (by norm_num),
    r (4 + 1 + 4 + 4) 4 (by norm_num), r (4 + 1 + 4 + 4 + 4) 4 (by norm_num),
    r (4 + 1 + 4 + 4 + 4 + 4) 4 (by norm_num), hflag, UnpackNotNulls_testBit]
  exact ⟨_, rfl, rfl, rfl⟩

/-- C11 (amended) at the payload of 25 bytes `0xFF`. -/
theorem ofProperty_ignores_reserved_bits_witness :
    PropertyType.kLocation = .kLocation ∧ (List.replicate 25 255 : List Byte).length = 25
      ∧ ∃ l, ofProperty ⟨.kLocation, List.replicate 25 255⟩ = .ok l
          ∧ l.has_world_space_ = ((List.replicate 25 255 : List Byte).getD 4 0).testBit 1
          ∧ l.has_cell_ = ((List.replicate 25 255 : List Byte).getD 4 0).testBit 0 :=
  ⟨rfl, rfl, ofProperty_ignores_reserved_bits ⟨.kLocation, List.replicate 25 255⟩ rfl rfl⟩

/-- C11 (counterexample): the 25-byte payload that is zero except for the
flags byte `0xFC`, all six reserved bits set, is accepted; the decoder
returns the location with neither flag set. -/
theorem ofProperty_accepts_reserved_bits :
    ofProperty ⟨.kLocation, [0, 0, 0, 0, 0xFC, 0, 0, 0, 0, 0, 0, 0, 0, 0, 0, 0, 0, 0, 0, 0, 0,
        0, 0, 0, 0]⟩
      = .ok ⟨false, false, 0, 0, 0, [F32.zero, F32.zero, F32.zero]⟩ := by
  decide

end Game.Location

namespace Network.Packet

/-- C13 (failing input): for the packet `{kProperties, client 0, payload "A"}`
the constructor `Packet(p.Packed())` throws "Initializer code did not
match.", because `Packed()` starts with the size bytes and not the magic;
and built from the bytes in the order the constructor expects (magic first)
it returns the type and the client but an empty payload, the bytes it
copied into its local vector being dropped. -/
theorem ofPacked_of_Packed_throws_and_drops_payload :
    Packet.ofPacked (Packet.Packed ⟨.kProperties, 0, [65]⟩)
        = .error (.thrown "Initializer code did not match.")
      ∧ Packet.ofPacked (wireLayout ⟨.kProperties, 0, [65]⟩) = .ok ⟨.kProperties, 0, []⟩ := by
  decide

end Network.Packet

namespace Network

/-- C20 (failing input): for the rejection message `InitialMessage{0, 0}` of
a full server `ConnectionAccepted()` is true, although the client link's own
test reports "Server is full." for it; `ConnectionAccepted` compares with
`<=`, so it also accepts every message with `client_slot == max_clients`. -/
theorem ConnectionAccepted_on_rejection_message :
    InitialMessage.ConnectionAccepted ⟨0, 0⟩ = true
      ∧ InitialMessage.serverIsFull ⟨0, 0⟩ = true
      ∧ ∀ m : InitialMessage, m.ConnectionAccepted = true ↔ m.client_slot_ ≤ m.max_clients_ := by
  refine ⟨by decide, by decide, ?_⟩
  intro m
  simp [InitialMessage.ConnectionAccepted]

theorem milliseconds_eq (n : Nat) : milliseconds n = (n : Int) * 1000000 := rfl

/-- C18: the UDP send gate.  A send at clock reading `now` on a UDP socket
whose stored timestamp is `last` writes the data out when
`now - last >= 35 ms` and otherwise writes nothing, and in both cases the
stored timestamp becomes the clock reading; a send on a TCP socket always
writes the data out and leaves the timestamp alone. -/
theorem Send_gate (s : SendSocket) (data : List Byte) (now : Int) :
    (s.is_tcp = false →
        (Send s data now now).wire
            = (if milliseconds 35 ≤ now - s.time_last_sent_ then (s.sendAll data).wire
                else s.wire)
          ∧ (Send s data now now).time_last_sent_ = now)
      ∧ (s.is_tcp = true →
          (Send s data now now).wire = (s.sendAll data).wire
            ∧ (Send s data now now).time_last_sent_ = s.time_last_sent_)
      ∧ (data ≠ [] → (s.sendAll data).wire = s.wire ++ [data]) := by
  have hw : ∀ (x : SendSocket), (x.sendAll data).wire
      = if data.length > 0 then x.wire ++ [data] else x.wire := by
    intro x
    unfold SendSocket.sendAll
    split <;> rfl
  have ht : ∀ (x : SendSocket), (x.sendAll data).time_last_sent_ = x.time_last_sent_ := by
    intro x
    unfold SendSocket.sendAll
    split <;> rfl
  refine ⟨?_, ?_, ?_⟩
  · intro h
    have hf : ¬ (s.is_tcp = true) := by simp [h]
    by_cases hg : milliseconds 35 ≤ now - s.time_last_sent_
    · have hg' : s.time_last_sent_ + milliseconds kAntiCongestion ≤ now := by
        simp only [milliseconds_eq, kAntiCongestion] at hg ⊢
        omega
      simp only [Send, if_neg hf, SendSocket.ReadyToSend, decide_eq_true hg', if_pos hg, hw, ht]
      exact ⟨trivial, trivial⟩
    · have hg' : ¬ (s.time_last_sent_ + milliseconds kAntiCongestion ≤ now) := by
        simp only [milliseconds_eq, kAntiCongestion] at hg ⊢
        omega
      simp only [Send, if_neg hf, SendSocket.ReadyToSend, decide_eq_false hg', if_neg hg]
      exact ⟨trivial, trivial⟩
  · intro h
    simp only [Send, if_pos h, ht]
    exact ⟨trivial, trivial⟩
  · intro h
    have : data.length > 0 := List.length_pos.mpr h
    rw [hw, if_pos this]

/-- C18 at a UDP socket last used at 0 ms sending at 40 ms, and a TCP
socket. -/
theorem Send_gate_witness :
    ((⟨false, 0, []⟩ : SendSocket).is_tcp = false
        ∧ (Send ⟨false, 0, []⟩ [1] (milliseconds 40) (milliseconds 40)).wire = [[1]]
        ∧ (Send ⟨false, 0, []⟩ [1] (milliseconds 40) (milliseconds 40)).time_last_sent_
            = milliseconds 40)
      ∧ ((⟨true, 0, []⟩ : SendSocket).is_tcp = true
        ∧ (Send ⟨true, 0, []⟩ [1] (milliseconds 10) (milliseconds 10)).wire = [[1]]
        ∧ (Send ⟨true, 0, []⟩ [1] (milliseconds 10) (milliseconds 10)).time_last_sent_ = 0) :=
  ⟨⟨rfl, (Send_gate ⟨false, 0, []⟩ [1] (milliseconds 40)).1 rfl⟩,
    ⟨rfl, (Send_gate ⟨true, 0, []⟩ [1] (milliseconds 10)).2.1 rfl⟩⟩

/-- C19 (amended): on a UDP socket whose stored timestamp is at least 35 ms
older than `t`, two consecutive sends at `t` and `t + 10 ms` put only the
first on the wire, and two consecutive sends at `t` and `t + 40 ms` put both
on the wire. -/
theorem Send_twice (s : SendSocket) (d1 d2 : List Byte) (t : Int) (hu : s.is_tcp = false)
    (ht : milliseconds 35 ≤ t - s.time_last_sent_) (h1 : d1 ≠ []) (h2 : d2 ≠ []) :
    (Send (Send s d1 t t) d2 (t + milliseconds 10) (t + milliseconds 10)).wire = s.wire ++ [d1]
      ∧ (Send (Send s d1 t t) d2 (t + milliseconds 40) (t + milliseconds 40)).wire
          = s.wire ++ [d1, d2] := by
  have l1 : d1.length > 0 := List.length_pos.mpr h1
  have l2 : d2.length > 0 := List.length_pos.mpr h2
  have hg : s.time_last_sent_ + milliseconds kAntiCongestion ≤ t := by
    simp only [milliseconds_eq, kAntiCongestion] at ht ⊢
    omega
  have hs : Send s d1 t t = ⟨false, t, s.wire ++ [d1]⟩ := by
    simp [Send, hu, SendSocket.ReadyToSend, hg, SendSocket.sendAll, l1]
  have g10 : ¬ (t + milliseconds kAntiCongestion ≤ t + milliseconds 10) := by
    simp only [kAntiCongestion, milliseconds_eq]
    omega
  have g40 : t + milliseconds kAntiCongestion ≤ t + milliseconds 40 := by
    simp only [kAntiCongestion, milliseconds_eq]
    omega
  rw [hs]
  constructor
  · simp [Send, SendSocket.ReadyToSend, g10]
  · simp [Send, SendSocket.ReadyToSend, g40, SendSocket.sendAll, l2]

/-- C19 (amended) at a socket last used at 0 ms, `t` = 100 ms. -/
theorem Send_twice_witness :
    (⟨false, 0, []⟩ : SendSocket).is_tcp = false
      ∧ milliseconds 35 ≤ milliseconds 100 - (⟨false, 0, []⟩ : SendSocket).time_last_sent_
      ∧ ([1] : List Byte) ≠ [] ∧ ([2] : List Byte) ≠ []
      ∧ (Send (Send ⟨false, 0, []⟩ [1] (milliseconds 100) (milliseconds 100)) [2]
            (milliseconds 100 + milliseconds 10) (milliseconds 100 + milliseconds 10)).wire
          = [] ++ [[1]]
      ∧ (Send (Send ⟨false, 0, []⟩ [1] (milliseconds 100) (milliseconds 100)) [2]
            (milliseconds 100 + milliseconds 40) (milliseconds 100 + milliseconds 40)).wire
          = [] ++ [[1], [2]] :=
  ⟨rfl, by decide, by decide, by decide,
    Send_twice ⟨false, 0, []⟩ [1] [2] (milliseconds 100) rfl (by decide) (by decide)
      (by decide)⟩

/-- C19 (counterexample): on a UDP socket whose stored timestamp is 0 ms (it
was created, or last tried to send, at that instant), sends at `t` = 10 ms
and `t + 10 ms` put nothing on the wire, and sends at 10 ms and
`t + 40 ms` put only the second on the wire. -/
theorem Send_twice_first_dropped :
    (Send (Send ⟨false, 0, []⟩ [1] (milliseconds 10) (milliseconds 10)) [2]
        (milliseconds 10 + milliseconds 10) (milliseconds 10 + milliseconds 10)).wire = []
      ∧ (Send (Send ⟨false, 0, []⟩ [1] (milliseconds 10) (milliseconds 10)) [2]
          (milliseconds 10 + milliseconds 40) (milliseconds 10 + milliseconds 40)).wire
        = [[2]] := by
  decide

end Network

/-! ## Receiving from a stream: the staging buffer as a queue of bytes -/

namespace Data.Buffer

open Network (Byte)

theorem mod_ne_of_lt_of_lt (a b N : Nat) (h1 : a < b) (h2 : b < a + N) : a % N ≠ b % N := by
  intro h
  have hd : N ∣ b - a := (Nat.modEq_iff_dvd' (le_of_lt h1)).mp h
  have : N ≤ b - a := Nat.le_of_dvd (by omega) hd
  omega

theorem readFrom_length (buf : List Byte) (pos k : Nat) :
    (Circular.readFrom buf pos k).length = k := by
  induction k generalizing pos with
  | zero => rfl
  | succ k ih => simp [Circular.readFrom, ih]

theorem readFrom_add (buf : List Byte) (pos m k : Nat) :
    Circular.readFrom buf pos (m + k)
      = Circular.readFrom buf pos m ++ Circular.readFrom buf (pos + m) k := by
  induction m generalizing pos with
  | zero => simp [Circular.readFrom]
  | succ m ih =>
    have e : m + 1 + k = (m + k) + 1 := by omega
    rw [e, Circular.readFrom, Circular.readFrom, ih (pos + 1)]
    have e2 : pos + 1 + m = pos + (m + 1) := by omega
    rw [e2]
    rfl

theorem readFrom_congr (buf buf1 : List Byte) (hl : buf1.length = buf.length) (pos k : Nat)
    (h : ∀ j, pos ≤ j → j < pos + k → buf1.getD (j % buf.length) 0 = buf.getD (j % buf.length) 0) :
    Circular.readFrom buf1 pos k = Circular.readFrom buf pos k := by
  induction k generalizing pos with
  | zero => rfl
  | succ k ih =>
    rw [Circular.readFrom, Circular.readFrom, hl, h pos (le_refl _) (by omega),
      ih (pos + 1) (fun j h1 h2 => h j (by omega) (by omega))]

theorem getD_set_ne {α : Type} (l : List α) (i j : Nat) (a d : α) (h : i ≠ j) :
    (l.set i a).getD j d = l.getD j d := by
  simp [List.getD_eq_getElem?_getD, List.getElem?_set_ne h]

theorem getD_set_eq {α : Type} (l : List α) (i : Nat) (a d : α) (h : i < l.length) :
    (l.set i a).getD i d = a := by
  simp [List.getD_eq_getElem?_getD, List.getElem?_set_self, h]

/-- The loop of `Push`, while the ring has room: the bytes land behind the
unread ones, which stay as they are. -/
theorem PushLoop_spec (start N : Nat) (hN : 0 < N) :
    ∀ (carray : List Byte) (idx : Nat) (buf : List Byte), buf.length = N → start < idx →
      idx + carray.length ≤ start + N →
      ∃ buf1, Circular.PushLoop start idx carray buf = .ok buf1 ∧ buf1.length = N
        ∧ (∀ j, start < j → j < idx → buf1.getD (j % N) 0 = buf.getD (j % N) 0)
        ∧ Circular.readFrom buf1 idx carray.length = carray := by
  intro carray
  induction carray with
  | nil =>
    intro idx buf hl _ _
    exact ⟨buf, rfl, hl, fun _ _ _ => rfl, rfl⟩
  | cons b rest ih =>
    intro idx buf hl h1 h2
    simp only [List.length_cons] at h2
    have hne : ¬ (idx % buf.length = start) := by
      rw [hl]
      intro h
      by_cases hs : start < N
      · have := mod_ne_of_lt_of_lt start idx N h1 (by omega)
        rw [Nat.mod_eq_of_lt hs] at this
        exact this h.symm
      · have := Nat.mod_lt idx hN
        omega
    obtain ⟨buf1, e1, l1, u1, r1⟩ := ih (idx + 1) (buf.set (idx % buf.length) b)
      (by simp [hl]) (by omega) (by omega)
    refine ⟨buf1, ?_, l1, ?_, ?_⟩
    · rw [Circular.PushLoop]
      simp only [if_neg hne]
      exact e1
    · intro j hj1 hj2
      rw [u1 j hj1 (by omega), hl]
      exact getD_set_ne _ _ _ _ _ (mod_ne_of_lt_of_lt j idx N hj2 (by omega)).symm
    · simp only [List.length_cons, Circular.readFrom, l1]
      rw [r1, u1 idx h1 (by omega), hl, getD_set_eq _ _ _ _ (by rw [hl]; exact Nat.mod_lt _ hN)]

theorem Length_eq (c : Circular) (h : c.Consistent) : c.Length = c.end_ - c.start_ - 1 := by
  obtain ⟨h1, h2, h3⟩ := h
  have h4 : ¬ (c.start_ > c.end_) := by omega
  simp only [Circular.Length, if_neg h4]
  omega

theorem unread_length (c : Circular) : c.unread.length = c.end_ - c.start_ - 1 :=
  readFrom_length _ _ _

/-- `Push` while the ring has room appends to the unread bytes. -/
theorem Circular_Push_spec (c : Circular) (carray : List Byte) (hc : c.Consistent)
    (hN : 0 < c.buffer_.length)
    (hroom : c.end_ - c.start_ + carray.length ≤ c.buffer_.length)
    (hmax : c.end_ + carray.length < 2 ^ 32) :
    ∃ c1, c.Push carray = .ok c1 ∧ c1.Consistent ∧ c1.buffer_.length = c.buffer_.length
      ∧ c1.start_ = c.start_ ∧ c1.unread = c.unread ++ carray := by
  obtain ⟨h1, h2, h3⟩ := hc
  obtain ⟨buf1, e1, l1, u1, r1⟩ := PushLoop_spec c.start_ c.buffer_.length hN carray c.end_
    c.buffer_ rfl h1 (by omega)
  refine ⟨{ c with buffer_ := buf1, end_ := c.end_ + carray.length }, ?_, ?_, l1, rfl, ?_⟩
  · simp only [Circular.Push, e1]
  · exact ⟨by simp only; omega, by simp only; omega, hmax⟩
  · simp only [Circular.unread]
    have e : c.end_ + carray.length - c.start_ - 1 = (c.end_ - c.start_ - 1) + carray.length := by
      omega
    rw [e, readFrom_add]
    have e2 : c.start_ + 1 + (c.end_ - c.start_ - 1) = c.end_ := by omega
    rw [e2, r1]
    congr 1
    exact readFrom_congr c.buffer_ buf1 l1 _ _ (fun j hj1 hj2 => u1 j (by omega) (by omega))

/-- The loop of `Pop` on unread bytes. -/
theorem PopLoop_spec (c : Circular) (hc : c.Consistent) (hN : 0 < c.buffer_.length) :
    ∀ (k i : Nat), i + k ≤ c.end_ - c.start_ - 1 →
      Circular.PopLoop c k i = .ok (Circular.readFrom c.buffer_ (c.start_ + i + 1) k) := by
  obtain ⟨h1, h2, h3⟩ := hc
  intro k
  induction k with
  | zero => intro i _; rfl
  | succ k ih =>
    intro i hi
    have hne : ¬ ((c.start_ + i + 1) % c.buffer_.length = c.end_) := by
      intro h
      have hlt := Nat.mod_lt (c.start_ + i + 1) hN
      have : c.start_ + i + 1 < c.buffer_.length := by omega
      rw [Nat.mod_eq_of_lt this] at h
      omega
    rw [Circular.PopLoop]
    simp only [if_neg hne, ih (i + 1) (by omega), Circular.readFrom]
    rw [show c.start_ + (i + 1) + 1 = c.start_ + i + 1 + 1 from by omega]

/-- `Pop(n)` of at most the unread bytes takes them from the front. -/
theorem Circular_Pop_spec (c : Circular) (n : Nat) (hc : c.Consistent)
    (hN : 0 < c.buffer_.length)
    (hn : n ≤ c.end_ - c.start_ - 1) :
    ∃ c1, c.Pop n = .ok (c.unread.take n, c1) ∧ c1.Consistent
      ∧ c1.buffer_.length = c.buffer_.length ∧ c1.start_ = c.start_ + n
      ∧ c1.unread = c.unread.drop n := by
  have hp := PopLoop_spec c hc hN n 0 (by omega)
  obtain ⟨h1, h2, h3⟩ := hc
  have hsplit : c.unread = Circular.readFrom c.buffer_ (c.start_ + 1) n
      ++ Circular.readFrom c.buffer_ (c.start_ + 1 + n) (c.end_ - c.start_ - 1 - n) := by
    rw [← readFrom_add, Circular.unread]
    congr 1
    omega
  refine ⟨{ c with start_ := c.start_ + n }, ?_, ?_, rfl, rfl, ?_⟩
  · simp only [Circular.Pop, hp]
    rw [hsplit, List.take_left' (readFrom_length _ _ _)]
  · exact ⟨by simp only; omega, by simp only; omega, h3⟩
  · rw [hsplit, List.drop_left' (readFrom_length _ _ _)]
    simp only [Circular.unread]
    congr 1 <;> omega

end Data.Buffer

namespace Network

open Data.Buffer

theorem ReceiveLoop_enough (n : Nat) (network : List RecvEvent) (buf : Circular)
    (h : ¬ buf.Length < n) : ReceiveLoop n network buf = .ok (true, buf, network) := by
  cases network with
  | nil => simp only [ReceiveLoop, if_neg h]
  | cons ev rest => simp only [ReceiveLoop, if_neg h]

/-- The loop of `Network::Receive` on a connection that delivers enough
bytes: it stops with at least `n` unread bytes in the buffer, and the bytes
to come are the same, in the same order. -/
theorem ReceiveLoop_spec (n : Nat) (rest : List RecvEvent) (hn : n ≤ kBufferSize) :
    ∀ (chunks : List (List Byte)) (buf : Circular), buf.Consistent →
      buf.buffer_.length = kBufferSize * 2 →
      (∀ c ∈ chunks, 0 < c.length ∧ c.length ≤ kBufferSize) →
      n ≤ buf.unread.length + chunks.flatten.length → buf.start_ + 4096 ≤ 2 ^ 32 →
      ∃ (buf1 : Circular) (chunks1 : List (List Byte)),
        ReceiveLoop n (chunks.map RecvEvent.data ++ rest) buf
            = .ok (true, buf1, chunks1.map RecvEvent.data ++ rest)
          ∧ buf1.Consistent ∧ buf1.buffer_.length = kBufferSize * 2
          ∧ buf1.start_ = buf.start_
          ∧ buf1.unread ++ chunks1.flatten = buf.unread ++ chunks.flatten
          ∧ n ≤ buf1.unread.length
          ∧ (∀ c ∈ chunks1, 0 < c.length ∧ c.length ≤ kBufferSize) := by
  intro chunks
  induction chunks with
  | nil =>
    intro buf hc hl _ hlen _
    have hL := Length_eq buf hc
    have hu := unread_length buf
    simp only [List.flatten_nil, List.length_nil, Nat.add_zero] at hlen
    refine ⟨buf, [], ?_, hc, hl, rfl, rfl, hlen, by simp⟩
    exact ReceiveLoop_enough n _ buf (by omega)
  | cons c cs ih =>
    intro buf hc hl hsz hlen hmax
    have hL := Length_eq buf hc
    have hu := unread_length buf
    by_cases hlt : buf.Length < n
    · obtain ⟨hc0, hc1⟩ := hsz c (List.mem_cons_self _ _)
      simp only [kBufferSize] at hn hl hc1
      have hcon := hc
      obtain ⟨h1, h2, h3⟩ := hcon
      obtain ⟨b1, e1, k1, l1, s1, u1⟩ :=
        Circular_Push_spec buf c hc (by omega) (by omega) (by omega)
      obtain ⟨buf1, chunks1, e2, k2, l2, s2, u2, n2, z2⟩ := ih b1 k1 (by rw [l1, hl]; rfl)
        (fun x hx => hsz x (List.mem_cons_of_mem _ hx))
        (by
          rw [u1, List.length_append]
          simp only [List.flatten_cons, List.length_append] at hlen
          omega)
        (by omega)
      refine ⟨buf1, chunks1, ?_, k2, l2, by rw [s2, s1], ?_, n2, z2⟩
      · simp only [List.map_cons, List.cons_append, ReceiveLoop, if_pos hlt]
        have hne : ¬ (c.length = 0) := by omega
        simp only [if_neg hne, e1]
        exact e2
      · rw [u2, u1]
        simp
    · refine ⟨buf, c :: cs, ReceiveLoop_enough n _ buf hlt, hc, hl, rfl, rfl, by omega, hsz⟩

/-- `Network::Receive(socket, n)` on a socket that delivers `stream`, for
`n` within the stream and at most `kBufferSize`: the first `n` bytes of the
stream come back and the socket delivers the rest. -/
theorem Receive_spec (s : Socket) (stream : List Byte) (n : Nat) (h : s.Delivers stream)
    (hn : n ≤ kBufferSize) (hl : n ≤ stream.length) :
    ∃ s1, Receive s n = .ok (stream.take n, s1) ∧ s1.Delivers (stream.drop n)
      ∧ s1.valid = s.valid := by
  obtain ⟨hc, hb, hmax, chunks, rest, hnet, hsz, hpre⟩ := h
  have hlen : stream.length ≤ (s.recieved_data_.unread ++ chunks.flatten).length :=
    hpre.length_le
  rw [List.length_append] at hlen
  obtain ⟨buf1, chunks1, e1, k1, l1, s1, u1, n1, z1⟩ := ReceiveLoop_spec n rest hn chunks
    s.recieved_data_ hc hb hsz (by omega) (by omega)
  have hu := unread_length buf1
  obtain ⟨buf2, e2, k2, l2, s2, u2⟩ :=
    Circular_Pop_spec buf1 n k1 (by rw [l1]; decide) (by omega)
  have hpre1 : stream <+: buf1.unread ++ chunks1.flatten := by rw [u1]; exact hpre
  refine ⟨{ s with recieved_data_ := buf2, network := chunks1.map RecvEvent.data ++ rest },
    ?_, ⟨k2, by rw [l2, l1], ?_, chunks1, rest, rfl, z1, ?_⟩, rfl⟩
  · simp only [Receive, hnet, e1, e2]
    congr 2
    obtain ⟨t, ht⟩ := hpre1
    have e3 : buf1.unread.take n = (buf1.unread ++ chunks1.flatten).take n :=
      (List.take_append_of_le_length n1).symm
    rw [e3, ← ht, List.take_append_of_le_length hl]
  · simp only [List.length_drop]
    rw [s2, s1]
    omega
  · simp only
    rw [u2]
    obtain ⟨t, ht⟩ := hpre1
    have e3 : buf1.unread.drop n ++ chunks1.flatten
        = (buf1.unread ++ chunks1.flatten).drop n :=
      (List.drop_append_of_le_length n1).symm
    rw [e3, ← ht, List.drop_append_of_le_length hl]
    exact List.prefix_append _ _

/-- A fresh socket delivers what the connection brings. -/
theorem connected_Delivers (chunks : List (List Byte)) (rest : List RecvEvent)
    (stream : List Byte) (hsz : ∀ c ∈ chunks, 0 < c.length ∧ c.length ≤ kBufferSize)
    (hpre : stream <+: chunks.flatten) (hlen : stream.length ≤ 2 ^ 31) :
    (Socket.connected (chunks.map RecvEvent.data ++ rest)).Delivers stream := by
  refine ⟨⟨?_, ?_, ?_⟩, ?_, ?_, chunks, rest, rfl, hsz, ?_⟩
  · show (0 : Nat) < 1
    decide
  · show 1 - 0 ≤ (List.replicate (kBufferSize * 2) (0 : Byte)).length
    rw [List.length_replicate]
    decide
  · show (1 : Nat) < 2 ^ 32
    decide
  · show (List.replicate (kBufferSize * 2) (0 : Byte)).length = kBufferSize * 2
    rw [List.length_replicate]
  · show 0 + stream.length + 4096 ≤ 2 ^ 32
    omega
  · show stream <+: Circular.readFrom _ (0 + 1) (1 - 0 - 1) ++ chunks.flatten
    simpa [Circular.readFrom] using hpre

end Network

namespace Network

/-- The loop of `ReceiveUntil` on a socket that delivers the rest of the
code: every byte matches, and the socket delivers what follows the code. -/
theorem ReceiveUntilLoop_match (code : List Byte) :
    ∀ (k i fuel : Nat) (s : Socket) (stream : List Byte), i + k = code.length → k < fuel →
      s.valid = true → s.Delivers (code.drop i ++ stream) →
      ∃ s1, ReceiveUntilLoop code fuel s i = .ok (true, s1) ∧ s1.Delivers stream
        ∧ s1.valid = true := by
  intro k
  induction k with
  | zero =>
    intro i fuel s stream hi hf hv hd
    obtain ⟨f, rfl⟩ : ∃ f, fuel = f + 1 := ⟨fuel - 1, by omega⟩
    have hlt : ¬ (i < code.length) := by omega
    refine ⟨s, ?_, ?_, hv⟩
    · simp [ReceiveUntilLoop, hlt]
    · rw [List.drop_eq_nil_of_le (by omega)] at hd
      exact hd
  | succ k ih =>
    intro i fuel s stream hi hf hv hd
    obtain ⟨f, rfl⟩ : ∃ f, fuel = f + 1 := ⟨fuel - 1, by omega⟩
    have hlt : i < code.length := by omega
    rw [List.drop_eq_getElem_cons hlt, List.cons_append] at hd
    obtain ⟨s1, e1, d1, v1⟩ := Receive_spec s _ 1 hd (by decide) (by simp)
    simp only [List.take_succ_cons, List.take_zero, List.drop_succ_cons, List.drop_zero] at e1 d1
    obtain ⟨s2, e2, d2, v2⟩ := ih (i + 1) f s1 stream (by omega) (by omega) (by rw [v1, hv]) d1
    refine ⟨s2, ?_, d2, v2⟩
    rw [ReceiveUntilLoop]
    simp only [hlt, hv, decide_True, Bool.and_self, if_true, e1, List.isEmpty_cons,
      List.headD_cons, Bool.false_eq_true, if_false]
    have hg : code[i] = code.getD i 0 := by
      simp [List.getD_eq_getElem?_getD, List.getElem?_eq_getElem hlt]
    simp only [hg, if_true]
    exact e2

end Network

namespace Network.Packet

/-- The frame of a packet as `Receive` reads it: the two bytes of
`kUniqueCode`, the size in four bytes, the type byte, the client byte, the
data. -/
theorem Receive_frame (fuel : Nat) (s : Socket) (type client : Byte)
    (data stream : List Byte) (hfuel : 3 ≤ fuel) (hv : s.valid = true)
    (h1 : 0 < data.length) (h2 : data.length ≤ kBufferSize)
    (hd : s.Delivers
      (Pack_uint16 kUniqueCode ++ (Pack_uint32 data.length ++ [type, client] ++ (data ++ stream)))) :
    ∃ s1, Receive fuel s
        = .ok ({ type := UnpackType type, client := Unpack_uint8 client, data := data }, s1)
      ∧ s1.Delivers stream ∧ s1.valid = true := by
  have hcode : (Pack_uint16 kUniqueCode).length = 2 := by decide
  obtain ⟨s1, e1, d1, v1⟩ := ReceiveUntilLoop_match (Pack_uint16 kUniqueCode) 2 0 fuel s _
    (by rw [hcode]) (by omega) hv (by rw [List.drop_zero]; exact hd)
  have hsz : (Pack_uint32 data.length).length = 4 := by
    rw [Pack_uint32_eq]
    rfl
  have hlen6 : (Pack_uint32 data.length ++ [type, client]).length = kHeaderSize := by
    rw [List.length_append, hsz]
    rfl
  obtain ⟨s2, e2, d2, v2⟩ := Receive_spec s1 _ kHeaderSize d1 (by decide)
    (by rw [List.length_append, hlen6]; omega)
  rw [List.take_left' hlen6] at e2
  rw [List.drop_left' hlen6] at d2
  obtain ⟨s3, e3, d3, v3⟩ := Receive_spec s2 _ data.length d2 h2 (by simp)
  rw [List.take_left' rfl] at e3
  rw [List.drop_left' rfl] at d3
  have hlt : data.length < 2 ^ 32 := by
    simp only [kBufferSize] at h2
    omega
  have hsize : Unpack_uint32 (Pack_uint32 data.length) = data.length := by
    rw [Pack_uint32_eq, Unpack_uint32_bigEndian32, Nat.mod_eq_of_lt hlt]
  have hne : data.isEmpty = false := by
    cases data with
    | nil => simp at h1
    | cons a t => rfl
  refine ⟨s3, ?_, d3, by rw [v3, v2, v1]⟩
  have hu : ReceiveUntil fuel s (Pack_uint16 kUniqueCode) = .ok (true, s1) := e1
  have hh : (Pack_uint32 data.length ++ [type, client]).isEmpty = false := by
    rw [Pack_uint32_eq]
    rfl
  have hl1 : (Pack_uint32 data.length ++ [type, client]).getLastD 0 = client := by
    rw [Pack_uint32_eq]
    rfl
  have hl2 : (Pack_uint32 data.length ++ [type, client]).dropLast
      = Pack_uint32 data.length ++ [type] := by
    rw [Pack_uint32_eq]
    rfl
  have hl3 : (Pack_uint32 data.length ++ [type]).getLastD 0 = type := by
    rw [Pack_uint32_eq]
    rfl
  have hl4 : (Pack_uint32 data.length ++ [type]).dropLast = Pack_uint32 data.length := by
    rw [Pack_uint32_eq]
    rfl
  simp only [Receive, hu, e2, hh, hl1, hl2, hl3, hl4, hsize, e3, hne, Bool.false_eq_true,
    if_false]

end Network.Packet

namespace Network.Packet

/-- C12 (amended): on a valid socket that delivers a complete well-formed
packet (the magic, the four size bytes, the type byte, the client byte and
`data_size` payload bytes) with `1 ≤ data_size ≤ kBufferSize` and a type byte
that does not decode to `SocketDisconnect`, whatever the `recv` calls cut the
bytes into, and while the counters of the buffer of the socket stay below
`2 ^ 32`, `Packet::Receive` returns the packet of that type, client and
payload, which is not the `SocketDisconnect` packet, and the socket goes on to
deliver what follows the packet. -/
theorem Receive_returns_wellformed_packet (fuel : Nat) (s : Socket) (type client : Byte)
    (data stream : List Byte) (hfuel : 3 ≤ fuel) (hv : s.valid = true)
    (h1 : 1 ≤ data.length) (h2 : data.length ≤ kBufferSize)
    (ht : UnpackType type ≠ .kSocketDisconnect)
    (hd : s.Delivers
      (Pack_uint16 kUniqueCode ++ Pack_uint32 data.length ++ [type, client] ++ data ++ stream)) :
    ∃ p s1, Receive fuel s = .ok (p, s1)
      ∧ p = { type := UnpackType type, client := Unpack_uint8 client, data := data }
      ∧ p.type ≠ .kSocketDisconnect ∧ s1.Delivers stream ∧ s1.valid = true := by
  have hd1 : s.Delivers (Pack_uint16 kUniqueCode
      ++ (Pack_uint32 data.length ++ [type, client] ++ (data ++ stream))) := by
    simpa only [List.append_assoc] using hd
  obtain ⟨s1, e1, d1, v1⟩ := Receive_frame fuel s type client data stream hfuel hv h1 h2 hd1
  exact ⟨_, s1, e1, rfl, ht, d1, v1⟩

theorem Receive_returns_wellformed_packet_witness :
    3 ≤ 3 ∧ (Socket.connected [.data [0x64, 0x37, 0, 0, 0, 1, 5, 1, 0x30]]).valid = true
      ∧ 1 ≤ [(0x30 : Byte)].length ∧ [(0x30 : Byte)].length ≤ kBufferSize
      ∧ UnpackType 5 ≠ .kSocketDisconnect
      ∧ (Socket.connected [.data [0x64, 0x37, 0, 0, 0, 1, 5, 1, 0x30]]).Delivers
          (Pack_uint16 kUniqueCode ++ Pack_uint32 [(0x30 : Byte)].length ++ [5, 1] ++ [0x30] ++ [])
      ∧ ∃ p s1, Receive 3 (Socket.connected [.data [0x64, 0x37, 0, 0, 0, 1, 5, 1, 0x30]])
            = .ok (p, s1)
          ∧ p = { type := UnpackType 5, client := Unpack_uint8 1, data := [0x30] }
          ∧ p.type ≠ .kSocketDisconnect ∧ s1.Delivers [] ∧ s1.valid = true :=
  ⟨by decide, rfl, by decide, by decide, by decide,
    connected_Delivers [[0x64, 0x37, 0, 0, 0, 1, 5, 1, 0x30]] [] _ (by decide) (by decide)
      (by decide),
    Receive_returns_wellformed_packet 3 _ 5 1 [0x30] [] (by decide) rfl (by decide) (by decide)
      (by decide)
      (connected_Delivers [[0x64, 0x37, 0, 0, 0, 1, 5, 1, 0x30]] [] _ (by decide) (by decide)
        (by decide))⟩

/-- C12 (counterexample): a complete well-formed `DataRequest` packet from
client 1 with `data_size` 0 (`64 37 00 00 00 00 05 01`) arrives on a fresh
socket in one read of eight bytes; no read returns zero bytes or fails.
`Receive` reads the header, gets the empty vector from `Receive(socket, 0)`
and returns the `SocketDisconnect` packet. -/
theorem Receive_empty_payload_reads_as_disconnect :
    UnpackType 5 = .kDataRequest
      ∧ (Receive 3 (Socket.connected [.data [0x64, 0x37, 0, 0, 0, 0, 5, 1]])).map Prod.fst
          = .ok disconnectPacket
      ∧ (Receive 3 (Socket.connected [.data [0x64, 0x37, 0, 0, 0, 0, 5, 1],
            .data [0x64, 0x37, 0, 0, 0, 1, 5, 1, 0x30]])).map Prod.fst
          = .ok disconnectPacket := by
  refine ⟨by decide, ?_, ?_⟩ <;> decide!

end Network.Packet

/-! ## The fixed queue: what it holds, and what `Push` and `Pop` do to it -/

namespace Data.Sharing

open Network (Byte)

theorem getD_set_eq_ite {α : Type} (l : List α) (i j : Nat) (a d : α) :
    (l.set i a).getD j d = if j = i ∧ i < l.length then a else l.getD j d := by
  by_cases h : j = i
  · subst h
    by_cases hl : j < l.length
    · simp [List.getD_eq_getElem?_getD, List.getElem?_set_self, hl]
    · have h1 : l.length ≤ j := not_lt.mp hl
      have h2 : (l.set j a).length ≤ j := by simpa using h1
      rw [List.getD_eq_getElem?_getD, List.getD_eq_getElem?_getD, List.getElem?_eq_none h1,
        List.getElem?_eq_none h2]
      simp [hl]
  · have h1 : i ≠ j := fun e => h e.symm
    simp [List.getD_eq_getElem?_getD, List.getElem?_set_ne h1, h]

theorem node_onNode (q : FixedQueue) (i j : Nat) (f : Node → Node) :
    (q.onNode i f).node j = if j = i ∧ i < q.data.length then f (q.node i) else q.node j := by
  simp only [FixedQueue.onNode, FixedQueue.node, getD_set_eq_ite]

theorem onNode_length (q : FixedQueue) (i : Nat) (f : Node → Node) :
    (q.onNode i f).data.length = q.data.length := by
  simp [FixedQueue.onNode]

theorem onNode_read_index (q : FixedQueue) (i : Nat) (f : Node → Node) :
    (q.onNode i f).read_index_ = q.read_index_ := rfl

theorem onNode_write_index (q : FixedQueue) (i : Nat) (f : Node → Node) :
    (q.onNode i f).write_index_ = q.write_index_ := rfl

/-- A fresh queue is well formed and holds nothing. -/
theorem create_spec (n : Nat) (hn : 0 < n) :
    ∃ q, FixedQueue.create n = .ok q ∧ q.WF ∧ q.data.length = n ∧ q.contents = []
      ∧ q.read_index_ = 0 ∧ q.write_index_ = 0 := by
  have hne : ¬ (n = 0) := by omega
  rw [FixedQueue.create, if_neg hne]
  refine ⟨_, rfl, ?_, ?_, ?_, rfl, rfl⟩
  · refine ⟨?_, ?_, ?_, ?_⟩
    · simp [onNode_length, onNode_read_index]; omega
    · simp [onNode_length, onNode_write_index]; omega
    · intro i hi
      simp only [onNode_length, List.length_replicate] at hi
      simp only [node_onNode, onNode_length, List.length_replicate, onNode_read_index]
      by_cases h0 : i = 0
      · simp [h0, hn, Node.MarkStart]
      · simp [h0, FixedQueue.node, List.getD_eq_getElem?_getD, hi]
    · intro i hi
      simp only [onNode_length, List.length_replicate] at hi
      simp only [node_onNode, onNode_length, List.length_replicate, onNode_write_index]
      by_cases h0 : i = 0
      · simp [h0, hn, Node.MarkStart, Node.MarkEnd]
      · simp [h0, FixedQueue.node, List.getD_eq_getElem?_getD, hi]
  · simp [onNode_length]
  · simp only [FixedQueue.contents, ringContents, ringSpan, onNode_read_index, onNode_write_index,
      node_onNode, onNode_length, List.length_replicate]
    simp [hn, Node.MarkStart, Node.MarkEnd, FixedQueue.node, List.getD_eq_getElem?_getD]

theorem ringSpan_lt (n r w : Nat) (hr : r < n) (hw : w < n) : ringSpan n r w < n := by
  unfold ringSpan
  split <;> omega

theorem ringAhead_span (n r w : Nat) (hr : r < n) (hw : w < n) :
    ringAhead n r (ringSpan n r w) = w := by
  unfold ringAhead ringSpan
  split <;> split <;> omega

theorem ringAhead_lt (n r k : Nat) (hr : r < n) (hk : k < n) : ringAhead n r k < n := by
  unfold ringAhead
  split <;> omega

theorem ringAhead_inj (n r j k : Nat) (_hr : r < n) (hj : j < n) (hk : k < n)
    (h : ringAhead n r j = ringAhead n r k) : j = k := by
  unfold ringAhead at h
  split at h <;> split at h <;> omega

theorem NextFrom_eq (q : FixedQueue) (i : Nat) (hi : i < q.data.length) :
    q.NextFrom i = ringAhead q.data.length i 1 := by
  unfold FixedQueue.NextFrom ringAhead
  split <;> split <;> omega

theorem ringSpan_next (n r w : Nat) (hr : r < n) (hw : w < n) (h : ringAhead n w 1 ≠ r) :
    ringSpan n r (ringAhead n w 1) = ringSpan n r w + 1 := by
  unfold ringAhead at h ⊢
  unfold ringSpan
  split_ifs at h ⊢ <;> omega

theorem ringSpan_full (n r w : Nat) (hr : r < n) (hw : w < n) (h : ringAhead n w 1 = r) :
    ringSpan n r w + 1 = n := by
  unfold ringAhead at h
  unfold ringSpan
  split at h <;> split <;> omega

theorem ringSpan_self (n r : Nat) : ringSpan n r r = 0 := by
  simp [ringSpan]

theorem ringSpan_pos (n r w : Nat) (hr : r < n) (_hw : w < n) (h : r ≠ w) :
    0 < ringSpan n r w := by
  unfold ringSpan
  split <;> omega

theorem ringSpan_pop (n r w : Nat) (hr : r < n) (hw : w < n) (h : r ≠ w) :
    ringSpan n r w = ringSpan n (ringAhead n r 1) w + 1 := by
  unfold ringAhead ringSpan
  split_ifs <;> omega

theorem ringAhead_pop (n r k : Nat) (hr : r < n) (hk : k + 1 < n) :
    ringAhead n (ringAhead n r 1) k = ringAhead n r (k + 1) := by
  unfold ringAhead
  split_ifs <;> omega

theorem ringAhead_zero (n r : Nat) (hr : r < n) : ringAhead n r 0 = r := by
  simp [ringAhead, hr]

theorem Push_stay (q : FixedQueue) (vec : List Byte)
    (h : ((q.node (q.NextFrom q.write_index_)).is_start_
      || (q.node q.write_index_).write_ready_) = true) :
    q.Push vec = q.onNode q.write_index_ (Node.Write · vec) := by
  simp only [FixedQueue.Push, FixedQueue.MoveEnd, h, if_true]

theorem Push_advance (q : FixedQueue) (vec : List Byte)
    (h : ((q.node (q.NextFrom q.write_index_)).is_start_
      || (q.node q.write_index_).write_ready_) = false)
    (hw : q.write_index_ < q.data.length) (hn : q.NextFrom q.write_index_ < q.data.length)
    (hne : q.NextFrom q.write_index_ ≠ q.write_index_) :
    (q.Push vec).read_index_ = q.read_index_
      ∧ (q.Push vec).write_index_ = q.NextFrom q.write_index_
      ∧ (q.Push vec).data.length = q.data.length
      ∧ ∀ j, (q.Push vec).node j
          = if j = q.NextFrom q.write_index_ then
              ((q.node (q.NextFrom q.write_index_)).MarkEnd true).Write vec
            else if j = q.write_index_ then (q.node q.write_index_).MarkEnd false
            else q.node j := by
  simp only [FixedQueue.Push, FixedQueue.MoveEnd, h, Bool.false_eq_true, if_false]
  refine ⟨rfl, rfl, by simp [FixedQueue.onNode], ?_⟩
  intro j
  simp only [FixedQueue.onNode, FixedQueue.node, getD_set_eq_ite, List.length_set]
  split_ifs <;> first | rfl | omega | simp_all

/-- The values of a ring depend on the nodes from `r` to `w` only. -/
theorem ringContents_congr (n r w : Nat) (f g : Nat → Node)
    (h1 : ∀ k, k < ringSpan n r w → (f (ringAhead n r k)).value_ = (g (ringAhead n r k)).value_)
    (h2 : (f w).write_ready_ = (g w).write_ready_) (h3 : (f w).value_ = (g w).value_) :
    ringContents n r w f = ringContents n r w g := by
  unfold ringContents
  rw [h2, h3]
  congr 1
  apply List.map_congr_left
  intro k hk
  exact h1 k (List.mem_range.mp hk)

/-- `Push` on a well-formed queue: the vector is appended while fewer
vectors than nodes are held, and replaces the newest one when the queue is
full. -/
theorem FixedQueue_Push_spec (q : FixedQueue) (vec : List Byte) (hq : q.WF) :
    (q.Push vec).WF ∧ (q.Push vec).data.length = q.data.length
      ∧ (q.Push vec).contents
        = if q.contents.length < q.data.length then q.contents ++ [vec]
          else q.contents.dropLast ++ [vec] := by
  obtain ⟨hr, hw, hs, he⟩ := hq
  have hnext := NextFrom_eq q q.write_index_ hw
  have hn1 : (1 : Nat) < q.data.length ∨ q.data.length = 1 := by omega
  have hnlt : q.NextFrom q.write_index_ < q.data.length := by
    rw [hnext]
    unfold ringAhead
    split_ifs <;> omega
  have hsl := ringSpan_lt _ _ _ hr hw
  have hlen : q.contents.length = ringSpan q.data.length q.read_index_ q.write_index_
      + (if (q.node q.write_index_).write_ready_ then 0 else 1) := by
    simp only [FixedQueue.contents, ringContents, List.length_append, List.length_map,
      List.length_range]
    split_ifs <;> rfl
  by_cases hc : ((q.node (q.NextFrom q.write_index_)).is_start_
      || (q.node q.write_index_).write_ready_) = true
  · rw [Push_stay q vec hc]
    refine ⟨⟨by simpa only [onNode_length, onNode_read_index] using hr,
      by simpa only [onNode_length, onNode_write_index] using hw, ?_, ?_⟩,
      onNode_length _ _ _, ?_⟩
    · intro i hi
      rw [onNode_length] at hi
      rw [node_onNode, onNode_read_index]
      split_ifs with h
      · have h0 := hs i hi
        rw [h.1] at h0 ⊢
        exact h0
      · exact hs i hi
    · intro i hi
      rw [onNode_length] at hi
      rw [node_onNode, onNode_write_index]
      split_ifs with h
      · have h0 := he i hi
        rw [h.1] at h0 ⊢
        exact h0
      · exact he i hi
    · have hmap : ∀ k, k < ringSpan q.data.length q.read_index_ q.write_index_ →
          ((q.onNode q.write_index_ (Node.Write · vec)).node
            (ringAhead q.data.length q.read_index_ k)).value_
            = (q.node (ringAhead q.data.length q.read_index_ k)).value_ := by
        intro k hk
        rw [node_onNode]
        have hne : ringAhead q.data.length q.read_index_ k ≠ q.write_index_ := by
          intro e
          rw [← ringAhead_span _ q.read_index_ q.write_index_ hr hw] at e
          have := ringAhead_inj _ _ _ _ hr (by omega) hsl e
          omega
        simp only [hne, false_and, if_false]
      have hnew : (q.onNode q.write_index_ (Node.Write · vec)).contents
          = (List.range (ringSpan q.data.length q.read_index_ q.write_index_)).map
              (fun k => (q.node (ringAhead q.data.length q.read_index_ k)).value_) ++ [vec] := by
        simp only [FixedQueue.contents, ringContents, onNode_length, onNode_read_index,
          onNode_write_index]
        congr 1
        · apply List.map_congr_left
          intro k hk
          exact hmap k (List.mem_range.mp hk)
        · rw [node_onNode]
          simp [hw, Node.Write]
      rw [hnew]
      by_cases hwr : (q.node q.write_index_).write_ready_ = true
      · have hlt : q.contents.length < q.data.length := by
          rw [hlen]
          simp only [hwr, if_true]
          omega
        rw [if_pos hlt]
        simp only [FixedQueue.contents, ringContents, hwr, if_true, List.append_nil]
      · have hst : (q.node (q.NextFrom q.write_index_)).is_start_ = true := by
          simpa [hwr] using hc
        have hfull := ringSpan_full _ _ _ hr hw
          (by rw [← hnext]; exact (hs _ hnlt).mp hst)
        have hge : ¬ q.contents.length < q.data.length := by
          rw [hlen]
          simp only [hwr, Bool.false_eq_true, if_false]
          omega
        rw [if_neg hge]
        simp only [FixedQueue.contents, ringContents, hwr, Bool.false_eq_true, if_false,
          List.dropLast_concat]
  · have hc1 : ((q.node (q.NextFrom q.write_index_)).is_start_
        || (q.node q.write_index_).write_ready_) = false := by simpa using hc
    have hst : (q.node (q.NextFrom q.write_index_)).is_start_ = false
        ∧ (q.node q.write_index_).write_ready_ = false := by
      simpa [Bool.or_eq_false_iff] using hc1
    have hw1r : q.NextFrom q.write_index_ ≠ q.read_index_ := by
      intro e
      have := (hs _ hnlt).mpr e
      rw [hst.1] at this
      exact Bool.noConfusion this
    have hw1w : q.NextFrom q.write_index_ ≠ q.write_index_ := by
      intro e
      apply hw1r
      rw [hnext] at e ⊢
      unfold ringAhead at e ⊢
      split_ifs at e ⊢ <;> omega
    have hspan := ringSpan_next _ _ _ hr hw (by rw [← hnext]; exact hw1r)
    rw [← hnext] at hspan
    have hsl1 := ringSpan_lt _ _ _ hr hnlt
    obtain ⟨er, ew, el, hnode⟩ := Push_advance q vec hc1 hw hnlt hw1w
    refine ⟨⟨by rw [er, el]; exact hr, by rw [ew, el]; exact hnlt, ?_, ?_⟩, el, ?_⟩
    · intro i hi
      rw [el] at hi
      rw [hnode, er]
      split_ifs with h1 h2
      · rw [h1]
        exact hs _ hnlt
      · rw [h2]
        exact hs _ hw
      · exact hs i hi
    · intro i hi
      rw [el] at hi
      rw [hnode, ew]
      split_ifs with h1 h2
      · simp [h1, Node.Write, Node.MarkEnd]
      · simp only [h2, Node.MarkEnd, Bool.false_eq_true, false_iff]
        exact fun e => hw1w e.symm
      · have := he i hi
        simp only [h2, iff_false] at this
        simp only [h1, iff_false]
        exact this
    · have hlt : q.contents.length < q.data.length := by
        rw [hlen]
        simp only [hst.2, Bool.false_eq_true, if_false]
        omega
      rw [if_pos hlt]
      unfold FixedQueue.contents
      rw [el, er, ew]
      unfold ringContents
      rw [hspan, List.range_succ, List.map_append, hnode (q.NextFrom q.write_index_)]
      simp only [if_true, Node.Write, Bool.false_eq_true, if_false, hst.2, List.map_cons,
        List.map_nil, ringAhead_span _ _ _ hr hw]
      rw [hnode q.write_index_]
      simp only [hw1w.symm, if_false, if_true, Node.MarkEnd]
      congr 2
      apply List.map_congr_left
      intro k hk
      rw [hnode]
      have hk1 := List.mem_range.mp hk
      have hne : ringAhead q.data.length q.read_index_ k ≠ q.NextFrom q.write_index_ := by
        intro e
        rw [← ringAhead_span _ q.read_index_ (q.NextFrom q.write_index_) hr hnlt, hspan] at e
        have := ringAhead_inj _ _ _ _ hr (by omega) (by omega) e
        omega
      simp only [hne, if_false]
      split_ifs with h2
      · rw [h2]
        rfl
      · rfl

theorem Pop_at_end (q : FixedQueue) (h : (q.node q.read_index_).is_end_ = true)
    (hr : q.read_index_ < q.data.length) :
    q.Pop.1 = (if (q.node q.read_index_).write_ready_ then [] else (q.node q.read_index_).value_)
      ∧ q.Pop.2.did_read_ = !(q.node q.read_index_).write_ready_
      ∧ q.Pop.2.read_index_ = q.read_index_ ∧ q.Pop.2.write_index_ = q.write_index_
      ∧ q.Pop.2.data.length = q.data.length
      ∧ ∀ j, q.Pop.2.node j
          = if j = q.read_index_ then
              Node.mk (q.node q.read_index_).is_start_ true (q.node q.read_index_).is_end_
                (q.node q.read_index_).value_
            else q.node j := by
  unfold FixedQueue.node at h ⊢
  by_cases hwr : (q.data.getD q.read_index_ default).write_ready_ = true
  · simp only [FixedQueue.Pop, Node.Read, FixedQueue.node, h, hwr, Bool.and_self, if_true,
      FixedQueue.MoveStart, getD_set_eq_ite, hr, and_self, Bool.not_true, List.length_set,
      and_true, true_and]
    intro j
    split_ifs with hj
    · cases hx : q.data.getD q.read_index_ default with
      | mk a b c d =>
        rw [hx] at hwr h
        simp only at hwr h
        rw [hwr, h]
    · rfl
  · have hwr1 : (q.data.getD q.read_index_ default).write_ready_ = false := by simpa using hwr
    simp only [FixedQueue.Pop, Node.Read, FixedQueue.node, h, hwr1, Bool.and_false,
      Bool.false_eq_true, if_false, FixedQueue.MoveStart, getD_set_eq_ite, hr, and_self,
      if_true, Bool.not_false, List.length_set, and_true, true_and, implies_true]

theorem Pop_before_end (q : FixedQueue) (h : (q.node q.read_index_).is_end_ = false)
    (hr : q.read_index_ < q.data.length) (hn : q.NextFrom q.read_index_ < q.data.length)
    (hne : q.NextFrom q.read_index_ ≠ q.read_index_) :
    q.Pop.1 = (q.node q.read_index_).value_ ∧ q.Pop.2.did_read_ = true
      ∧ q.Pop.2.read_index_ = q.NextFrom q.read_index_
      ∧ q.Pop.2.write_index_ = q.write_index_ ∧ q.Pop.2.data.length = q.data.length
      ∧ ∀ j, q.Pop.2.node j
          = if j = q.read_index_ then
              Node.mk false true (q.node q.read_index_).is_end_ (q.node q.read_index_).value_
            else if j = q.NextFrom q.read_index_ then (q.node j).MarkStart true
            else q.node j := by
  unfold FixedQueue.node at h ⊢
  unfold FixedQueue.NextFrom at hn hne ⊢
  simp only [FixedQueue.Pop, Node.Read, FixedQueue.node, h, Bool.false_and, Bool.false_eq_true,
    if_false, FixedQueue.MoveStart, getD_set_eq_ite, hr, and_self, if_true, List.length_set,
    FixedQueue.onNode, FixedQueue.NextFrom, Node.MarkStart, and_true, true_and]
  intro j
  split_ifs <;> first | rfl | omega | simp_all

/-- `Pop` on a well-formed queue takes the oldest vector off the queue and
reports it; on a queue that holds nothing it returns the empty vector and
reports nothing read. -/
theorem FixedQueue_Pop_spec (q : FixedQueue) (hq : q.WF) :
    q.Pop.2.WF ∧ q.Pop.2.data.length = q.data.length ∧ q.Pop.2.contents = q.contents.tail
      ∧ q.Pop.1 = q.contents.headD [] ∧ q.Pop.2.did_read_ = !q.contents.isEmpty := by
  obtain ⟨hr, hw, hs, he⟩ := hq
  by_cases hend : (q.node q.read_index_).is_end_ = true
  · have hrw : q.read_index_ = q.write_index_ := (he _ hr).mp hend
    obtain ⟨e1, ed, er, ew, el, hnode⟩ := Pop_at_end q hend hr
    have hc : q.contents = if (q.node q.read_index_).write_ready_ then []
        else [(q.node q.read_index_).value_] := by
      unfold FixedQueue.contents ringContents
      rw [← hrw, ringSpan_self]
      rfl
    have hc1 : q.Pop.2.contents = [] := by
      unfold FixedQueue.contents ringContents
      rw [el, er, ew, ← hrw, ringSpan_self, hnode]
      simp
    refine ⟨⟨by rw [er, el]; exact hr, by rw [ew, el]; exact hw, ?_, ?_⟩, el, ?_, ?_, ?_⟩
    · intro i hi
      rw [el] at hi
      rw [hnode, er]
      split_ifs with h1
      · rw [h1]
        exact hs _ hr
      · exact hs i hi
    · intro i hi
      rw [el] at hi
      rw [hnode, ew]
      split_ifs with h1
      · rw [h1]
        exact he _ hr
      · exact he i hi
    · rw [hc1, hc]
      split_ifs <;> rfl
    · rw [e1, hc]
      split_ifs <;> rfl
    · rw [ed, hc]
      cases (q.node q.read_index_).write_ready_ <;> rfl
  · have hend1 : (q.node q.read_index_).is_end_ = false := by simpa using hend
    have hrw : q.read_index_ ≠ q.write_index_ := fun e => hend ((he _ hr).mpr e)
    have hnext := NextFrom_eq q q.read_index_ hr
    have hnlt : q.NextFrom q.read_index_ < q.data.length := by
      rw [hnext]
      unfold ringAhead
      split_ifs <;> omega
    have hne : q.NextFrom q.read_index_ ≠ q.read_index_ := by
      rw [hnext]
      unfold ringAhead
      split_ifs <;> omega
    obtain ⟨e1, ed, er, ew, el, hnode⟩ := Pop_before_end q hend1 hr hnlt hne
    have hspan := ringSpan_pop _ _ _ hr hw hrw
    rw [← hnext] at hspan
    have hsl := ringSpan_lt _ _ _ hr hw
    have hval : ∀ j, (q.Pop.2.node j).value_ = (q.node j).value_ := by
      intro j
      rw [hnode]
      split_ifs with h1 h2
      · rw [h1]
      · rfl
      · rfl
    have hwrw : (q.Pop.2.node q.write_index_).write_ready_
        = (q.node q.write_index_).write_ready_ := by
      rw [hnode, if_neg (fun e => hrw e.symm)]
      split_ifs <;> rfl
    have hc : q.contents = (q.node q.read_index_).value_ :: q.Pop.2.contents := by
      unfold FixedQueue.contents ringContents
      rw [el, er, ew, hspan, List.range_succ_eq_map, List.map_cons, List.map_map,
        ringAhead_zero _ _ hr, hwrw, hval, List.cons_append]
      congr 2
      apply List.map_congr_left
      intro k hk
      have hk1 := List.mem_range.mp hk
      rw [hval, hnext, ringAhead_pop _ _ _ hr (by omega)]
      rfl
    refine ⟨⟨by rw [er, el]; exact hnlt, by rw [ew, el]; exact hw, ?_, ?_⟩, el, ?_, ?_, ?_⟩
    · intro i hi
      rw [el] at hi
      rw [hnode, er]
      split_ifs with h1 h2
      · simp only [Bool.false_eq_true, false_iff]
        rw [h1]
        exact fun e => hne e.symm
      · simp [h2, Node.MarkStart]
      · have := hs i hi
        simp only [h1, iff_false] at this
        simp only [h2, iff_false]
        exact this
    · intro i hi
      rw [el] at hi
      rw [hnode, ew]
      split_ifs with h1 h2
      · rw [h1]
        exact he _ hr
      · exact he i hi
      · exact he i hi
    · rw [hc]
      rfl
    · rw [e1, hc]
      rfl
    · rw [ed, hc]
      rfl

theorem contents_length_le (q : FixedQueue) (hq : q.WF) :
    q.contents.length ≤ q.data.length := by
  obtain ⟨hr, hw, _, _⟩ := hq
  have hsl := ringSpan_lt _ _ _ hr hw
  simp only [FixedQueue.contents, ringContents, List.length_append, List.length_map,
    List.length_range]
  split_ifs
  · simp only [List.length_nil]
    omega
  · simp only [List.length_singleton]
    omega

theorem run_push (q : FixedQueue) (vec : List Byte) (ops : List Op) :
    q.run (.push vec :: ops) = (q.Push vec).run ops := rfl

theorem run_pop (q : FixedQueue) (ops : List Op) :
    q.run (.pop :: ops)
      = ((q.Pop.1, q.Pop.2.did_read_) :: (q.Pop.2.run ops).1, (q.Pop.2.run ops).2) := rfl

theorem run_WF (ops : List Op) : ∀ (q : FixedQueue), q.WF →
    (q.run ops).2.WF ∧ (q.run ops).2.data.length = q.data.length := by
  induction ops with
  | nil => exact fun q hq => ⟨hq, rfl⟩
  | cons op ops ih =>
    intro q hq
    cases op with
    | push vec =>
      rw [run_push]
      obtain ⟨h1, h2, _⟩ := FixedQueue_Push_spec q vec hq
      obtain ⟨h3, h4⟩ := ih _ h1
      exact ⟨h3, h4.trans h2⟩
    | pop =>
      rw [run_pop]
      obtain ⟨h1, h2, _⟩ := FixedQueue_Pop_spec q hq
      obtain ⟨h3, h4⟩ := ih _ h1
      exact ⟨h3, h4.trans h2⟩

/-- What the pops of an interleaving return, from a well-formed queue: the
vectors read are, in order, among those held and those pushed, and a pop that
reads nothing returns the empty vector. -/
theorem run_spec (ops : List Op) : ∀ (q : FixedQueue), q.WF →
    (popped (q.run ops).1).Sublist (q.contents ++ pushed ops)
      ∧ ∀ r ∈ (q.run ops).1, r.2 = false → r.1 = [] := by
  induction ops with
  | nil =>
    intro q _
    exact ⟨List.nil_sublist _, fun r hr => absurd hr (List.not_mem_nil r)⟩
  | cons op ops ih =>
    intro q hq
    cases op with
    | push vec =>
      rw [run_push]
      obtain ⟨h1, _, h3⟩ := FixedQueue_Push_spec q vec hq
      obtain ⟨i1, i2⟩ := ih _ h1
      refine ⟨?_, i2⟩
      have hsub : ((q.Push vec).contents).Sublist (q.contents ++ [vec]) := by
        rw [h3]
        split_ifs
        · exact List.Sublist.refl _
        · exact (List.dropLast_sublist _).append_right _
      have := i1.trans (hsub.append_right (pushed ops))
      simpa [pushed] using this
    | pop =>
      rw [run_pop]
      obtain ⟨h1, _, h3, h4, h5⟩ := FixedQueue_Pop_spec q hq
      obtain ⟨i1, i2⟩ := ih _ h1
      rw [h3] at i1
      cases hc : q.contents with
      | nil =>
        rw [hc] at h4 h5 i1
        refine ⟨?_, ?_⟩
        · simp only [popped, h5, List.isEmpty_nil, Bool.not_true, List.filter_cons,
            Bool.false_eq_true, if_false]
          exact i1
        · intro r hr _
          rcases List.mem_cons.mp hr with e | e
          · rw [e]
            exact h4
          · exact i2 r e ‹_›
      | cons h t =>
        rw [hc] at h4 h5 i1
        refine ⟨?_, ?_⟩
        · simp only [popped, h5, h4, List.isEmpty_cons, Bool.not_false, List.filter_cons,
            if_true, List.map_cons, List.headD_cons, List.cons_append, pushed]
          exact List.Sublist.cons₂ _ i1
        · intro r hr hf
          rcases List.mem_cons.mp hr with e | e
          · rw [e, h5] at hf
            exact absurd hf (by simp)
          · exact i2 r e hf

/-- What `k` pops in a row return, from a well-formed queue: the vectors
held, oldest first, and nothing once they are used up. -/
theorem run_pops (k : Nat) : ∀ (q : FixedQueue), q.WF →
    (q.run (List.replicate k Op.pop)).1
      = (q.contents.take k).map (fun v => (v, true))
        ++ List.replicate (k - q.contents.length) ([], false) := by
  induction k with
  | zero =>
    intro q _
    simp [FixedQueue.run]
  | succ k ih =>
    intro q hq
    rw [List.replicate_succ, run_pop]
    obtain ⟨h1, _, h3, h4, h5⟩ := FixedQueue_Pop_spec q hq
    rw [ih _ h1, h3, h4, h5]
    cases hc : q.contents with
    | nil => simp [List.replicate_succ]
    | cons h t => simp

theorem create_ok (n : Nat) (q : FixedQueue) (h : FixedQueue.create n = .ok q) :
    0 < n ∧ q.WF ∧ q.data.length = n ∧ q.contents = [] := by
  have hn : 0 < n := by
    by_contra h0
    have e : n = 0 := by omega
    rw [e] at h
    simp [FixedQueue.create] at h
  obtain ⟨q1, e1, h1, h2, h3, _⟩ := create_spec n hn
  rw [e1] at h
  cases h
  exact ⟨hn, h1, h2, h3⟩

theorem popped_pops (l : List (List Byte)) (m : Nat) :
    popped (l.map (fun v => (v, true)) ++ List.replicate m ([], false)) = l := by
  induction l with
  | nil =>
    induction m with
    | zero => rfl
    | succ m ih => simp [popped, List.replicate_succ]
  | cons a l ih =>
    simp only [popped] at ih ⊢
    simp only [List.map_cons, List.cons_append, List.filter_cons, if_true]
    rw [ih]

/-- C14: for a queue of any size `n ≥ 1` (the constructor cannot build one of
size 0) and every interleaving of `Push` and `Pop` calls on the fresh queue,
each call one atomic step, the vectors returned by the pops that report
`did_read` true form a subsequence of the pushed vectors in push order, so
none is returned twice when the pushed vectors are distinct and none out of
order, and every pop that reports `did_read` false returns the empty
vector. -/
theorem FixedQueue_pops_subsequence_of_pushes (n : Nat) (ops : List Op) (hn : 0 < n) :
    ∃ q, FixedQueue.create n = .ok q
      ∧ (popped (q.run ops).1).Sublist (pushed ops)
      ∧ ((pushed ops).Nodup → (popped (q.run ops).1).Nodup)
      ∧ ∀ r ∈ (q.run ops).1, r.2 = false → r.1 = [] := by
  obtain ⟨q, e, hq, _, hc, _⟩ := create_spec n hn
  obtain ⟨h1, h2⟩ := run_spec ops q hq
  rw [hc, List.nil_append] at h1
  exact ⟨q, e, h1, fun hd => hd.sublist h1, h2⟩

theorem FixedQueue_pops_subsequence_of_pushes_witness :
    0 < 2 ∧ ∃ q, FixedQueue.create 2 = .ok q
      ∧ (popped (q.run [.push [1], .push [2], .push [3], .pop, .push [4], .push [5], .pop,
          .pop, .pop]).1).Sublist
          (pushed [.push [1], .push [2], .push [3], .pop, .push [4], .push [5], .pop, .pop,
            .pop])
      ∧ ((pushed [.push [1], .push [2], .push [3], .pop, .push [4], .push [5], .pop, .pop,
            .pop]).Nodup →
          (popped (q.run [.push [1], .push [2], .push [3], .pop, .push [4], .push [5], .pop,
            .pop, .pop]).1).Nodup)
      ∧ ∀ r ∈ (q.run [.push [1], .push [2], .push [3], .pop, .push [4], .push [5], .pop, .pop,
          .pop]).1, r.2 = false → r.1 = [] :=
  ⟨by decide, FixedQueue_pops_subsequence_of_pushes 2 _ (by decide)⟩

/-- C15 (counterexample): a fresh queue of size 5 after the pushes of
`[1]`, ..., `[5]` is full, every node holding a vector not yet popped.
`Push([6])` then does not leave the contents as they were: `[6]` takes the
place of `[5]`, and the next five pops return `[1]`, `[2]`, `[3]`, `[4]`,
`[6]`. -/
theorem Push_on_full_queue_keeps_new_value :
    (FixedQueue.create 5).map (fun q =>
        ((q.run [.push [1], .push [2], .push [3], .push [4], .push [5]]).2.data.all
          (fun node => !node.write_ready_),
         (q.run [.push [1], .push [2], .push [3], .push [4], .push [5]]).2.contents))
        = .ok (true, [[1], [2], [3], [4], [5]])
      ∧ (FixedQueue.create 5).map (fun q =>
          ((q.run [.push [1], .push [2], .push [3], .push [4], .push [5]]).2.Push [6]).contents)
        = .ok [[1], [2], [3], [4], [6]]
      ∧ (FixedQueue.create 5).map (fun q =>
          (((q.run [.push [1], .push [2], .push [3], .push [4], .push [5]]).2.Push [6]).run
            [.pop, .pop, .pop, .pop, .pop]).1)
        = .ok [([1], true), ([2], true), ([3], true), ([4], true), ([6], true)] := by
  decide

/-- C15 (amended): when the queue is full, holding as many vectors as it has
nodes, `Push(v)` does not drop `v`: it replaces the newest vector held.  The
queue afterwards holds the vectors it held before except the newest, followed
by `v`, and they are what the next pops return, in that order, before a pop
that reads nothing. -/
theorem Push_on_full_queue_overwrites_newest (n : Nat) (ops : List Op) (v : List Byte)
    (q0 : FixedQueue) (hq0 : FixedQueue.create n = .ok q0)
    (hfull : (q0.run ops).2.contents.length = n) :
    ((q0.run ops).2.Push v).contents = (q0.run ops).2.contents.dropLast ++ [v]
      ∧ ∀ k, (((q0.run ops).2.Push v).run (List.replicate k Op.pop)).1
          = (((q0.run ops).2.contents.dropLast ++ [v]).take k).map (fun x => (x, true))
            ++ List.replicate (k - n) ([], false) := by
  obtain ⟨hn, hq, hl, _⟩ := create_ok n q0 hq0
  obtain ⟨hw, hl1⟩ := run_WF ops q0 hq
  obtain ⟨h1, h2, h3⟩ := FixedQueue_Push_spec (q0.run ops).2 v hw
  have hge : ¬ (q0.run ops).2.contents.length < (q0.run ops).2.data.length := by
    rw [hfull, hl1, hl]
    omega
  rw [if_neg hge] at h3
  refine ⟨h3, fun k => ?_⟩
  rw [run_pops k _ h1, h3]
  congr 3
  rw [List.length_append, List.length_dropLast, hfull]
  simp only [List.length_singleton]
  omega

theorem Push_on_full_queue_overwrites_newest_witness :
    FixedQueue.create 2 = .ok ⟨false, 0, 0, [⟨true, true, true, []⟩, ⟨false, true, false, []⟩]⟩
      ∧ ((FixedQueue.run ⟨false, 0, 0, [⟨true, true, true, []⟩, ⟨false, true, false, []⟩]⟩
          [.push [7], .push [8]]).2.contents.length = 2)
      ∧ ((FixedQueue.run ⟨false, 0, 0, [⟨true, true, true, []⟩, ⟨false, true, false, []⟩]⟩
            [.push [7], .push [8]]).2.Push [9]).contents
          = (FixedQueue.run ⟨false, 0, 0, [⟨true, true, true, []⟩, ⟨false, true, false, []⟩]⟩
            [.push [7], .push [8]]).2.contents.dropLast ++ [[9]]
      ∧ ∀ k, (((FixedQueue.run ⟨false, 0, 0, [⟨true, true, true, []⟩,
            ⟨false, true, false, []⟩]⟩ [.push [7], .push [8]]).2.Push [9]).run
              (List.replicate k Op.pop)).1
          = (((FixedQueue.run ⟨false, 0, 0, [⟨true, true, true, []⟩,
              ⟨false, true, false, []⟩]⟩ [.push [7], .push [8]]).2.contents.dropLast
                ++ [[9]]).take k).map (fun x => (x, true))
            ++ List.replicate (k - 2) ([], false) :=
  ⟨by decide, by decide,
    Push_on_full_queue_overwrites_newest 2 [.push [7], .push [8]] [9] _ (by decide) (by decide)⟩

/-- C16: a queue of size `n` never gives back more than `n` vectors in a row,
and when it is full, so that `n` pops in a row would return `q1, ..., qn`,
`Push(v)` replaces the element at the end of the queue and leaves the older
ones as they are: the next `n` pops return `q1, ..., q(n-1), v`, and the pop
after them reports nothing read. -/
theorem Push_full_replaces_end_element (n : Nat) (ops : List Op) (v : List Byte)
    (qs : List (List Byte)) (q0 : FixedQueue) (hq0 : FixedQueue.create n = .ok q0)
    (hlen : qs.length = n)
    (hfull : ((q0.run ops).2.run (List.replicate n Op.pop)).1 = qs.map (fun x => (x, true))) :
    (((q0.run ops).2.Push v).run (List.replicate (n + 1) Op.pop)).1
        = (qs.dropLast ++ [v]).map (fun x => (x, true)) ++ [([], false)]
      ∧ ∀ (ops1 : List Op) (k : Nat),
          (popped ((q0.run ops1).2.run (List.replicate k Op.pop)).1).length ≤ n := by
  obtain ⟨hn, hq, hl, _⟩ := create_ok n q0 hq0
  obtain ⟨hw, hl1⟩ := run_WF ops q0 hq
  have hle := contents_length_le _ hw
  rw [hl1, hl] at hle
  rw [run_pops n _ hw] at hfull
  have hc : (q0.run ops).2.contents.length = n := by
    by_contra hne
    have hlt : (q0.run ops).2.contents.length < n := by omega
    have hmem : (([], false) : List Byte × Bool)
        ∈ List.map (fun x => (x, true)) qs := by
      rw [← hfull]
      apply List.mem_append_right
      exact List.mem_replicate.mpr ⟨by omega, rfl⟩
    obtain ⟨x, _, hx⟩ := List.mem_map.mp hmem
    exact absurd (congrArg Prod.snd hx) (by simp)
  have hqs : (q0.run ops).2.contents = qs := by
    rw [hc, Nat.sub_self, List.replicate_zero, List.append_nil,
      List.take_of_length_le (le_of_eq hc)] at hfull
    exact List.map_injective_iff.mpr (fun a b h => congrArg Prod.fst h) hfull
  obtain ⟨h1, h2, h3⟩ := FixedQueue_Push_spec (q0.run ops).2 v hw
  have hge : ¬ (q0.run ops).2.contents.length < (q0.run ops).2.data.length := by
    rw [hc, hl1, hl]
    omega
  rw [if_neg hge, hqs] at h3
  have hlen1 : (qs.dropLast ++ [v]).length = n := by
    rw [List.length_append, List.length_dropLast, hlen]
    simp only [List.length_singleton]
    omega
  refine ⟨?_, fun ops1 k => ?_⟩
  · rw [run_pops (n + 1) _ h1, h3, hlen1, List.take_of_length_le (by omega)]
    have e : n + 1 - n = 1 := by omega
    rw [e]
    rfl
  · obtain ⟨hw1, hl2⟩ := run_WF ops1 q0 hq
    have hle1 := contents_length_le _ hw1
    rw [hl2, hl] at hle1
    rw [run_pops k _ hw1, popped_pops, List.length_take]
    omega

theorem Push_full_replaces_end_element_witness :
    FixedQueue.create kDefaultBufferSize
        = .ok ⟨false, 0, 0, [⟨true, true, true, []⟩, ⟨false, true, false, []⟩,
            ⟨false, true, false, []⟩, ⟨false, true, false, []⟩, ⟨false, true, false, []⟩]⟩
      ∧ [[(1 : Byte)], [2], [3], [4], [5]].length = kDefaultBufferSize
      ∧ ((FixedQueue.run ⟨false, 0, 0, [⟨true, true, true, []⟩, ⟨false, true, false, []⟩,
            ⟨false, true, false, []⟩, ⟨false, true, false, []⟩, ⟨false, true, false, []⟩]⟩
          [.push [1], .push [2], .push [3], .push [4], .push [5]]).2.run
            (List.replicate kDefaultBufferSize Op.pop)).1
          = [[(1 : Byte)], [2], [3], [4], [5]].map (fun x => (x, true))
      ∧ (((FixedQueue.run ⟨false, 0, 0, [⟨true, true, true, []⟩, ⟨false, true, false, []⟩,
            ⟨false, true, false, []⟩, ⟨false, true, false, []⟩, ⟨false, true, false, []⟩]⟩
          [.push [1], .push [2], .push [3], .push [4], .push [5]]).2.Push [6]).run
            (List.replicate (kDefaultBufferSize + 1) Op.pop)).1
          = ([[(1 : Byte)], [2], [3], [4], [5]].dropLast ++ [[6]]).map (fun x => (x, true))
            ++ [([], false)]
      ∧ ∀ (ops1 : List Op) (k : Nat),
          (popped ((FixedQueue.run ⟨false, 0, 0, [⟨true, true, true, []⟩,
            ⟨false, true, false, []⟩, ⟨false, true, false, []⟩, ⟨false, true, false, []⟩,
            ⟨false, true, false, []⟩]⟩ ops1).2.run (List.replicate k Op.pop)).1).length
            ≤ kDefaultBufferSize :=
  ⟨by decide, by decide, by decide,
    Push_full_replaces_end_element kDefaultBufferSize
      [.push [1], .push [2], .push [3], .push [4], .push [5]] [6] [[1], [2], [3], [4], [5]] _
      (by decide) (by decide) (by decide)⟩

/-- The example of the queue of default size: six pushes with no pop in
between, then the pops return the first four vectors and the sixth, and
after them nothing. -/
theorem default_queue_six_pushes (v1 v2 v3 v4 v5 v6 : List Byte) :
    (FixedQueue.create kDefaultBufferSize).map (fun q =>
        (q.run [.push v1, .push v2, .push v3, .push v4, .push v5, .push v6,
          .pop, .pop, .pop, .pop, .pop, .pop]).1)
      = .ok [(v1, true), (v2, true), (v3, true), (v4, true), (v6, true), ([], false)] := by
  simp [FixedQueue.create, FixedQueue.run, FixedQueue.Push, FixedQueue.Pop, FixedQueue.MoveEnd,
    FixedQueue.MoveStart, FixedQueue.onNode, FixedQueue.node, FixedQueue.NextFrom, Node.Read,
    Node.Write, Node.MarkEnd, Node.MarkStart, kDefaultBufferSize, Except.map, List.replicate]

end Data.Sharing

/-! ## The broadcast of the server -/

namespace Network

open Data.Sharing

theorem SendReliable_spec (c : Client) (packet : Packet.Packet)
    (h : packet.client < c.reliable_data_.length) :
    c.SendReliable packet
      = .ok (if c.IsActive = true ∧ c.my_server_slot_ ≠ packet.client then
          c.pushReliable packet
        else c) := by
  unfold Client.SendReliable
  by_cases h1 : c.IsActive = true <;> by_cases h2 : c.my_server_slot_ = packet.client <;>
    simp [h1, h2, h]

theorem SendReliableToAllLoop_spec (packet : Packet.Packet) :
    ∀ (clients : List (Option Client)) (i0 : Nat),
      (∀ c, some c ∈ clients → packet.client < c.reliable_data_.length) →
      ∃ t, SendReliableToAllLoop packet i0 clients = .ok t ∧ t.length = clients.length
        ∧ ∀ k, t.getD k none = (clients.getD k none).map (fun c =>
            if i0 + k ≠ packet.client ∧ c.IsActive = true ∧ c.my_server_slot_ ≠ packet.client
            then c.pushReliable packet else c) := by
  intro clients
  induction clients with
  | nil =>
    intro i0 _
    exact ⟨[], rfl, rfl, fun k => by simp⟩
  | cons slot rest ih =>
    intro i0 hq
    obtain ⟨t, e, hl, hk⟩ := ih (i0 + 1) (fun c hc => hq c (List.mem_cons_of_mem _ hc))
    by_cases hi : i0 = packet.client
    · refine ⟨slot :: t, ?_, by simp [hl], ?_⟩
      · have e1 := e
        rw [hi] at e1
        simp [SendReliableToAllLoop, hi, e1]
      · intro k
        cases k with
        | zero =>
          cases slot <;> simp [hi]
        | succ k =>
          simp only [List.getD_cons_succ, hk k]
          congr 1
          funext c
          rw [show i0 + 1 + k = i0 + (k + 1) from by omega]
    · cases slot with
      | none =>
        refine ⟨none :: t, ?_, by simp [hl], ?_⟩
        · simp [SendReliableToAllLoop, hi, e]
        · intro k
          cases k with
          | zero => simp
          | succ k =>
            simp only [List.getD_cons_succ, hk k]
            congr 1
            funext c
            rw [show i0 + 1 + k = i0 + (k + 1) from by omega]
      | some c =>
        have hc := hq c (List.mem_cons_self _ _)
        refine ⟨some (if c.IsActive = true ∧ c.my_server_slot_ ≠ packet.client then
          c.pushReliable packet else c) :: t, ?_, by simp [hl], ?_⟩
        · simp only [SendReliableToAllLoop, bne_iff_ne, ne_eq, hi, not_false_eq_true, if_true,
            SendReliable_spec c packet hc, e]
        · intro k
          cases k with
          | zero => simp [hi]
          | succ k =>
            simp only [List.getD_cons_succ, hk k]
            congr 1
            funext c
            rw [show i0 + 1 + k = i0 + (k + 1) from by omega]

theorem pushReliable_frame (c : Client) (packet : Packet.Packet) :
    (c.pushReliable packet).data_ = c.data_
      ∧ (c.pushReliable packet).connected = c.connected
      ∧ (c.pushReliable packet).my_server_slot_ = c.my_server_slot_
      ∧ (∀ j, j ≠ packet.client →
          (c.pushReliable packet).reliable_data_.getD j ⟨false, 0, 0, []⟩
            = c.reliable_data_.getD j ⟨false, 0, 0, []⟩)
      ∧ (packet.client < c.reliable_data_.length →
          (c.pushReliable packet).reliable_data_.getD packet.client ⟨false, 0, 0, []⟩
            = (c.reliable_data_.getD packet.client ⟨false, 0, 0, []⟩).Push packet.Packed) := by
  refine ⟨rfl, rfl, rfl, ?_, ?_⟩
  · intro j hj
    simp only [Client.pushReliable, getD_set_eq_ite, hj, false_and, if_false]
  · intro h
    simp only [Client.pushReliable, getD_set_eq_ite, h, and_self, if_true]

/-- C17 (amended): `Clients::SendReliableToAll(pkt)`, for a `pkt.client`
inside the queue arrays of the sessions, pushes `pkt.Packed()` onto the
reliable queue of source `pkt.client` of every session of the table that is
active (connected, with both sockets valid) and whose slot, as index of the
table and as `my_server_slot_`, differs from `pkt.client`; every other
session, every empty slot, every unreliable queue and every reliable queue of
another source stays as it is. -/
theorem SendReliableToAll_enqueues_to_active_peers (clients : List (Option Client))
    (packet : Packet.Packet)
    (hq : ∀ c, some c ∈ clients → packet.client < c.reliable_data_.length) :
    ∃ t, SendReliableToAll clients packet = .ok t ∧ t.length = clients.length
      ∧ (∀ i, t.getD i none = (clients.getD i none).map (fun c =>
          if i ≠ packet.client ∧ c.IsActive = true ∧ c.my_server_slot_ ≠ packet.client
          then c.pushReliable packet else c))
      ∧ ∀ c, some c ∈ clients →
          (c.pushReliable packet).data_ = c.data_
            ∧ (∀ j, j ≠ packet.client →
                (c.pushReliable packet).reliable_data_.getD j ⟨false, 0, 0, []⟩
                  = c.reliable_data_.getD j ⟨false, 0, 0, []⟩)
            ∧ (c.pushReliable packet).reliable_data_.getD packet.client ⟨false, 0, 0, []⟩
                = (c.reliable_data_.getD packet.client ⟨false, 0, 0, []⟩).Push packet.Packed := by
  obtain ⟨t, e, hl, hk⟩ := SendReliableToAllLoop_spec packet clients 0 hq
  refine ⟨t, e, hl, fun i => ?_, fun c hc => ?_⟩
  · rw [hk i, Nat.zero_add]
  · obtain ⟨h1, _, _, h4, h5⟩ := pushReliable_frame c packet
    exact ⟨h1, h4, h5 (hq c hc)⟩

theorem SendReliableToAll_enqueues_to_active_peers_witness :
    (∀ c, some c ∈ [some (⟨true, true, true, 0, [FixedQueue.createDefault,
          FixedQueue.createDefault], [FixedQueue.createDefault, FixedQueue.createDefault]⟩ :
            Client),
        some ⟨true, true, true, 1, [FixedQueue.createDefault, FixedQueue.createDefault],
          [FixedQueue.createDefault, FixedQueue.createDefault]⟩] →
        (⟨.kProperties, 0, [7]⟩ : Packet.Packet).client < c.reliable_data_.length)
      ∧ ∃ t, SendReliableToAll [some ⟨true, true, true, 0, [FixedQueue.createDefault,
            FixedQueue.createDefault], [FixedQueue.createDefault, FixedQueue.createDefault]⟩,
          some ⟨true, true, true, 1, [FixedQueue.createDefault, FixedQueue.createDefault],
            [FixedQueue.createDefault, FixedQueue.createDefault]⟩] ⟨.kProperties, 0, [7]⟩
            = .ok t
          ∧ t.map (Option.map (fun c => (c.reliable_data_.map FixedQueue.contents,
              c.data_.map FixedQueue.contents)))
            = [some ([[], []], [[], []]),
                some ([[(⟨.kProperties, 0, [7]⟩ : Packet.Packet).Packed], []], [[], []])] := by
  have hq : ∀ c, some c ∈ [some (⟨true, true, true, 0, [FixedQueue.createDefault,
        FixedQueue.createDefault], [FixedQueue.createDefault, FixedQueue.createDefault]⟩ :
          Client),
      some ⟨true, true, true, 1, [FixedQueue.createDefault, FixedQueue.createDefault],
        [FixedQueue.createDefault, FixedQueue.createDefault]⟩] →
      (⟨.kProperties, 0, [7]⟩ : Packet.Packet).client < c.reliable_data_.length := by
    intro c hc
    simp only [List.mem_cons, Option.some.injEq, List.mem_singleton, List.not_mem_nil,
      or_false] at hc
    rcases hc with rfl | rfl <;> decide
  refine ⟨hq, ?_⟩
  obtain ⟨t, e, _, _, _⟩ := SendReliableToAll_enqueues_to_active_peers _ _ hq
  refine ⟨t, e, ?_⟩
  have e2 : SendReliableToAll [some (⟨true, true, true, 0, [FixedQueue.createDefault,
        FixedQueue.createDefault], [FixedQueue.createDefault, FixedQueue.createDefault]⟩ :
          Client),
      some ⟨true, true, true, 1, [FixedQueue.createDefault, FixedQueue.createDefault],
        [FixedQueue.createDefault, FixedQueue.createDefault]⟩] ⟨.kProperties, 0, [7]⟩
      = .ok [some ⟨true, true, true, 0, [FixedQueue.createDefault,
          FixedQueue.createDefault], [FixedQueue.createDefault, FixedQueue.createDefault]⟩,
        some (Client.pushReliable ⟨true, true, true, 1, [FixedQueue.createDefault,
          FixedQueue.createDefault], [FixedQueue.createDefault, FixedQueue.createDefault]⟩
            ⟨.kProperties, 0, [7]⟩)] := by
    decide
  rw [e2] at e
  cases e
  decide

/-- C17 (counterexample): the table holds an active session in slot 0, a
session in slot 1 that is not connected any more, and an active session in
slot 2.  A packet of client 0 is pushed onto the reliable queue of source 0
of the session in slot 2 only: the session in slot 1, whose slot differs
from `pkt.client`, gets nothing. -/
theorem SendReliableToAll_skips_inactive_session :
    (SendReliableToAll
        [some ⟨true, true, true, 0, [FixedQueue.createDefault, FixedQueue.createDefault,
            FixedQueue.createDefault], [FixedQueue.createDefault, FixedQueue.createDefault,
            FixedQueue.createDefault]⟩,
          some ⟨false, true, true, 1, [FixedQueue.createDefault, FixedQueue.createDefault,
            FixedQueue.createDefault], [FixedQueue.createDefault, FixedQueue.createDefault,
            FixedQueue.createDefault]⟩,
          some ⟨true, true, true, 2, [FixedQueue.createDefault, FixedQueue.createDefault,
            FixedQueue.createDefault], [FixedQueue.createDefault, FixedQueue.createDefault,
            FixedQueue.createDefault]⟩]
        ⟨.kProperties, 0, [7]⟩).map
          (List.map (Option.map (fun c => c.reliable_data_.map FixedQueue.contents)))
      = .ok [some [[], [], []], some [[], [], []],
          some [[(⟨.kProperties, 0, [7]⟩ : Packet.Packet).Packed], [], []]] := by
  decide

end Network

/-! ## Areas -/

namespace Game

open Network

/-- C21 (amended): `InSameArea(a, b)` holds iff `a` and `b` are in the same
cell or both have a world space with equal `world_space_id`; it is reflexive
and symmetric; `InSameCell` and `InSameWorldSpace`, each on its own, are
equivalence relations: transitive, reflexive and symmetric. -/
theorem InSameArea_reflexive_symmetric (a b c : Location) :
    (InSameArea a b = true ↔
        (InSameCell a b = true
          ∨ (a.has_world_space_ = true ∧ b.has_world_space_ = true
              ∧ a.world_space_id_ = b.world_space_id_)))
      ∧ InSameArea a a = true
      ∧ InSameArea a b = InSameArea b a
      ∧ (InSameCell a b = true → InSameCell b c = true → InSameCell a c = true)
      ∧ (InSameWorldSpace a b = true → InSameWorldSpace b c = true →
          InSameWorldSpace a c = true)
      ∧ InSameCell a a = true
      ∧ InSameCell a b = InSameCell b a
      ∧ InSameWorldSpace a a = true
      ∧ InSameWorldSpace a b = InSameWorldSpace b a := by
  obtain ⟨aw, ac, awi, aci, _, _⟩ := a
  obtain ⟨bw, bc, bwi, bci, _, _⟩ := b
  obtain ⟨cw, cc, cwi, cci, _, _⟩ := c
  have e1 : (aci == bci) = (bci == aci) := by
    by_cases h : aci = bci <;> simp [h, eq_comm]
  have e2 : (awi == bwi) = (bwi == awi) := by
    by_cases h : awi = bwi <;> simp [h, eq_comm]
  refine ⟨?_, ?_, ?_, ?_, ?_, ?_, ?_, ?_, ?_⟩
  · simp [InSameArea, and_assoc]
  · simp [InSameArea, InSameCell]
  · simp only [InSameArea, InSameCell]
    have e1 : (aci == bci) = (bci == aci) := by
      by_cases h : aci = bci <;> simp [h, eq_comm]
    have e2 : (awi == bwi) = (bwi == awi) := by
      by_cases h : awi = bwi <;> simp [h, eq_comm]
    cases aw <;> cases bw <;> cases ac <;> cases bc <;> simp [e1, e2]
  · simp only [InSameCell]
    cases ac <;> cases bc <;> cases cc <;> simp
    intro h1 h2
    exact h1.trans h2
  · simp only [InSameWorldSpace]
    cases aw <;> cases bw <;> cases cw <;> simp
    intro h1 h2
    exact h1.trans h2
  · simp [InSameCell]
  · simp only [InSameCell]
    cases ac <;> cases bc <;> simp [e1]
  · simp [InSameWorldSpace]
  · simp only [InSameWorldSpace]
    cases aw <;> cases bw <;> simp [e2]

/-- C21 (counterexample): `a` is in cell 1 and has no world space, `b` is in
cell 1 of world space 5, `c` is in cell 2 of world space 5.  `a` and `b`
share the cell, `b` and `c` share the world space, and `a` and `c` share
neither: `InSameArea` is not transitive. -/
theorem InSameArea_not_transitive :
    InSameArea ⟨false, true, 0, 1, 0, [F32.zero, F32.zero, F32.zero]⟩
        ⟨true, true, 5, 1, 0, [F32.zero, F32.zero, F32.zero]⟩ = true
      ∧ InSameArea ⟨true, true, 5, 1, 0, [F32.zero, F32.zero, F32.zero]⟩
          ⟨true, true, 5, 2, 0, [F32.zero, F32.zero, F32.zero]⟩ = true
      ∧ InSameArea ⟨false, true, 0, 1, 0, [F32.zero, F32.zero, F32.zero]⟩
          ⟨true, true, 5, 2, 0, [F32.zero, F32.zero, F32.zero]⟩ = false := by
  decide

end Game

/-! ## Resynchronising, connecting, and the counters of the circular buffer -/

namespace Network

/-- C24 (failing input): on the stream `0x64, 0x64, 0x37` the code
`0x64, 0x37` occurs at offset 1, but `ReceiveUntil` takes the second `0x64`
for a mismatch of the second byte of the code and starts over with the byte
after it.  It returns false when the peer then closes, blocks when the
connection stays open, and with more bytes behind it returns true only after
the next occurrence of the code, having consumed the `9, 9` and the second
code as well. -/
theorem ReceiveUntil_misses_code_after_repeated_first_byte :
    (ReceiveUntil 10 (Socket.connected [.data [0x64, 0x64, 0x37], .closed])
        (Pack_uint16 Packet.kUniqueCode)).map Prod.fst = .ok false
      ∧ (ReceiveUntil 10 (Socket.connected [.data [0x64, 0x64, 0x37]])
          (Pack_uint16 Packet.kUniqueCode)).map Prod.fst = .error .blocked
      ∧ (ReceiveUntil 10
          (Socket.connected [.data [0x64, 0x64, 0x37, 9, 9, 0x64, 0x37, 1, 2, 3]])
          (Pack_uint16 Packet.kUniqueCode)).map
            (fun r => (r.1, r.2.recieved_data_.unread)) = .ok (true, [1, 2, 3]) := by
  refine ⟨?_, ?_, ?_⟩ <;> decide!

/-- C28 (failing input): when the `connect` call succeeds (returns 0)
`ConnectTo(const sockaddr_in&, ...)` throws `ConnectException`, and when it
fails (returns `SOCKET_ERROR`) the function returns the socket, which is not
connected; it returns a socket for no other result of `connect`.  The
overloads that go through `Connect` have the test the right way round. -/
theorem ConnectTo_throws_when_connect_succeeds :
    ConnectTo true 0 = .error (.thrown "Unable to Connect")
      ∧ ConnectTo true SOCKET_ERROR = .ok ⟨false⟩
      ∧ (∀ error, (∃ s, ConnectTo true error = .ok s) ↔ error = SOCKET_ERROR)
      ∧ Connect 0 = true ∧ Connect SOCKET_ERROR = false := by
  refine ⟨by decide, by decide, ?_, by decide, by decide⟩
  intro error
  by_cases h : error = SOCKET_ERROR
  · subst h
    exact ⟨fun _ => rfl, fun _ => ⟨_, rfl⟩⟩
  · simp [ConnectTo, h]

end Network

namespace Data.Buffer

/-- C29 (failing input): a buffer of size 4.  After two rounds of pushing
three bytes and popping them `start_` is 6, and no index `(end_ + i) % 4`
can equal it any more: `Push` of five bytes onto the empty buffer does not
throw, although only three places are free, and writes the fifth byte over
the first.  No call of the sequence throws, every `Pop(n)` has
`n <= Length()` (`Length()` is 5 before the last one), and the bytes popped
end in `11, 8, 9, 10, 11` where `7, 8, 9, 10, 11` were pushed.  On the fresh
buffer the same overfull `Push` does throw. -/
theorem Circular_overwrites_unread_bytes :
    (Circular.run (Circular.create 4)
        [.push [1, 2, 3], .pop 3, .push [4, 5, 6], .pop 3, .push [7, 8, 9, 10, 11],
          .pop 5]).map Prod.fst = .ok [1, 2, 3, 4, 5, 6, 11, 8, 9, 10, 11]
      ∧ Circular.popsWithinLength (Circular.create 4)
          [.push [1, 2, 3], .pop 3, .push [4, 5, 6], .pop 3, .push [7, 8, 9, 10, 11],
            .pop 5] = true
      ∧ pushedBytes [.push [1, 2, 3], .pop 3, .push [4, 5, 6], .pop 3,
          .push [7, 8, 9, 10, 11], .pop 5] = [1, 2, 3, 4, 5, 6, 7, 8, 9, 10, 11]
      ∧ (Circular.run (Circular.create 4)
          [.push [1, 2, 3], .pop 3, .push [4, 5, 6], .pop 3, .push [7, 8, 9, 10, 11]]).map
            (fun r => (r.2.start_, r.2.end_, r.2.Length)) = .ok (6, 12, 5)
      ∧ (Circular.run (Circular.create 4) [.push [7, 8, 9, 10, 11]]).map Prod.fst
          = .error (.thrown "Circular Buffer is Full.") := by
  decide

end Data.Buffer

/-! ## The marks of the fixed queue -/

namespace Data.Sharing

theorem countP_eq_zero_of_getD (l : List Node) (p : Node → Bool)
    (h : ∀ i, i < l.length → p (l.getD i default) = false) : l.countP p = 0 := by
  induction l with
  | nil => rfl
  | cons a t ih =>
    have h0 := h 0 (by simp)
    simp only [List.getD_cons_zero] at h0
    rw [List.countP_cons_of_neg _ _ (by simp [h0])]
    exact ih (fun i hi => by simpa using h (i + 1) (by simpa using hi))

theorem countP_eq_one_of_getD (p : Node → Bool) :
    ∀ (l : List Node) (r : Nat), r < l.length →
      (∀ i, i < l.length → (p (l.getD i default) = true ↔ i = r)) → l.countP p = 1 := by
  intro l
  induction l with
  | nil => intro r hr; simp at hr
  | cons a t ih =>
    intro r hr h
    cases r with
    | zero =>
      have h0 := (h 0 (by simp)).mpr rfl
      simp only [List.getD_cons_zero] at h0
      rw [List.countP_cons_of_pos _ _ h0, countP_eq_zero_of_getD t p]
      intro i hi
      have := h (i + 1) (by simpa using hi)
      simp only [List.getD_cons_succ, add_eq_zero, one_ne_zero, and_false, iff_false] at this
      simpa using this
    | succ r =>
      have h0 := h 0 (by simp)
      simp only [List.getD_cons_zero] at h0
      have hf : ¬ (p a = true) := fun e => by
        have := h0.mp e
        omega
      rw [List.countP_cons_of_neg _ _ hf]
      refine ih r (by simpa using hr) (fun i hi => ?_)
      have := h (i + 1) (by simpa using hi)
      simpa using this

/-- C26: for a queue of any size `n ≥ 1`, after construction and after every
sequence of completed `Push` and `Pop` calls, exactly one node has `is_start`
set and exactly one has `is_end` set, the start node is `data[read_index_]`,
the end node is `data[write_index_]`, and both indices are below
`buffer_size()`. -/
theorem FixedQueue_marker_invariant (n : Nat) (ops : List Op) (hn : 0 < n) :
    ∃ q0, FixedQueue.create n = .ok q0
      ∧ (q0.run ops).2.data.length = n
      ∧ (q0.run ops).2.read_index_ < n ∧ (q0.run ops).2.write_index_ < n
      ∧ (q0.run ops).2.data.countP (fun node => node.is_start_) = 1
      ∧ (q0.run ops).2.data.countP (fun node => node.is_end_) = 1
      ∧ ((q0.run ops).2.node (q0.run ops).2.read_index_).is_start_ = true
      ∧ ((q0.run ops).2.node (q0.run ops).2.write_index_).is_end_ = true := by
  obtain ⟨q0, e, hq, hl, _⟩ := create_spec n hn
  obtain ⟨⟨hr, hw, hs, he⟩, hl1⟩ := run_WF ops q0 hq
  rw [hl] at hl1
  refine ⟨q0, e, hl1, hl1 ▸ hr, hl1 ▸ hw, ?_, ?_, (hs _ hr).mpr rfl, (he _ hw).mpr rfl⟩
  · exact countP_eq_one_of_getD _ _ _ hr hs
  · exact countP_eq_one_of_getD _ _ _ hw he

theorem FixedQueue_marker_invariant_witness :
    0 < 3 ∧ ∃ q0, FixedQueue.create 3 = .ok q0
      ∧ (q0.run [.push [1], .push [2], .pop, .push [3], .push [4], .pop]).2.data.length = 3
      ∧ (q0.run [.push [1], .push [2], .pop, .push [3], .push [4], .pop]).2.read_index_ < 3
      ∧ (q0.run [.push [1], .push [2], .pop, .push [3], .push [4], .pop]).2.write_index_ < 3
      ∧ (q0.run [.push [1], .push [2], .pop, .push [3], .push [4], .pop]).2.data.countP
          (fun node => node.is_start_) = 1
      ∧ (q0.run [.push [1], .push [2], .pop, .push [3], .push [4], .pop]).2.data.countP
          (fun node => node.is_end_) = 1
      ∧ ((q0.run [.push [1], .push [2], .pop, .push [3], .push [4], .pop]).2.node
          (q0.run [.push [1], .push [2], .pop, .push [3], .push [4],
            .pop]).2.read_index_).is_start_ = true
      ∧ ((q0.run [.push [1], .push [2], .pop, .push [3], .push [4], .pop]).2.node
          (q0.run [.push [1], .push [2], .pop, .push [3], .push [4],
            .pop]).2.write_index_).is_end_ = true :=
  ⟨by decide, FixedQueue_marker_invariant 3 _ (by decide)⟩

end Data.Sharing

/-! ## The client byte of a relayed packet -/

namespace Network

open Data.Sharing

/-- C30 (failing input): a server of two slots with an active session in
each.  The client in slot 0 sends on its TCP channel the well-formed
`kProperties` packet `64 37 00 00 00 01 02 C8 41`, client byte 200: the
receive loop hands it to `SendReliableToAll`, and the session in slot 1
indexes `reliable_data_[200]` in an array of two queues.  The same packet on
the UDP channel makes `SendToAll` index the slot table, of two slots, at
200; `SendReliable` and `QueueToSend` index their arrays of two queues with
the byte as it is.  Nothing on the way compares the byte with
`max_clients`. -/
theorem relay_indexes_queue_with_client_byte :
    (Packet.Receive 3 (Socket.connected [.data [0x64, 0x37, 0, 0, 0, 1, 2, 200, 0x41]])).map
        Prod.fst = .ok ⟨.kProperties, 200, [0x41]⟩
      ∧ (ReceiveLoopPass 3
          [some ⟨true, true, true, 0, [FixedQueue.createDefault, FixedQueue.createDefault],
              [FixedQueue.createDefault, FixedQueue.createDefault]⟩,
            some ⟨true, true, true, 1, [FixedQueue.createDefault, FixedQueue.createDefault],
              [FixedQueue.createDefault, FixedQueue.createDefault]⟩]
          0 (Socket.connected [.data [0x64, 0x37, 0, 0, 0, 1, 2, 200, 0x41]])).map Prod.fst
        = .error .outOfBounds
      ∧ (UdpPass 3
          [some ⟨true, true, true, 0, [FixedQueue.createDefault, FixedQueue.createDefault],
              [FixedQueue.createDefault, FixedQueue.createDefault]⟩,
            some ⟨true, true, true, 1, [FixedQueue.createDefault, FixedQueue.createDefault],
              [FixedQueue.createDefault, FixedQueue.createDefault]⟩]
          (Socket.connected [.data [0x64, 0x37, 0, 0, 0, 1, 2, 200, 0x41]])).map Prod.fst
        = .error .outOfBounds
      ∧ Client.SendReliable ⟨true, true, true, 1, [FixedQueue.createDefault,
            FixedQueue.createDefault], [FixedQueue.createDefault, FixedQueue.createDefault]⟩
          ⟨.kProperties, 200, [0x41]⟩ = .error .outOfBounds
      ∧ Client.QueueToSend ⟨true, true, true, 1, [FixedQueue.createDefault,
            FixedQueue.createDefault], [FixedQueue.createDefault, FixedQueue.createDefault]⟩
          ⟨.kProperties, 200, [0x41]⟩ = .error .outOfBounds := by
  refine ⟨?_, ?_, ?_, ?_, ?_⟩ <;> decide!

end Network

/-! ## Joining the server -/

namespace Network

open Data.Sharing

theorem pushReliable_IsActive (c : Client) (packet : Packet.Packet) :
    (c.pushReliable packet).IsActive = c.IsActive := rfl

theorem pushReliable_slot (c : Client) (packet : Packet.Packet) :
    (c.pushReliable packet).my_server_slot_ = c.my_server_slot_ := rfl

theorem pushReliable_length (c : Client) (packet : Packet.Packet) :
    (c.pushReliable packet).reliable_data_.length = c.reliable_data_.length := by
  simp [Client.pushReliable]

theorem pushReliable_data (c : Client) (packet : Packet.Packet) :
    (c.pushReliable packet).data_ = c.data_ := rfl

theorem mem_getD_some (l : List (Option Client)) (c : Client) (h : some c ∈ l) :
    ∃ j, j < l.length ∧ l.getD j none = some c := by
  obtain ⟨j, hj, e⟩ := List.getElem_of_mem h
  exact ⟨j, hj, by simp [List.getD_eq_getElem?_getD, List.getElem?_eq_getElem hj, e]⟩

theorem getD_none_of_le (l : List (Option Client)) (j : Nat) (h : l.length ≤ j) :
    l.getD j none = none := by
  simp [List.getD_eq_getElem?_getD, List.getElem?_eq_none h]

/-- A broadcast from slot `i` on a table whose sessions are in their slots
with one queue per slot: every active session but the one in slot `i` gets
the packet on its reliable queue of source `i`. -/
theorem broadcast_spec (clients : List (Option Client)) (n i : Nat) (packet : Packet.Packet)
    (hp : packet.client = i) (hi : i < n) (hn : clients.length = n)
    (hwf : ∀ j c, clients.getD j none = some c →
      c.my_server_slot_ = j ∧ c.reliable_data_.length = n) :
    ∃ t, SendReliableToAll clients packet = .ok t ∧ t.length = n
      ∧ (∀ j c, t.getD j none = some c → c.my_server_slot_ = j ∧ c.reliable_data_.length = n)
      ∧ ∀ j, t.getD j none = (clients.getD j none).map (fun c =>
          if j ≠ i ∧ c.IsActive = true then c.pushReliable packet else c) := by
  obtain ⟨t, e, hl, hk⟩ := SendReliableToAllLoop_spec packet clients 0 (by
    intro c hc
    obtain ⟨j, _, hj⟩ := mem_getD_some clients c hc
    rw [hp, (hwf j c hj).2]
    exact hi)
  have hk1 : ∀ j, t.getD j none = (clients.getD j none).map (fun c =>
      if j ≠ i ∧ c.IsActive = true then c.pushReliable packet else c) := by
    intro j
    rw [hk j, Nat.zero_add, hp]
    cases hc : clients.getD j none with
    | none => rfl
    | some c =>
      have hs := (hwf j c hc).1
      simp only [Option.map_some', hs]
      by_cases h1 : j = i <;> simp [h1]
  refine ⟨t, e, hl.trans hn, ?_, hk1⟩
  intro j c hc
  rw [hk1 j] at hc
  cases hc0 : clients.getD j none with
  | none => rw [hc0] at hc; simp at hc
  | some c0 =>
    rw [hc0] at hc
    simp only [Option.map_some', Option.some.injEq] at hc
    obtain ⟨h1, h2⟩ := hwf j c0 hc0
    subst hc
    split_ifs
    · exact ⟨h1, by rw [pushReliable_length, h2]⟩
    · exact ⟨h1, h2⟩

theorem firstFree_none (l : List (Option Client)) :
    ∀ k, Push.firstFree k l = none ↔
      ∀ j, j < l.length → ∃ c, l.getD j none = some c ∧ c.IsActive = true := by
  induction l with
  | nil => intro k; simp [Push.firstFree]
  | cons slot rest ih =>
    intro k
    cases slot with
    | none =>
      simp only [Push.firstFree]
      constructor
      · intro h
        cases h
      · intro h
        obtain ⟨c, hc, _⟩ := h 0 (by simp)
        simp at hc
    | some c =>
      by_cases ha : c.IsActive = true
      · simp only [Push.firstFree, ha, Bool.not_true, Bool.false_eq_true, if_false, ih (k + 1)]
        constructor
        · intro h j hj
          cases j with
          | zero => exact ⟨c, rfl, ha⟩
          | succ j => simpa using h j (by simpa using hj)
        · intro h j hj
          simpa using h (j + 1) (by simpa using hj)
      · simp only [Push.firstFree, ha, Bool.not_false, if_true]
        constructor
        · intro h
          cases h
        · intro h
          obtain ⟨c1, hc, h1⟩ := h 0 (by simp)
          simp only [List.getD_cons_zero, Option.some.injEq] at hc
          subst hc
          exact absurd h1 ha

theorem firstFree_some (l : List (Option Client)) :
    ∀ k i, Push.firstFree k l = some i ↔
      ∃ j, i = k + j ∧ j < l.length
        ∧ (¬ ∃ c, l.getD j none = some c ∧ c.IsActive = true)
        ∧ ∀ m, m < j → ∃ c, l.getD m none = some c ∧ c.IsActive = true := by
  induction l with
  | nil => intro k i; simp [Push.firstFree]
  | cons slot rest ih =>
    intro k i
    cases slot with
    | none =>
      simp only [Push.firstFree, Option.some.injEq]
      constructor
      · intro h
        exact ⟨0, by omega, by simp, by simp, fun m hm => absurd hm (by omega)⟩
      · rintro ⟨j, hj, _, _, h4⟩
        cases j with
        | zero => omega
        | succ j =>
          obtain ⟨c, hc, _⟩ := h4 0 (by omega)
          simp at hc
    | some c =>
      by_cases ha : c.IsActive = true
      · simp only [Push.firstFree, ha, Bool.not_true, Bool.false_eq_true, if_false,
          ih (k + 1) i]
        constructor
        · rintro ⟨j, hj, h2, h3, h4⟩
          refine ⟨j + 1, by omega, by simpa using h2, by simpa using h3, ?_⟩
          intro m hm
          cases m with
          | zero => exact ⟨c, rfl, ha⟩
          | succ m => simpa using h4 m (by omega)
        · rintro ⟨j, hj, h2, h3, h4⟩
          cases j with
          | zero =>
            exact absurd ⟨c, rfl, ha⟩ h3
          | succ j =>
            refine ⟨j, by omega, by simpa using h2, by simpa using h3, ?_⟩
            intro m hm
            simpa using h4 (m + 1) (by omega)
      · simp only [Push.firstFree, ha, Bool.not_false, if_true, Option.some.injEq]
        constructor
        · intro h
          refine ⟨0, by omega, by simp, ?_, fun m hm => absurd hm (by omega)⟩
          rintro ⟨c1, hc, h1⟩
          simp only [List.getD_cons_zero, Option.some.injEq] at hc
          subst hc
          exact ha h1
        · rintro ⟨j, hj, _, _, h4⟩
          cases j with
          | zero => omega
          | succ j =>
            obtain ⟨c1, hc, h1⟩ := h4 0 (by omega)
            simp only [List.getD_cons_zero, Option.some.injEq] at hc
            subst hc
            exact absurd h1 ha

theorem Push_true_of_firstFree (clients : List (Option Client)) (sends : Bool) (i : Nat)
    (h : Push.firstFree 0 clients = some i)
    (r : Bool × List (Option Client) × List Packet.Packet)
    (hr : Push clients sends = .ok r) : r.1 = true := by
  unfold Push at hr
  simp only [h] at hr
  split at hr
  · cases hr
  · split at hr
    · cases hr
    · split at hr
      · cases hr
      · split at hr
        · cases hr
          rfl
        · split at hr
          · cases hr
          · cases hr
            rfl

/-- The steps of `Clients::Push` on a table with a free slot `i`, the sends
going through. -/
theorem Push_joins (clients : List (Option Client)) (i : Nat) (hwf : SlotsWF clients)
    (hlen : clients.length ≤ 256) (hi : i < clients.length)
    (hff : Push.firstFree 0 clients = some i) :
    ∃ t sent, Push clients true = .ok (true, t, sent) ∧ t.length = clients.length
      ∧ t.getD i none = some (Client.create clients.length i)
      ∧ ∀ j, j ≠ i → t.getD j none = (clients.getD j none).map (fun c =>
          if c.IsActive = true then
            (joinBroadcasts i (clients.getD i none).isSome).foldl Client.pushReliable c
          else c) := by
  have hmod : i % 256 = i := Nat.mod_eq_of_lt (by omega)
  have hwf0 : ∀ j c, clients.getD j none = some c →
      c.my_server_slot_ = j ∧ c.reliable_data_.length = clients.length :=
    fun j c h => ⟨(hwf j c h).1, (hwf j c h).2.1⟩
  obtain ⟨t1, e1, l1, w1, g1⟩ := broadcast_spec clients clients.length i
    (Packet.PackStatus i .kNew) rfl hi rfl hwf0
  obtain ⟨t2, e2, l2, w2, g2⟩ := broadcast_spec t1 clients.length i
    (Packet.RequestData i) rfl hi l1 w1
  have hnew : ∀ j c, (t2.set i (some (Client.create clients.length i))).getD j none = some c →
      c.my_server_slot_ = j ∧ c.reliable_data_.length = clients.length := by
    intro j c hc
    rw [getD_set_eq_ite] at hc
    split_ifs at hc with h
    · simp only [Option.some.injEq] at hc
      subst hc
      exact ⟨h.1.symm, by simp [Client.create]⟩
    · exact w2 j c hc
  have hold : t2.getD i none = clients.getD i none := by
    rw [g2 i, g1 i]
    cases clients.getD i none <;> simp
  have hother : ∀ j, j ≠ i → t2.getD j none = (clients.getD j none).map (fun c =>
      if c.IsActive = true then
        (c.pushReliable (Packet.PackStatus i .kNew)).pushReliable (Packet.RequestData i)
      else c) := by
    intro j hj
    rw [g2 j, g1 j]
    cases clients.getD j none with
    | none => rfl
    | some c =>
      simp only [Option.map_some', Option.some.injEq]
      by_cases ha : c.IsActive = true
      · simp [hj, ha, pushReliable_IsActive]
      · simp [ha]
  unfold Push
  simp only [hff, hmod, Bool.not_true, Bool.false_eq_true, if_false, e1, e2]
  cases hc : clients.getD i none with
  | none =>
    rw [hc] at hold
    simp only [hold]
    refine ⟨_, _, rfl, by simp [l2], ?_, ?_⟩
    · rw [getD_set_eq_ite]
      simp [l2, hi]
    · intro j hj
      rw [getD_set_eq_ite]
      simp only [hj, false_and, if_false, hother j hj]
      congr 1
  | some old =>
    rw [hc] at hold
    have hslot : old.my_server_slot_ = i := (hwf i old hc).1
    simp only [hold, hslot, hmod]
    obtain ⟨t4, e4, l4, _, g4⟩ := broadcast_spec
      (t2.set i (some (Client.create clients.length i))) clients.length i
      (Packet.PackStatus i .kDisconnected) rfl hi (by simp [l2]) hnew
    simp only [e4]
    refine ⟨_, _, rfl, l4, ?_, ?_⟩
    · rw [g4 i, getD_set_eq_ite]
      simp [l2, hi]
    · intro j hj
      rw [g4 j, getD_set_eq_ite]
      simp only [hj, false_and, if_false, hother j hj, ne_eq, not_false_eq_true, true_and]
      cases clients.getD j none with
      | none => rfl
      | some c =>
        simp only [Option.map_some', Option.some.injEq]
        by_cases ha : c.IsActive = true
        · simp [ha, pushReliable_IsActive, joinBroadcasts]
        · simp [ha]

/-- Pushing packets onto the reliable queues of a session leaves its slot
identifier, the number of its queues and its other queues as they were. -/
theorem foldl_pushReliable_frame (ps : List Packet.Packet) :
    ∀ c : Client, (ps.foldl Client.pushReliable c).my_server_slot_ = c.my_server_slot_
      ∧ (ps.foldl Client.pushReliable c).reliable_data_.length = c.reliable_data_.length
      ∧ (ps.foldl Client.pushReliable c).data_ = c.data_ := by
  induction ps with
  | nil => intro c; exact ⟨rfl, rfl, rfl⟩
  | cons p ps ih =>
    intro c
    obtain ⟨h1, h2, h3⟩ := ih (c.pushReliable p)
    simp only [List.foldl_cons]
    exact ⟨h1, by rw [h2, pushReliable_length], h3⟩

/-- Pushing packets onto the reliable queues of a session changes nothing of
the session but these queues. -/
theorem foldl_pushReliable_eq (ps : List Packet.Packet) :
    ∀ c : Client, ∃ q, ps.foldl Client.pushReliable c = { c with reliable_data_ := q } := by
  induction ps with
  | nil => intro c; exact ⟨c.reliable_data_, rfl⟩
  | cons p ps ih =>
    intro c
    obtain ⟨q, h⟩ := ih (c.pushReliable p)
    exact ⟨q, by rw [List.foldl_cons, h]; rfl⟩

/-- The slot table read as the table of the identifiers of its sessions,
from what each slot holds. -/
theorem occupants_of_getD (t clients : List (Option Client)) (i : Nat)
    (hl : t.length = clients.length) (hi : i < clients.length)
    (hnew : (t.getD i none).map Client.my_server_slot_ = some i)
    (hother : ∀ j, j ≠ i → (t.getD j none).map Client.my_server_slot_
      = (clients.getD j none).map Client.my_server_slot_) :
    t.map (Option.map Client.my_server_slot_)
      = (clients.map (Option.map Client.my_server_slot_)).set i (some i) := by
  apply List.ext_getElem
  · simp [hl]
  · intro j h1 h2
    simp only [List.length_map] at h1
    have h3 : j < clients.length := by omega
    by_cases hj : j = i
    · subst hj
      simp only [List.getElem_map, List.getElem_set_self]
      rw [List.getD_eq_getElem?_getD, List.getElem?_eq_getElem h1] at hnew
      simpa using hnew
    · have := hother j hj
      rw [List.getD_eq_getElem?_getD, List.getD_eq_getElem?_getD, List.getElem?_eq_getElem h1,
        List.getElem?_eq_getElem h3] at this
      simp only [Option.getD_some] at this
      simp only [List.getElem_map]
      rw [List.getElem_set_ne (Ne.symm hj)]
      simpa using this

/-- C25: on a table of at most 256 slots whose sessions are in their slots
with one queue per slot, the sends to the new client going through,
`Clients::Push` fills the lowest-indexed slot `i` that holds no active
session, gives the new session that index as `my_server_slot_` and returns
true.  Every other slot is left as it was: the table of the sessions in the
slots is the old one with slot `i` set to the new session, an empty slot stays
empty and a session stays in its slot with its flag, sockets, identifier and
data queues, only packets having been pushed onto its reliable queues by the
broadcasts of the join.  The table after `Push` is again one whose sessions
are in their slots with one queue per slot.  `Push` returns false exactly
when every slot holds an active session, and then the table is unchanged and
nothing is sent. -/
theorem Push_fills_first_free_slot (clients : List (Option Client)) (hwf : SlotsWF clients)
    (hlen : clients.length ≤ 256) :
    (∀ sends t sent, Push clients sends = .ok (false, t, sent) ↔
        ((∀ j, j < clients.length → ∃ c, clients.getD j none = some c ∧ c.IsActive = true)
          ∧ t = clients ∧ sent = []))
      ∧ ∀ i, i < clients.length →
          (¬ ∃ c, clients.getD i none = some c ∧ c.IsActive = true) →
          (∀ j, j < i → ∃ c, clients.getD j none = some c ∧ c.IsActive = true) →
          ∃ t sent, Push clients true = .ok (true, t, sent) ∧ t.length = clients.length
            ∧ SlotsWF t
            ∧ t.getD i none = some (Client.create clients.length i)
            ∧ (Client.create clients.length i).my_server_slot_ = i
            ∧ t.map (Option.map Client.my_server_slot_)
                = (clients.map (Option.map Client.my_server_slot_)).set i (some i)
            ∧ ∀ j, j ≠ i → ∃ q, t.getD j none
                = (clients.getD j none).map (fun c => { c with reliable_data_ := q }) := by
  refine ⟨fun sends t sent => ⟨fun h => ?_, fun h => ?_⟩, fun i hi hfree hfirst => ?_⟩
  · cases hff : Push.firstFree 0 clients with
    | none =>
      have e : Push clients sends = .ok (false, clients, []) := by
        unfold Push
        simp only [hff]
      rw [e] at h
      simp only [Except.ok.injEq, Prod.mk.injEq, true_and] at h
      exact ⟨(firstFree_none clients 0).mp hff, h.1.symm, h.2.symm⟩
    | some i =>
      have := Push_true_of_firstFree clients sends i hff _ h
      simp at this
  · obtain ⟨h1, h2, h3⟩ := h
    have hff := (firstFree_none clients 0).mpr h1
    unfold Push
    simp only [hff, h2, h3]
  · have hff : Push.firstFree 0 clients = some i :=
      (firstFree_some clients 0 i).mpr ⟨i, by omega, hi, hfree, hfirst⟩
    obtain ⟨t, sent, e, hl, hnew, hother⟩ := Push_joins clients i hwf hlen hi hff
    have hslots : ∀ j, j ≠ i → (t.getD j none).map Client.my_server_slot_
        = (clients.getD j none).map Client.my_server_slot_ := by
      intro j hj
      rw [hother j hj]
      cases clients.getD j none with
      | none => rfl
      | some c =>
        simp only [Option.map_some', Option.some.injEq]
        split_ifs
        · exact (foldl_pushReliable_frame _ c).1
        · rfl
    refine ⟨t, sent, e, hl, ?_, hnew, rfl, ?_, ?_⟩
    · intro j c hc
      by_cases hj : j = i
      · subst hj
        rw [hnew] at hc
        simp only [Option.some.injEq] at hc
        subst hc
        simp [Client.create, hl]
      · rw [hother j hj] at hc
        cases hc0 : clients.getD j none with
        | none => rw [hc0] at hc; simp at hc
        | some c0 =>
          rw [hc0] at hc
          simp only [Option.map_some', Option.some.injEq] at hc
          obtain ⟨w1, w2, w3⟩ := hwf j c0 hc0
          obtain ⟨f1, f2, f3⟩ :=
            foldl_pushReliable_frame (joinBroadcasts i (clients.getD i none).isSome) c0
          subst hc
          split_ifs
          · exact ⟨by rw [f1, w1], by rw [f2, w2, hl], by rw [f3, w3, hl]⟩
          · exact ⟨w1, by rw [w2, hl], by rw [w3, hl]⟩
    · exact occupants_of_getD t clients i hl hi (by rw [hnew]; rfl) hslots
    · intro j hj
      rw [hother j hj]
      cases clients.getD j none with
      | none => exact ⟨[], rfl⟩
      | some c =>
        simp only [Option.map_some', Option.some.injEq]
        split_ifs
        · exact foldl_pushReliable_eq _ c
        · exact ⟨c.reliable_data_, rfl⟩

theorem Push_fills_first_free_slot_witness :
    SlotsWF [some (Client.create 2 0), none] ∧ [some (Client.create 2 0), none].length ≤ 256
      ∧ ∃ t sent, Push [some (Client.create 2 0), none] true = .ok (true, t, sent)
          ∧ t.map (Option.map Client.my_server_slot_) = [some 0, some 1]
          ∧ t.getD 1 none = some (Client.create 2 1) := by
  have hwf : SlotsWF [some (Client.create 2 0), none] := by
    intro i c h
    match i, h with
    | 0, h =>
      simp only [List.getD_cons_zero, Option.some.injEq] at h
      subst h
      exact ⟨rfl, rfl, rfl⟩
    | 1, h => simp at h
    | i + 2, h => simp at h
  have hlen : [some (Client.create 2 0), none].length ≤ 256 := by decide
  refine ⟨hwf, hlen, ?_⟩
  obtain ⟨t, sent, e, _, _, hnew, _, hocc, _⟩ :=
    (Push_fills_first_free_slot _ hwf hlen).2 1 (by decide) (by simp)
      (fun j hj => by
        have : j = 0 := by omega
        subst this
        exact ⟨_, rfl, by decide⟩)
  exact ⟨t, sent, e, by rw [hocc]; rfl, hnew⟩

end Network

/-! ## The exit code of the server -/

namespace Server

/-- `SetArguments` returns 0 or 1, never the 2 that `main` turns into exit
code 1. -/
theorem SetArguments_code (name : String) :
    ∀ (n : Nat) (rest : List String) (args : Arguments) (r : Nat × Arguments × List Message),
      rest.length ≤ n → SetArguments name args rest = .ok r → r.1 = 0 ∨ r.1 = 1 := by
  intro n
  induction n with
  | zero =>
    intro rest args r hl h
    have : rest = [] := List.length_eq_zero.mp (by omega)
    subst this
    simp only [SetArguments, Except.ok.injEq] at h
    subst h
    exact Or.inl rfl
  | succ n ih =>
    intro rest args r hl h
    cases rest with
    | nil =>
      simp only [SetArguments, Except.ok.injEq] at h
      subst h
      exact Or.inl rfl
    | cons arg rest =>
      simp only [List.length_cons] at hl
      cases rest with
      | nil =>
        simp only [SetArguments] at h
        split_ifs at h
        · cases h
          exact Or.inr rfl
        · cases h
          exact Or.inl rfl
      | cons value rest1 =>
        simp only [List.length_cons] at hl
        simp only [SetArguments] at h
        split_ifs at h
        · cases h
          exact Or.inr rfl
        · exact ih rest1 _ r (by omega) h
        · cases h
          exact Or.inr rfl
        · exact ih rest1 _ r (by omega) h
        · exact ih rest1 _ r (by omega) h
        · exact ih rest1 _ r (by omega) h
        · exact ih (value :: rest1) _ r (by simp only [List.length_cons]; omega) h

/-- C23 (failing input): started as `server -mp 300`, or with
`--max_players 256`, the program writes the error message, does not enter
`Loop`, so the listener is never started, and `main` returns 0, not 1:
`SetArguments` returns 1 for the error, the value it also returns for the
help options, and `main` maps 1 to exit code 0.  No command line makes
`SetArguments` return the 2 that `main` maps to exit code 1, so whenever
`Loop` is not entered the exit code is 0.  The help options print the usage
and exit with 0. -/
theorem main_returns_zero_on_max_players_out_of_range :
    (∀ Loop, main ["server", "-mp", "300"] Loop = .ok ⟨0, false, [.maxPlayersOutOfRange]⟩)
      ∧ (∀ Loop, main ["server", "--max_players", "256"] Loop
          = .ok ⟨0, false, [.maxPlayersOutOfRange]⟩)
      ∧ (∀ Loop, main ["server", "-h"] Loop = .ok ⟨0, false, [.usage "server"]⟩)
      ∧ (∀ Loop, main ["server", "--help"] Loop = .ok ⟨0, false, [.usage "server"]⟩)
      ∧ (∀ Loop, main ["server", "/?"] Loop = .ok ⟨0, false, [.usage "server"]⟩)
      ∧ ∀ argv Loop r, main argv Loop = .ok r → r.loop_entered = false → r.exit_code = 0 := by
  have h1 : SetArguments "server" {} ["-mp", "300"]
      = .ok (1, { max_clients := 300 }, [.maxPlayersOutOfRange]) := by decide
  have h2 : SetArguments "server" {} ["--max_players", "256"]
      = .ok (1, { max_clients := 256 }, [.maxPlayersOutOfRange]) := by decide
  have h3 : SetArguments "server" {} ["-h"] = .ok (1, {}, [.usage "server"]) := by decide
  have h4 : SetArguments "server" {} ["--help"] = .ok (1, {}, [.usage "server"]) := by decide
  have h5 : SetArguments "server" {} ["/?"] = .ok (1, {}, [.usage "server"]) := by decide
  refine ⟨fun _ => ?_, fun _ => ?_, fun _ => ?_, fun _ => ?_, fun _ => ?_, ?_⟩
  · simp only [main, List.headD_cons, List.tail_cons, h1, if_true]
  · simp only [main, List.headD_cons, List.tail_cons, h2, if_true]
  · simp only [main, List.headD_cons, List.tail_cons, h3, if_true]
  · simp only [main, List.headD_cons, List.tail_cons, h4, if_true]
  · simp only [main, List.headD_cons, List.tail_cons, h5, if_true]
  · intro argv Loop r h hl
    unfold main at h
    cases hs : SetArguments (argv.headD "") {} argv.tail with
    | error f =>
      rw [hs] at h
      cases h
    | ok v =>
      obtain ⟨error, args, cerr⟩ := v
      rw [hs] at h
      simp only at h
      have hc := SetArguments_code _ _ _ _ _ (le_refl _) hs
      simp only at hc
      rcases hc with hc | hc
      · subst hc
        simp only [zero_ne_one, if_false, OfNat.zero_ne_ofNat] at h
        cases hL : Loop args with
        | error f =>
          rw [hL] at h
          cases h
          cases hl
        | ok u =>
          rw [hL] at h
          cases h
          cases hl
      · subst hc
        simp only [if_true] at h
        cases h
        rfl

end Server

/-! ## Evaluating float operations on exact results -/

namespace Network.F32

/-- A value that a float holds exactly rounds to that float. -/
theorem round_eq (x : F32) (hv : x.Valid) (hf : x.exp < 255) (s : Bool) (m : Nat) (e : Int)
    (j k : Nat) (hs : s = x.sign) (hm : m * 2 ^ j = x.sig * 2 ^ k)
    (he : e - (j : Int) = x.ex - (k : Int)) : round s m e = x := by
  have h1 : round s m e = round s (m * 2 ^ j) (e - j) := (round_shift s m e j).symm
  have h2 : round x.sign (x.sig * 2 ^ k) (x.ex - k) = round x.sign x.sig x.ex :=
    round_shift x.sign x.sig x.ex k
  rw [h1, hs, hm, he, h2, round_self x hv hf]

theorem isNaN_of_finite (x : F32) (hf : x.exp < 255) : x.isNaN = false := by
  have : ¬ (255 ≤ x.exp) := by omega
  simp [isNaN, this]

/-- An exact product. -/
theorem mul_eq (x y z : F32) (hx : x.exp < 255) (hy : y.exp < 255) (hv : z.Valid)
    (hf : z.exp < 255) (j k : Nat) (hs : (x.sign != y.sign) = z.sign)
    (hm : x.sig * y.sig * 2 ^ j = z.sig * 2 ^ k)
    (he : x.ex + y.ex - (j : Int) = z.ex - (k : Int)) : mul x y = z := by
  have h1 : ¬ (255 ≤ x.exp ∨ 255 ≤ y.exp) := by omega
  simp only [mul, isNaN_of_finite x hx, isNaN_of_finite y hy, Bool.or_self,
    Bool.false_eq_true, if_false, h1]
  exact round_eq z hv hf _ _ _ j k hs hm he

/-- An exact quotient. -/
theorem div_eq (x y z : F32) (hx : x.exp < 255) (hy : y.exp < 255) (hy0 : y.isZero = false)
    (hv : z.Valid) (hf : z.exp < 255) (j k : Nat) (hs : (x.sign != y.sign) = z.sign)
    (hr : x.sig * 2 ^ 64 % y.sig = 0)
    (hm : 2 * (x.sig * 2 ^ 64 / y.sig) * 2 ^ j = z.sig * 2 ^ k)
    (he : x.ex - y.ex - 65 - (j : Int) = z.ex - (k : Int)) : div x y = z := by
  have h1 : ¬ (255 ≤ x.exp) := by omega
  have h2 : ¬ (255 ≤ y.exp) := by omega
  simp only [div, isNaN_of_finite x hx, isNaN_of_finite y hy, Bool.or_self,
    Bool.false_eq_true, if_false, h1, h2, hy0, hr, if_true, Nat.add_zero]
  exact round_eq z hv hf _ _ _ j k hs hm he

theorem isqrtAux_spec (N : Nat) :
    ∀ (k r : Nat), r * r ≤ N → N < (r + 2 ^ k) * (r + 2 ^ k) →
      isqrtAux N k r * isqrtAux N k r ≤ N
        ∧ N < (isqrtAux N k r + 1) * (isqrtAux N k r + 1) := by
  intro k
  induction k with
  | zero =>
    intro r h1 h2
    simpa [isqrtAux] using ⟨h1, h2⟩
  | succ k ih =>
    intro r h1 h2
    rw [isqrtAux]
    split_ifs with h
    · refine ih _ h ?_
      have e : r + 2 ^ k + 2 ^ k = r + 2 ^ (k + 1) := by rw [pow_succ]; omega
      rw [e]
      exact h2
    · exact ih r h1 (by omega)

/-- The integer square root of a square. -/
theorem isqrt_sq (r : Nat) : isqrt (r * r) = r := by
  by_cases hr : r = 0
  · subst hr
    simp [isqrt, isqrtAux, Nat.size_zero]
  have hN : r * r ≠ 0 := Nat.mul_ne_zero hr hr
  obtain ⟨_, _, h3⟩ := size_bounds (r * r) hN
  have hlt : r * r < (0 + 2 ^ ((r * r).size / 2 + 1)) * (0 + 2 ^ ((r * r).size / 2 + 1)) := by
    rw [Nat.zero_add, ← pow_add]
    exact lt_of_lt_of_le h3 (Nat.pow_le_pow_right (by norm_num) (by omega))
  obtain ⟨h1, h2⟩ := isqrtAux_spec (r * r) _ 0 (Nat.zero_le _) hlt
  have a : isqrt (r * r) ≤ r := by
    by_contra hc
    have : r + 1 ≤ isqrt (r * r) := by omega
    have := Nat.mul_le_mul this this
    unfold isqrt at this
    nlinarith
  have b : r ≤ isqrt (r * r) := by
    by_contra hc
    have : isqrt (r * r) + 1 ≤ r := by omega
    have := Nat.mul_le_mul this this
    unfold isqrt at this
    omega
  omega

/-- The exact square root of a float that is the square of a float. -/
theorem sqrt_eq (x z : F32) (hx : x.exp < 255) (hx0 : x.isZero = false)
    (hxs : x.sign = false) (hv : z.Valid) (hf : z.exp < 255) (hzs : z.sign = false)
    (r j k : Nat)
    (hr : x.sig * 2 ^ (if x.ex % 2 = 0 then 64 else 65) = r * r)
    (hm : 2 * r * 2 ^ j = z.sig * 2 ^ k)
    (he : (x.ex - ((if x.ex % 2 = 0 then 64 else 65 : Nat) : Int)) / 2 - 1 - (j : Int)
      = z.ex - (k : Int)) : sqrt x = z := by
  have h1 : ¬ (255 ≤ x.exp) := by omega
  simp only [sqrt, isNaN_of_finite x hx, Bool.false_eq_true, if_false, hx0, hxs, h1, hr,
    isqrt_sq, if_true, Nat.add_zero]
  exact round_eq z hv hf _ _ _ j k hzs.symm hm he

theorem ex_ge (x : F32) : -149 ≤ x.ex := by
  unfold ex
  split_ifs <;> omega

/-- Adding a zero to a float that is not zero. -/
theorem add_zero_eq (x y : F32) (hv : x.Valid) (hf : x.exp < 255) (hx0 : x.sig ≠ 0)
    (hye : y.exp = 0) (hym : y.man = 0) : add x y = x := by
  have h1 : ¬ (255 ≤ x.exp) := by omega
  have h2 : ¬ (255 ≤ y.exp) := by omega
  have hys : y.sig = 0 := by simp [sig, hye, hym]
  have hyx : y.ex = -149 := by simp [ex, hye]
  have hge := ex_ge x
  have hmin : min x.ex (-149) = -149 := min_eq_right hge
  have hk : ((x.ex - -149).toNat : Int) = x.ex + 149 := by
    rw [Int.toNat_of_nonneg (by omega)]
    omega
  have hpos : 0 < x.sig * 2 ^ (x.ex - -149).toNat :=
    Nat.mul_pos (Nat.pos_of_ne_zero hx0) (by positivity)
  simp only [add, isNaN_of_finite x hf, isNaN_of_finite y (by omega), Bool.or_self,
    Bool.false_eq_true, if_false, h1, h2, hys, hyx, hmin, Nat.zero_mul, Nat.cast_zero, neg_zero,
    ite_self, add_zero]
  have hS : (if x.sign = true then -((x.sig * 2 ^ (x.ex - -149).toNat : Nat) : Int)
      else ((x.sig * 2 ^ (x.ex - -149).toNat : Nat) : Int)) ≠ 0 := by
    split_ifs <;> omega
  rw [if_neg hS]
  refine round_eq x hv hf _ _ _ 0 (x.ex - -149).toNat ?_ ?_ ?_
  · cases hsx : x.sign
    · simp only [Bool.false_eq_true, if_false, decide_eq_false_iff_not, not_lt]
      omega
    · simp only [if_true, decide_eq_true_eq]
      omega
  · split_ifs
    · simp [Int.natAbs_neg, Int.natAbs_mul, Int.natAbs_pow]
    · simp [Int.natAbs_mul, Int.natAbs_pow]
  · rw [hk]
    simp

theorem ofInt_5 : ofInt 5 = ⟨false, 129, 2097152⟩ :=
  round_eq ⟨false, 129, 2097152⟩ (by decide) (by decide) _ _ _ 21 0 (by decide) (by decide)
    (by decide)

theorem ofInt_200 : ofInt 200 = ⟨false, 134, 4718592⟩ :=
  round_eq ⟨false, 134, 4718592⟩ (by decide) (by decide) _ _ _ 16 0 (by decide) (by decide)
    (by decide)

theorem ofInt_1050 : ofInt 1050 = ⟨false, 137, 212992⟩ :=
  round_eq ⟨false, 137, 212992⟩ (by decide) (by decide) _ _ _ 13 0 (by decide) (by decide)
    (by decide)

/-- `200.0f * 1050 / 200` is `1050.0f`. -/
theorem speed_200_200 :
    div (mul (ofInt 200) (ofInt 1050)) (ofInt 200) = ofInt 1050 := by
  have hm : mul ⟨false, 134, 4718592⟩ ⟨false, 137, 212992⟩ = ⟨false, 144, 5051392⟩ :=
    mul_eq _ _ _ (by decide) (by decide) (by decide) (by decide) 0 23 (by decide) (by decide)
      (by decide)
  have hd : div ⟨false, 144, 5051392⟩ ⟨false, 134, 4718592⟩ = ⟨false, 137, 212992⟩ :=
    div_eq _ _ _ (by decide) (by decide) (by decide) (by decide) (by decide) 0 42 (by decide)
      (by decide) (by decide) (by decide)
  rw [ofInt_200, ofInt_1050, hm, hd]

theorem five_lt_200 : lt (ofInt 5) (ofInt 200) = true := by
  rw [ofInt_5, ofInt_200]
  decide

end Network.F32

namespace Game

open Network

/-- The distance between two locations with a cell that differ by `200.0f` in
the first coordinate only, the other coordinates being `0.0f`. -/
theorem DistanceBetween_200 (a b : Location) (ha : a.has_cell_ = true)
    (hb : b.has_cell_ = true) (hax : a.position_ = [F32.ofInt 200, F32.zero, F32.zero])
    (hbx : b.position_ = [F32.zero, F32.zero, F32.zero]) :
    DistanceBetween a b = F32.ofInt 200 := by
  have hx : F32.sub ⟨false, 134, 4718592⟩ F32.zero = ⟨false, 134, 4718592⟩ :=
    F32.add_zero_eq _ _ (by decide) (by decide) (by decide) rfl rfl
  have h0 : F32.sub F32.zero F32.zero = F32.zero := by decide
  have hsq : F32.mul ⟨false, 134, 4718592⟩ ⟨false, 134, 4718592⟩ = ⟨false, 142, 1851392⟩ :=
    F32.mul_eq _ _ _ (by decide) (by decide) (by decide) (by decide) 0 24 (by decide)
      (by decide) (by decide)
  have hz : F32.mul F32.zero F32.zero = F32.zero := by decide
  have hadd : F32.add ⟨false, 142, 1851392⟩ F32.zero = ⟨false, 142, 1851392⟩ :=
    F32.add_zero_eq _ _ (by decide) (by decide) (by decide) rfl rfl
  have hrt : F32.sqrt ⟨false, 142, 1851392⟩ = ⟨false, 134, 4718592⟩ :=
    F32.sqrt_eq _ _ (by decide) (by decide) rfl (by decide) (by decide) rfl (3200 * 2 ^ 32) 0 21
      (by decide) (by decide) (by decide)
  simp only [DistanceBetween, Location.is_empty, ha, hb, Bool.not_true, Bool.or_self,
    Bool.false_eq_true, if_false, Location.x, Location.y, Location.z, hax, hbx,
    List.getD_cons_zero, List.getD_cons_succ, F32.ofInt_200, hx, h0, hsq, hz, hadd, hrt]

end Game

/-! ## The speed of a translation -/

namespace Game.Player

open Network Data.Sharing

theorem Translate_translated (t : Translator) (F : Location) :
    (t.Translate F).translated
      = if F32.lt kMovementThreshold (DistanceBetween F t.current_) = true then
          t.translated ++ [(F, F32.div (F32.mul (DistanceBetween F t.current_) (F32.ofInt 1050))
            (F32.ofInt (TimeSubtract F t.current_)))]
        else t.translated := by
  unfold Translator.Translate
  by_cases h : F32.lt kMovementThreshold (DistanceBetween F t.current_) = true
  · simp only [h, if_true]
  · simp only [h, if_false, Bool.false_eq_true]

theorem Translate_current (t : Translator) (F : Location) : (t.Translate F).current_ = F := rfl

theorem ChangeLoadedArea_translated (t : Translator) (F : Location) :
    (t.ChangeLoadedArea F).translated = t.translated := rfl

/-- C27: `Translate(F)` invokes `TranslateTo` exactly when
`DistanceBetween(F, current) > 5`, with
`speed = distance * 1050 / time_ms`, `time_ms = TimeSubtract(F, current)`,
and `current` is `F` afterwards whether or not it moved; and in a pass of the
update loop, which forwards a future only when
`TimeSubtract(F, current) > 1`, every `TranslateTo` call is made with
`time_ms > 1` at the division. -/
theorem Translate_speed (engine : Engine) (t : Translator) (F : Location) :
    ((t.Translate F).translated
        = if F32.lt kMovementThreshold (DistanceBetween F t.current_) = true then
            t.translated
              ++ [(F, F32.div (F32.mul (DistanceBetween F t.current_) (F32.ofInt 1050))
                (F32.ofInt (TimeSubtract F t.current_)))]
          else t.translated)
      ∧ (t.Translate F).current_ = F
      ∧ ∀ t1, t.UpdateLoopPass engine = .ok t1 →
          t1.translated = t.translated
            ∨ ∃ G, 1 < TimeSubtract G t.current_
                ∧ F32.lt kMovementThreshold (DistanceBetween G t.current_) = true
                ∧ t1.current_ = G
                ∧ t1.translated = t.translated
                    ++ [(G, F32.div (F32.mul (DistanceBetween G t.current_) (F32.ofInt 1050))
                      (F32.ofInt (TimeSubtract G t.current_)))] := by
  refine ⟨Translate_translated t F, rfl, ?_⟩
  intro t1 h
  unfold Translator.UpdateLoopPass at h
  simp only at h
  split_ifs at h with hr
  · cases hd : Location.ofProperty ⟨.kLocation, t.future_.Pop.1⟩ with
    | error f =>
      rw [hd] at h
      cases h
    | ok G =>
      rw [hd] at h
      simp only at h
      split_ifs at h with ht
      · cases h
        unfold Translator.FutureToCurrent
        split_ifs
        · rw [Translate_translated]
          split_ifs with hl
          · exact Or.inr ⟨G, ht, hl, rfl, rfl⟩
          · exact Or.inl rfl
        · exact Or.inl rfl
      · cases h
        exact Or.inl rfl
  · cases h
    exact Or.inl rfl

/-- C22 (amended): for a future `F` in the same cell and world space as the
current location, its cell attached, at distance 200 from it and with
`elapsed_ms` 200 later, `Translate` invokes `TranslateTo` with the speed
`200 * 1050 / 200 = 1050`. -/
theorem Translate_speed_at_200_in_200 (engine : Engine) (t : Translator) (F : Location)
    (hc : InSameCell F t.current_ = true) (hw : InSameWorldSpace F t.current_ = true)
    (ha : engine.CellIsAttached F = true)
    (hd : DistanceBetween F t.current_ = F32.ofInt 200)
    (ht : TimeSubtract F t.current_ = 200) :
    (t.FutureToCurrent engine F).translated = t.translated ++ [(F, F32.ofInt 1050)]
      ∧ (t.FutureToCurrent engine F).current_ = F := by
  have hn : t.IsNewCell engine F = false := by
    simp [Translator.IsNewCell, hc, hw]
  unfold Translator.FutureToCurrent
  simp only [hn, ha, Bool.not_false, Bool.and_self, if_true]
  refine ⟨?_, rfl⟩
  have hlt : F32.lt kMovementThreshold (F32.ofInt 200) = true := F32.five_lt_200
  rw [Translate_translated, hd, ht, if_pos hlt, F32.speed_200_200]

theorem Translate_speed_at_200_in_200_witness :
    InSameCell ⟨true, true, 1, 2, 1200, [F32.ofInt 200, F32.zero, F32.zero]⟩
        (⟨⟨true, true, 1, 2, 1000, [F32.zero, F32.zero, F32.zero]⟩, FixedQueue.createDefault,
          true, 100, [], []⟩ : Translator).current_ = true
      ∧ InSameWorldSpace ⟨true, true, 1, 2, 1200, [F32.ofInt 200, F32.zero, F32.zero]⟩
          (⟨⟨true, true, 1, 2, 1000, [F32.zero, F32.zero, F32.zero]⟩, FixedQueue.createDefault,
            true, 100, [], []⟩ : Translator).current_ = true
      ∧ DistanceBetween ⟨true, true, 1, 2, 1200, [F32.ofInt 200, F32.zero, F32.zero]⟩
          (⟨⟨true, true, 1, 2, 1000, [F32.zero, F32.zero, F32.zero]⟩, FixedQueue.createDefault,
            true, 100, [], []⟩ : Translator).current_ = F32.ofInt 200
      ∧ TimeSubtract ⟨true, true, 1, 2, 1200, [F32.ofInt 200, F32.zero, F32.zero]⟩
          (⟨⟨true, true, 1, 2, 1000, [F32.zero, F32.zero, F32.zero]⟩, FixedQueue.createDefault,
            true, 100, [], []⟩ : Translator).current_ = 200
      ∧ ((⟨⟨true, true, 1, 2, 1000, [F32.zero, F32.zero, F32.zero]⟩, FixedQueue.createDefault,
            true, 100, [], []⟩ : Translator).FutureToCurrent ⟨fun _ => true, fun _ => false⟩
          ⟨true, true, 1, 2, 1200, [F32.ofInt 200, F32.zero, F32.zero]⟩).translated
          = [] ++ [(⟨true, true, 1, 2, 1200, [F32.ofInt 200, F32.zero, F32.zero]⟩,
              F32.ofInt 1050)] :=
  ⟨rfl, rfl, DistanceBetween_200 _ _ rfl rfl rfl rfl, by decide,
    (Translate_speed_at_200_in_200 ⟨fun _ => true, fun _ => false⟩
      ⟨⟨true, true, 1, 2, 1000, [F32.zero, F32.zero, F32.zero]⟩, FixedQueue.createDefault,
        true, 100, [], []⟩
      ⟨true, true, 1, 2, 1200, [F32.ofInt 200, F32.zero, F32.zero]⟩ rfl rfl rfl
      (DistanceBetween_200 _ _ rfl rfl rfl rfl) (by decide)).1⟩

/-- C22 (counterexample): the current location is the origin of cell 2 with
`elapsed_ms` 1000, the future is the point `(200, 0, 0)` of the same cell
with `elapsed_ms` 1200.  The distance is `200.0f`, the time 200, and
`TranslateTo` is invoked with the speed `1050.0f` (bit fields
`0, 137, 212992`), a thousandth of `1050000.0f`. -/
theorem Translate_speed_is_1050 :
    DistanceBetween ⟨true, true, 1, 2, 1200, [F32.ofInt 200, F32.zero, F32.zero]⟩
        ⟨true, true, 1, 2, 1000, [F32.zero, F32.zero, F32.zero]⟩ = F32.ofInt 200
      ∧ TimeSubtract ⟨true, true, 1, 2, 1200, [F32.ofInt 200, F32.zero, F32.zero]⟩
          ⟨true, true, 1, 2, 1000, [F32.zero, F32.zero, F32.zero]⟩ = 200
      ∧ ((⟨⟨true, true, 1, 2, 1000, [F32.zero, F32.zero, F32.zero]⟩, FixedQueue.createDefault,
            true, 100, [], []⟩ : Translator).FutureToCurrent ⟨fun _ => true, fun _ => false⟩
          ⟨true, true, 1, 2, 1200, [F32.ofInt 200, F32.zero, F32.zero]⟩).translated
          = [(⟨true, true, 1, 2, 1200, [F32.ofInt 200, F32.zero, F32.zero]⟩,
              ⟨false, 137, 212992⟩)]
      ∧ (⟨false, 137, 212992⟩ : F32) = F32.ofInt 1050
      ∧ F32.mul ⟨false, 137, 212992⟩ (F32.ofInt 1000) = F32.ofInt 1050000 := by
  have h1000 : F32.ofInt 1000 = ⟨false, 136, 7995392⟩ :=
    F32.round_eq ⟨false, 136, 7995392⟩ (by decide) (by decide) _ _ _ 14 0 (by decide)
      (by decide) (by decide)
  have hbig : F32.ofInt 1050000 = ⟨false, 147, 11392⟩ :=
    F32.round_eq ⟨false, 147, 11392⟩ (by decide) (by decide) _ _ _ 3 0 (by decide)
      (by decide) (by decide)
  refine ⟨DistanceBetween_200 _ _ rfl rfl rfl rfl, by decide, ?_, F32.ofInt_1050.symm, ?_⟩
  · have hd : DistanceBetween ⟨true, true, 1, 2, 1200, [F32.ofInt 200, F32.zero, F32.zero]⟩
        ⟨true, true, 1, 2, 1000, [F32.zero, F32.zero, F32.zero]⟩ = F32.ofInt 200 :=
      DistanceBetween_200 _ _ rfl rfl rfl rfl
    have ht : TimeSubtract ⟨true, true, 1, 2, 1200, [F32.ofInt 200, F32.zero, F32.zero]⟩
        ⟨true, true, 1, 2, 1000, [F32.zero, F32.zero, F32.zero]⟩ = 200 := by decide
    have hlt : F32.lt kMovementThreshold (F32.ofInt 200) = true := F32.five_lt_200
    have hn : Translator.IsNewCell ⟨fun _ => true, fun _ => false⟩
        ⟨⟨true, true, 1, 2, 1000, [F32.zero, F32.zero, F32.zero]⟩, FixedQueue.createDefault,
          true, 100, [], []⟩
        ⟨true, true, 1, 2, 1200, [F32.ofInt 200, F32.zero, F32.zero]⟩ = false := rfl
    unfold Translator.FutureToCurrent
    simp only [hn, Bool.not_false, Bool.and_self, if_true]
    rw [Translate_translated, hd, ht, if_pos hlt, F32.speed_200_200, F32.ofInt_1050]
    rfl
  · rw [h1000, hbig]
    exact F32.mul_eq _ _ _ (by decide) (by decide) (by decide) (by decide) 0 24 (by decide)
      (by decide) (by decide)

end Game.Player
